import Mathlib

/-!
# Sorted-set skip list (`datastructure/sortedset`)

A shallow embedding of `skiplist.go` and `border.go`.

* Pointers `*Node` are natural-number addresses into an explicit heap
  (`skiplist.heap`); the nil pointer is `none`.
* Every operation runs in `Option`: `none` stands for a run-time panic (nil
  dereference, index out of range) or for a pointer-chasing loop that exhausts
  its fuel.  The fuel of every such loop is `skiplist.next`, the number of
  nodes ever allocated.
* `float64` scores are rationals (NaN is outside the contract of the index,
  and the two infinities are not modelled);
  `int64` counters are integers: they count nodes, so they stay far from the
  wrap-around; `int16` levels are naturals, except for the counter of
  `randomLevel`, an integer with explicit wrap-around (`wrap16`).
* Go compares strings bytewise; members are compared through their character
  lists, which is the order of `String`.
* The random height drawn by `randomLevel` inside `insert` is an explicit
  argument of `insert`.
* A node owns its `Level` records (`makeNode` allocates one per slot and no
  slot is ever reassigned), so `level []*Level` is a list of records and the
  test `node.level[i] != nil` of `insert` always succeeds.
* The slices `update` and `rank` of length `maxLevel` are functions on the
  naturals; an access at an index beyond `maxLevel` fails.
* `randomLevel` reads its random source as an explicit list of draws.
* The echo handler of `test/tcp/echo.go` is modelled on one connection as a
  function from the bytes the client sends to the writes of the handler; the
  connection is a reliable ordered byte stream and every write succeeds.  The
  calls `ReadString` and `ReadLine` of `bufio` follow their documented
  behaviour.
-/

namespace sortedset

/-! ## Data model -/

/-- The Go constant `maxLevel`. -/
def maxLevel : Nat := 16

/-- A member with its score. -/
structure Element where
  Member : String
  Score : Rat
deriving DecidableEq

/-- One forward link of a node: the next node on that level and the number of
level-0 hops to it. -/
structure Level where
  forward : Option Nat
  span : Int
deriving DecidableEq

/-- A skip-list node: the embedded element, the level-0 back pointer and the
per-level forward links (`level[0]` is the bottom level). -/
structure Node extends Element where
  backward : Option Nat
  level : List Level
deriving DecidableEq

/-- The skip list together with the heap its pointers live in. -/
structure skiplist where
  heap : Nat → Option Node
  next : Nat
  header : Nat
  tail : Option Nat
  length : Int
  level : Nat

/-! ## Heap primitives -/

/-- Reads `p.level[i]`: fails on a dangling pointer or an index out of range. -/
def lvl (s : skiplist) (p i : Nat) : Option Level :=
  match s.heap p with
  | none => none
  | some n => n.level.get? i

/-- Stores `l` into `p.level[i]`. -/
def setLevel (s : skiplist) (p i : Nat) (l : Level) : Option skiplist :=
  match s.heap p with
  | none => none
  | some n =>
    if i < n.level.length then
      some { s with heap := Function.update s.heap p (some { n with level := n.level.set i l }) }
    else none

/-- The assignment `p.level[i].forward = v`. -/
def setForward (s : skiplist) (p i : Nat) (v : Option Nat) : Option skiplist :=
  match lvl s p i with
  | none => none
  | some l => setLevel s p i { l with forward := v }

/-- The assignment `p.level[i].span = v`. -/
def setSpan (s : skiplist) (p i : Nat) (v : Int) : Option skiplist :=
  match lvl s p i with
  | none => none
  | some l => setLevel s p i { l with span := v }

/-- The assignment `p.backward = v`. -/
def setBackward (s : skiplist) (p : Nat) (v : Option Nat) : Option skiplist :=
  match s.heap p with
  | none => none
  | some n => some { s with heap := Function.update s.heap p (some { n with backward := v }) }

/-- The Go function `makeNode`: allocates a node of `level` fresh links at the
address `s.next`. -/
def makeNode (s : skiplist) (level : Nat) (ele : Element) : skiplist × Nat :=
  ({ s with
      heap := Function.update s.heap s.next
        (some { toElement := ele, backward := none,
                level := List.replicate level { forward := none, span := 0 } })
      next := s.next + 1 }, s.next)

/-- Modelled from the spec: the constructor of the list is not in the sources.
The empty list has a header of `maxLevel` levels whose forward references are
all nil, level 1, length 0 and no tail. -/
def empty : skiplist :=
  { heap := fun p =>
      if p = 0 then
        some { Member := "", Score := 0, backward := none,
               level := List.replicate maxLevel { forward := none, span := 0 } }
      else none
    next := 1
    header := 0
    tail := none
    length := 0
    level := 1 }

/-! ## Loop combinators -/

/-- The loop `for i := a; i < a + n; i++ { st = f i st }`. -/
def forUp {σ : Type} (f : Nat → σ → Option σ) : Nat → Nat → σ → Option σ
  | _, 0, st => some st
  | a, n + 1, st =>
    match f a st with
    | none => none
    | some st' => forUp f (a + 1) n st'

/-! ## Insertion -/

/-- The ordering test of `insert`: `a.Score < b.Score ||
a.Score == b.Score && a.Member < b.Member`. -/
def keyLess (a b : Element) : Bool :=
  decide (a.Score < b.Score) ||
    (decide (a.Score = b.Score) && decide (a.Member.toList < b.Member.toList))

/-- The inner loop of the search of `insert` on level `i`: advances while the
forward node is smaller than `ele`, adding the spans crossed to the rank. -/
def insertWalk (s : skiplist) (ele : Element) (i : Nat) : Nat → Nat → Int → Option (Nat × Int)
  | 0, _, _ => none
  | fuel + 1, node, r =>
    match lvl s node i with
    | none => none
    | some l =>
      match l.forward with
      | none => some (node, r)
      | some f =>
        match s.heap f with
        | none => none
        | some fn =>
          if keyLess fn.toElement ele then insertWalk s ele i fuel f (r + l.span)
          else some (node, r)

/-- The outer loop of the search of `insert`, levels `k - 1` down to `0`; it
fills `update` and `rank`. -/
def insertSearch (s : skiplist) (ele : Element) :
    Nat → Nat → (Nat → Option Nat) → (Nat → Int) → Option ((Nat → Option Nat) × (Nat → Int))
  | 0, _, update, rank => some (update, rank)
  | i + 1, node, update, rank =>
    if i < maxLevel then
      match insertWalk s ele i s.next node (if i + 1 = s.level then 0 else rank (i + 1)) with
      | none => none
      | some (node', r) =>
        insertSearch s ele i node' (Function.update update i (some node')) (Function.update rank i r)
    else none

/-- One round of the loop of `insert` that raises the list to a new level `i`. -/
def insertRaiseStep (i : Nat)
    (st : skiplist × (Nat → Option Nat) × (Nat → Int)) :
    Option (skiplist × (Nat → Option Nat) × (Nat → Int)) :=
  if i < maxLevel then
    match setSpan st.1 st.1.header i st.1.length with
    | none => none
    | some s' => some (s', Function.update st.2.1 i (some st.1.header), Function.update st.2.2 i 0)
  else none

/-- One round of the loop of `insert` that links the new node on level `i`. -/
def insertLinkStep (node : Nat) (update : Nat → Option Nat) (rank : Nat → Int) (i : Nat)
    (s : skiplist) : Option skiplist :=
  if i < maxLevel then
    match update i with
    | none => none
    | some u =>
      match lvl s u i with
      | none => none
      | some lu =>
        match setForward s node i lu.forward with
        | none => none
        | some s1 =>
          match setForward s1 u i (some node) with
          | none => none
          | some s2 =>
            match lvl s2 u i with
            | none => none
            | some lu2 =>
              match setSpan s2 node i (lu2.span - (rank 0 - rank i)) with
              | none => none
              | some s3 => setSpan s3 u i ((rank 0 - rank i) + 1)
  else none

/-- One round of the loop of `insert` that widens the span over the new node
on a level `i` the node does not reach. -/
def insertWidenStep (update : Nat → Option Nat) (i : Nat) (s : skiplist) : Option skiplist :=
  if i < maxLevel then
    match update i with
    | none => none
    | some u =>
      match lvl s u i with
      | none => none
      | some lu => setSpan s u i (lu.span + 1)
  else none

/-- The Go method `insert`, with the height `level` that `randomLevel` drew.
Returns the new state and the address of the new node. -/
def skiplist.insert (s : skiplist) (ele : Element) (level : Nat) : Option (skiplist × Nat) :=
  match insertSearch s ele s.level s.header (fun _ => none) (fun _ => 0) with
  | none => none
  | some (update0, rank0) =>
    match (if s.level < level then
            (forUp insertRaiseStep s.level (level - s.level) (s, update0, rank0)).map
              (fun st => ({ st.1 with level := level }, st.2.1, st.2.2))
          else some (s, update0, rank0)) with
    | none => none
    | some (s1, update, rank) =>
      match forUp (insertLinkStep (makeNode s1 level ele).2 update rank) 0 level
          (makeNode s1 level ele).1 with
      | none => none
      | some s2 =>
        match forUp (insertWidenStep update) level (s2.level - level) s2 with
        | none => none
        | some s3 =>
          match update 0 with
          | none => none
          | some u0 =>
            match setBackward s3 (makeNode s1 level ele).2
                (if u0 = s3.header then none else some u0) with
            | none => none
            | some s4 =>
              match lvl s4 (makeNode s1 level ele).2 0 with
              | none => none
              | some l0 =>
                match (match l0.forward with
                      | some f => setBackward s4 f (some (makeNode s1 level ele).2)
                      | none => some { s4 with tail := some (makeNode s1 level ele).2 }) with
                | none => none
                | some s5 => some ({ s5 with length := s5.length + 1 }, (makeNode s1 level ele).2)

/-! ## Score borders (`border.go`) -/

/-- A one-sided border of a score range. -/
structure ScoreBorder where
  Inf : Int
  Value : Rat
  Exclude : Bool

/-- The Go constant `negativeInf`. -/
def negativeInf : Int := -1

/-- The Go constant `positiveInf`. -/
def positiveInf : Int := 1

/-- The Go method `greater`: the score `value` is within the upper border. -/
def ScoreBorder.greater (border : ScoreBorder) (value : Rat) : Bool :=
  if border.Inf = negativeInf then false
  else if border.Inf = positiveInf then true
  else if border.Exclude then decide (border.Value > value)
  else decide (border.Value ≥ value)

/-- The Go method `less`: the score `value` is within the lower border. -/
def ScoreBorder.less (border : ScoreBorder) (value : Rat) : Bool :=
  if border.Inf = negativeInf then true
  else if border.Inf = positiveInf then false
  else if border.Exclude then decide (border.Value < value)
  else decide (border.Value ≤ value)

/-! ## Rank lookup -/

/-- The inner loop of `getByRank` on one level. -/
def rankWalk (s : skiplist) (rank : Int) (level : Nat) : Nat → Nat → Int → Option (Nat × Int)
  | 0, _, _ => none
  | fuel + 1, n, index =>
    match lvl s n level with
    | none => none
    | some l =>
      match l.forward with
      | none => some (n, index)
      | some f =>
        if index + l.span ≤ rank then rankWalk s rank level fuel f (index + l.span)
        else some (n, index)

/-- The outer loop of `getByRank`: `for level := k; level > 0; level--`. -/
def rankSearch (s : skiplist) (rank : Int) : Nat → Nat → Int → Option (Option Nat)
  | 0, _, _ => some none
  | level + 1, n, index =>
    match rankWalk s rank (level + 1) s.next n index with
    | none => none
    | some (n', index') =>
      if rank = index' then some (some n') else rankSearch s rank level n' index'

/-- The Go method `getByRank`; the inner `Option` is the returned pointer. -/
def skiplist.getByRank (s : skiplist) (rank : Int) : Option (Option Nat) :=
  rankSearch s rank (s.level - 1) s.header 0

/-! ## Score-range lookup -/

/-- The Go method `hasInRange`. -/
def skiplist.hasInRange (s : skiplist) (min max : ScoreBorder) : Option Bool :=
  if min.Value > max.Value ∨ (min.Value = max.Value ∧ (min.Exclude ∨ max.Exclude)) then some false
  else
    match s.tail with
    | none => some false
    | some t =>
      match s.heap t with
      | none => none
      | some tn =>
        if !min.less tn.Score then some false
        else
          match lvl s s.header 0 with
          | none => none
          | some l =>
            match l.forward with
            | none => some false
            | some f =>
              match s.heap f with
              | none => none
              | some fn => if !max.greater fn.Score then some false else some true

/-- The inner loop of `getFirstInScoreRange` on one level. -/
def rangeWalk (s : skiplist) (min : ScoreBorder) (level : Nat) : Nat → Nat → Option Nat
  | 0, _ => none
  | fuel + 1, n =>
    match lvl s n level with
    | none => none
    | some l =>
      match l.forward with
      | none => some n
      | some f =>
        match s.heap f with
        | none => none
        | some fn => if !min.less fn.Score then rangeWalk s min level fuel f else some n

/-- The outer loop of `getFirstInScoreRange`, levels `k - 1` down to `0`. -/
def rangeSearch (s : skiplist) (min : ScoreBorder) : Nat → Nat → Option Nat
  | 0, n => some n
  | level + 1, n =>
    match rangeWalk s min level s.next n with
    | none => none
    | some n' => rangeSearch s min level n'

/-- The Go method `getFirstInScoreRange`; the inner `Option` is the returned
pointer. -/
def skiplist.getFirstInScoreRange (s : skiplist) (min max : ScoreBorder) : Option (Option Nat) :=
  match s.hasInRange min max with
  | none => none
  | some false => some none
  | some true =>
    match rangeSearch s min s.level s.header with
    | none => none
    | some n =>
      match lvl s n 0 with
      | none => none
      | some l =>
        match l.forward with
        | none => none
        | some f =>
          match s.heap f with
          | none => none
          | some fn => if !max.greater fn.Score then some none else some (some f)

/-! ## Ranged removal -/

/-- One round of the loop of `removeNode` over the levels. -/
def removeUnlinkStep (node : Nat) (update : Nat → Option Nat) (i : Nat) (s : skiplist) :
    Option skiplist :=
  if i < maxLevel then
    match update i with
    | none => none
    | some u =>
      match lvl s u i with
      | none => none
      | some lu =>
        if lu.forward = some node then
          match lvl s node i with
          | none => none
          | some ln =>
            match setSpan s u i (lu.span + (ln.span - 1)) with
            | none => none
            | some s1 =>
              match lvl s1 node i with
              | none => none
              | some ln1 => setForward s1 u i ln1.forward
        else setSpan s u i (lu.span - 1)
  else none

/-- The loop of `removeNode` that drops empty top levels, as a function of the
current level: `for level > 1 && header.level[level-1].forward == nil`. -/
def shrinkLevel (s : skiplist) : Nat → Option Nat
  | 0 => some 0
  | 1 => some 1
  | k + 2 =>
    match lvl s s.header (k + 1) with
    | none => none
    | some l => if l.forward = none then shrinkLevel s (k + 1) else some (k + 2)

/-- The Go method `removeNode`. -/
def skiplist.removeNode (s : skiplist) (node : Nat) (update : Nat → Option Nat) :
    Option skiplist :=
  match forUp (removeUnlinkStep node update) 0 s.level s with
  | none => none
  | some s1 =>
    match s1.heap node, lvl s1 node 0 with
    | some n, some l0 =>
      match (match l0.forward with
            | some f => setBackward s1 f n.backward
            | none => some { s1 with tail := n.backward }) with
      | none => none
      | some s2 =>
        match shrinkLevel s2 s2.level with
        | none => none
        | some k => some { s2 with level := k, length := s2.length - 1 }
    | _, _ => none

/-- The inner loop of the search of `RemoveRangeByRank` on one level. -/
def removeWalk (s : skiplist) (start : Int) (level : Nat) : Nat → Nat → Int → Option (Nat × Int)
  | 0, _, _ => none
  | fuel + 1, node, i =>
    match lvl s node level with
    | none => none
    | some l =>
      match l.forward with
      | none => some (node, i)
      | some f =>
        if i + l.span < start then removeWalk s start level fuel f (i + l.span)
        else some (node, i)

/-- The outer loop of the search of `RemoveRangeByRank`, levels `k - 1` down
to `0`; it fills `update`. -/
def removeSearch (s : skiplist) (start : Int) :
    Nat → Nat → Int → (Nat → Option Nat) → Option (Nat × Int × (Nat → Option Nat))
  | 0, node, i, update => some (node, i, update)
  | level + 1, node, i, update =>
    match removeWalk s start level s.next node i with
    | none => none
    | some (node', i') =>
      if level < maxLevel then
        removeSearch s start level node' i' (Function.update update level (some node'))
      else none

/-- The removal loop of `RemoveRangeByRank`: `for node != nil && i < stop`. -/
def removeLoop (update : Nat → Option Nat) (stop : Int) :
    Nat → skiplist → Option Nat → Int → List Element → Option (skiplist × List Element)
  | 0, _, _, _, _ => none
  | _ + 1, s, none, _, removed => some (s, removed)
  | fuel + 1, s, some p, i, removed =>
    if i < stop then
      match lvl s p 0, s.heap p with
      | some l0, some n =>
        match s.removeNode p update with
        | none => none
        | some s' => removeLoop update stop fuel s' l0.forward (i + 1) (removed ++ [n.toElement])
      | _, _ => none
    else some (s, removed)

/-- The Go method `RemoveRangeByRank`: the new state and the removed elements. -/
def skiplist.RemoveRangeByRank (s : skiplist) (start stop : Int) :
    Option (skiplist × List Element) :=
  match removeSearch s start s.level s.header 0 (fun _ => none) with
  | none => none
  | some (node, i, update) =>
    match lvl s node 0 with
    | none => none
    | some l0 => removeLoop update stop s.next s l0.forward (i + 1) []

/-! ## Random heights -/

/-- The `int16` value of an integer: wrap-around into `[-32768, 32767]`. -/
def wrap16 (x : Int) : Int := (x + 32768) % 65536 - 32768

/-- The loop test of `randomLevel` on a value `d` of `rand.Int31()`:
`float32(d & 0xFFFF) < 0.25 * 0xFFFF`.  Both sides are exact in `float32` (an
integer below `2^16`, and `16383.75`), so the test is `4 * (d mod 2^16) < 65535`. -/
def drawExtends (d : Nat) : Bool := decide (4 * (d % 65536) < 65535)

/-- The loop of `randomLevel` over the successive values of `rand.Int31()`, with
the `int16` counter `level`; `none` when the draws end before the loop does. -/
def randomLevelLoop : List Nat → Int → Option Int
  | [], _ => none
  | d :: ds, level =>
    if drawExtends d then randomLevelLoop ds (wrap16 (level + 1)) else some level

/-- The Go function `randomLevel` on the successive values of `rand.Int31()`. -/
def randomLevel (draws : List Nat) : Option Int :=
  match randomLevelLoop draws 1 with
  | none => none
  | some level => if level < (maxLevel : Int) then some level else some (maxLevel : Int)

/-! ## Level-0 traversal -/

/-- Follows the level-0 forward links from `p`, collecting the addresses. -/
def walk0 (s : skiplist) : Nat → Option Nat → Option (List Nat)
  | _, none => some []
  | 0, some _ => none
  | fuel + 1, some p =>
    match lvl s p 0 with
    | none => none
    | some l => (walk0 s fuel l.forward).map (fun ps => p :: ps)

/-- The addresses of the real nodes in level-0 order. -/
def nodes (s : skiplist) : Option (List Nat) :=
  match lvl s s.header 0 with
  | none => none
  | some l => walk0 s s.next l.forward

/-- The element stored at an address. -/
def elementAt (s : skiplist) (p : Nat) : Option Element :=
  (s.heap p).map (fun n => n.toElement)

/-- The level-0 traversal: the elements of the list from the header on. -/
def traverse (s : skiplist) : Option (List Element) :=
  match nodes s with
  | none => none
  | some ps => ps.mapM (elementAt s)

end sortedset

namespace tcp

/-! ## The echo handler (`test/tcp/echo.go`) -/

/-- The byte `'\n'`. -/
def newline : Nat := 10

/-- The call `reader.ReadString(delim)` on the bytes still to come: the bytes
up to and including the first `delim`, and the bytes left; `none` is the error
`io.EOF` of a stream that ends before a `delim`. -/
def readString (delim : Nat) : List Nat → Option (List Nat × List Nat)
  | [] => none
  | b :: bs =>
    if b = delim then some ([b], bs)
    else
      match readString delim bs with
      | none => none
      | some (msg, rest) => some (b :: msg, rest)

/-- The loop of `Handle`: read a line, write it back, until the read fails.
The result is the list of the writes; `none` when the fuel runs out. -/
def echoLoop : Nat → List Nat → Option (List (List Nat))
  | 0, _ => none
  | fuel + 1, input =>
    match readString newline input with
    | none => some []
    | some (msg, rest) =>
      match echoLoop fuel rest with
      | none => none
      | some writes => some (msg :: writes)

/-- The Go method `EchoHandler.Handle` on one connection: `closing` is the flag
of the handler, `input` the bytes the client sends, the result the writes to
the connection in order.  Every round consumes a byte, so the length of the
input bounds the number of rounds. -/
def EchoHandler.Handle (closing : Bool) (input : List Nat) : Option (List (List Nat)) :=
  if closing then some [] else echoLoop (input.length + 1) input

/-! ## The client of the tests (`test/tcp/echo_test.go`) -/

/-- The byte `'\r'`. -/
def carriageReturn : Nat := 13

/-- The buffer size of `bufio.NewReader`. -/
def defaultBufSize : Nat := 4096

/-- The call `bufReader.ReadLine()` of the tests on a fresh reader with a
buffer of `size` bytes, when `pending` are the bytes that arrive: the returned
line and the flag `isPrefix`.  A line end within the buffer is dropped, `"\n"`
or `"\r\n"`; a full buffer without a line end is returned as a prefix, short of
a final `'\r'`; `none` when the bytes end before either happens. -/
def readLine (size : Nat) (pending : List Nat) : Option (List Nat × Bool) :=
  match readString newline (pending.take size) with
  | some (line, _) =>
    if line.dropLast.getLast? = some carriageReturn then some (line.dropLast.dropLast, false)
    else some (line.dropLast, false)
  | none =>
    if size ≤ pending.length then
      if (pending.take size).getLast? = some carriageReturn then
        some ((pending.take size).dropLast, true)
      else some (pending.take size, true)
    else none

/-- The reads of the client in the loop of the tests: in each round the client
writes a line, waits for the answer of the handler and reads it with
`ReadLine` on a fresh reader, so the k-th read sees the k-th write of the
handler. -/
def clientReads (answers : List (List Nat)) : List (Option (List Nat × Bool)) :=
  answers.map (readLine defaultBufSize)

end tcp

namespace sortedset

/-! ## The order on elements -/

/-- The sorting key of an element: score first, member on ties. -/
def key (e : Element) : Rat ×ₗ List Char := toLex (e.Score, e.Member.toList)

/-- Elements are ordered by `(score, member)`. -/
instance : LinearOrder Element :=
  LinearOrder.lift' key (by
    intro a b h
    have h' : (a.Score, a.Member.toList) = (b.Score, b.Member.toList) := h
    cases a with
    | mk am as =>
      cases b with
      | mk bm bs =>
        simp only [Prod.mk.injEq] at h'
        have hm : am = bm := String.ext h'.2
        simp [hm, h'.1])

/-! ## The abstract view of a list state -/

/-- A node as the specification sees it: its address, the number of levels it
is linked on, and its element. -/
structure Cell where
  ptr : Nat
  height : Nat
  ele : Element

/-- The first cell of a sequence that reaches above level `i`, with its
1-based distance; `o` is what follows the sequence. -/
def fa (i : Nat) (o : Option (Nat × Int)) : List Cell → Option (Nat × Int)
  | [] => o
  | c :: rest =>
    if i < c.height then some (c.ptr, 1) else (fa i o rest).map (fun q => (q.1, q.2 + 1))

/-- A link agrees with its expected target: same forward pointer, and the span
is the distance when there is a target. -/
def linkOK (l : Level) (o : Option (Nat × Int)) : Prop :=
  l.forward = o.map Prod.fst ∧ ∀ q, o = some q → l.span = q.2

/-- On level `i`, every cell of the sequence that reaches the level links to
the next cell reaching it, with the right span. -/
def Links (s : skiplist) (i : Nat) (o : Option (Nat × Int)) : List Cell → Prop
  | [] => True
  | c :: rest =>
    (i < c.height → ∃ l, lvl s c.ptr i = some l ∧ linkOK l (fa i o rest)) ∧ Links s i o rest

/-- The back pointer stored at an address. -/
def backwardAt (s : skiplist) (p : Nat) : Option (Option Nat) :=
  (s.heap p).map (fun n => n.backward)

/-- Every cell points back to its level-0 predecessor, the first to `prev`. -/
def BackOK (s : skiplist) : Option Nat → List Cell → Prop
  | _, [] => True
  | prev, c :: rest => backwardAt s c.ptr = some prev ∧ BackOK s (some c.ptr) rest

/-- The address of the last cell of `X`, or `prev` when `X` is empty. -/
def lastPtr (prev : Option Nat) (X : List Cell) : Option Nat :=
  match X.getLast? with
  | some c => some c.ptr
  | none => prev

/-- The cell of the header sentinel. -/
def hdrCell (s : skiplist) : Cell := ⟨s.header, maxLevel, ⟨"", 0⟩⟩

/-- The state `s` is a well-formed skip list whose real nodes are, in level-0
order, the cells `L`. -/
structure Repr (s : skiplist) (L : List Cell) : Prop where
  fresh : ∀ p, s.next ≤ p → s.heap p = none
  count : L.length < s.next
  nodup : (s.header :: L.map Cell.ptr).Nodup
  eles : ∀ c ∈ L, elementAt s c.ptr = some c.ele
  heights : ∀ c ∈ L, 1 ≤ c.height ∧ c.height ≤ s.level
  levelBounds : 1 ≤ s.level ∧ s.level ≤ maxLevel
  links : ∀ i, Links s i none (hdrCell s :: L)
  sorted : (L.map Cell.ele).Sorted (· < ·)
  back : BackOK s none L
  tailOK : s.tail = L.getLast?.map Cell.ptr
  lengthOK : s.length = L.length
  top : 1 < s.level → ∃ c ∈ L, s.level ≤ c.height

/-- Two states that differ in their links only. -/
structure Frame (s s' : skiplist) : Prop where
  next : s'.next = s.next
  header : s'.header = s.header
  tail : s'.tail = s.tail
  length : s'.length = s.length
  level : s'.level = s.level
  ele : ∀ q, elementAt s' q = elementAt s q
  bwd : ∀ q, backwardAt s' q = backwardAt s q

/-- The generic shape of the four search loops: on level `i`, advance while
there is a forward node and `cond` accepts it, summing the spans crossed. -/
def advance (s : skiplist) (i : Nat) (cond : Nat → Int → Option Bool) :
    Nat → Nat → Int → Option (Nat × Int)
  | 0, _, _ => none
  | fuel + 1, x, r =>
    match lvl s x i with
    | none => none
    | some l =>
      match l.forward with
      | none => some (x, r)
      | some f =>
        match cond f (r + l.span) with
        | none => none
        | some true => advance s i cond fuel f (r + l.span)
        | some false => some (x, r)

/-- Where a search on level `i` stops in the sequence `X`: at the cell `u`
after `pre`, the last one of `X` reaching above level `i`. -/
def StopsAt (X : List Cell) (i : Nat) (u : Option Nat) (r : Int) : Prop :=
  ∃ pre uc post, X = pre ++ uc :: post ∧ i < uc.height ∧ fa i none post = none ∧
    u = some uc.ptr ∧ r = pre.length

/-- The number of level slots of the node at an address. -/
def slots (s : skiplist) (p : Nat) : Nat :=
  match s.heap p with
  | some n => n.level.length
  | none => 0

/-- A chain of forward links on levels below the list level from `x` to `y`,
with the sum of the spans crossed. -/
inductive SpanPath (s : skiplist) : Nat → Nat → Int → Prop
  | stay (x : Nat) : SpanPath s x x 0
  | hop (x y z i : Nat) (l : Level) (d : Int) :
      i < s.level → lvl s x i = some l → l.forward = some y → SpanPath s y z d →
      SpanPath s x z (l.span + d)

/-- The reference for `getFirstInScoreRange`: a linear scan of the level-0
chain `ps` for the first node whose score passes both border tests. -/
def scanFirstInRange (s : skiplist) (min max : ScoreBorder) (ps : List Nat) : Option Nat :=
  ps.find? (fun p =>
    match s.heap p with
    | some n => min.less n.Score && max.greater n.Score
    | none => false)

/-! ## Building lists -/

/-- Inserts the elements one after the other, each with its drawn height. -/
def insertAll : skiplist → List (Element × Nat) → Option skiplist
  | s, [] => some s
  | s, x :: xs =>
    match s.insert x.1 x.2 with
    | none => none
    | some r => insertAll r.1 xs

/-- An admissible build: pairwise distinct `(score, member)` keys and heights
within `[1, maxLevel]`. -/
def Admissible (xs : List (Element × Nat)) : Prop :=
  (xs.map Prod.fst).Nodup ∧ ∀ x ∈ xs, 1 ≤ x.2 ∧ x.2 ≤ maxLevel

/-- The elements of a build sorted by `(score, member)`: score first, member
on ties. -/
def sortedElements (xs : List (Element × Nat)) : List Element :=
  (xs.map Prod.fst).insertionSort (· ≤ ·)

/-- The states reachable from the empty list by inserts of keys that are not
present, with heights within `[1, maxLevel]`, and by ranged removals. -/
inductive Reachable : skiplist → Prop
  | empty : Reachable empty
  | insert (s : skiplist) (e : Element) (h : Nat) (s' : skiplist) (n : Nat) :
      Reachable s → e ∉ (traverse s).getD [] → 1 ≤ h → h ≤ maxLevel →
      s.insert e h = some (s', n) → Reachable s'
  | remove (s : skiplist) (start stop : Int) (s' : skiplist) (removed : List Element) :
      Reachable s → s.RemoveRangeByRank start stop = some (s', removed) → Reachable s'

/-! ## Example states -/

/-- The build of scenario 1 of the specification, with heights 1, 1, 2. -/
def threeBuild : List (Element × Nat) :=
  [(⟨"m1", 1⟩, 1), (⟨"m2", 2⟩, 1), (⟨"m3", 3⟩, 2)]

/-- The set of scenario 3 of the specification, with heights 1, 1, 2. -/
def xyzBuild : List (Element × Nat) :=
  [(⟨"x", 1⟩, 1), (⟨"y", 2⟩, 1), (⟨"z", 3⟩, 2)]

/-- The list built by `threeBuild`. -/
def threeList : skiplist :=
  (insertAll empty threeBuild).getD empty

/-- The list `threeList` after `RemoveRangeByRank(1, 2)`. -/
def twoList : skiplist :=
  ((threeList.RemoveRangeByRank 1 2).map Prod.fst).getD empty

/-! ## Order lemmas -/

theorem lt_iff_key (a b : Element) : a < b ↔ key a < key b := Iff.rfl

theorem keyLess_iff (a b : Element) : keyLess a b = true ↔ a < b := by
  rw [lt_iff_key]
  unfold key
  rw [Prod.Lex.lt_iff]
  simp [keyLess]

theorem keyLess_false_iff (a b : Element) : keyLess a b = false ↔ ¬ a < b := by
  rw [← keyLess_iff]; simp

/-! ## Lemmas on `fa` -/

theorem fa_append (i : Nat) (o : Option (Nat × Int)) (X Y : List Cell) :
    fa i o (X ++ Y) = fa i (fa i o Y) X := by
  induction X with
  | nil => rfl
  | cons c X ih => simp [fa, ih]

theorem fa_none_iff (i : Nat) (X : List Cell) :
    fa i none X = none ↔ ∀ c ∈ X, c.height ≤ i := by
  induction X with
  | nil => simp [fa]
  | cons c X ih =>
    by_cases h : i < c.height
    · simp [fa, h]
    · simp [fa, h, ih]; omega

theorem fa_of_none (i : Nat) (o : Option (Nat × Int)) (X : List Cell)
    (h : fa i none X = none) : fa i o X = o.map (fun q => (q.1, q.2 + (X.length : Int))) := by
  induction X with
  | nil => cases o <;> simp [fa]
  | cons c X ih =>
    by_cases hc : i < c.height
    · simp [fa, hc] at h
    · simp only [fa, hc, if_false, Option.map_eq_none'] at h
      simp only [fa, hc, if_false, ih h, Option.map_map]
      cases o with
      | none => rfl
      | some q => simp [add_assoc]

theorem fa_of_some (i : Nat) (o : Option (Nat × Int)) (X : List Cell) (q : Nat × Int)
    (h : fa i none X = some q) : fa i o X = some q := by
  induction X generalizing q with
  | nil => simp [fa] at h
  | cons c X ih =>
    by_cases hc : i < c.height
    · simpa [fa, hc] using h
    · simp only [fa, hc, if_false, Option.map_eq_some'] at h ⊢
      obtain ⟨a, ha, rfl⟩ := h
      exact ⟨a, ih a ha, rfl⟩

theorem fa_some_split (i : Nat) (X : List Cell) (q : Nat × Int) (h : fa i none X = some q) :
    ∃ X1 c X2, X = X1 ++ c :: X2 ∧ c.ptr = q.1 ∧ i < c.height ∧
      q.2 = (X1.length : Int) + 1 ∧ fa i none X1 = none := by
  induction X generalizing q with
  | nil => simp [fa] at h
  | cons c X ih =>
    by_cases hc : i < c.height
    · simp only [fa, hc, if_true, Option.some.injEq] at h
      subst h
      exact ⟨[], c, X, rfl, rfl, hc, by simp, rfl⟩
    · simp only [fa, hc, if_false, Option.map_eq_some'] at h
      obtain ⟨a, ha, rfl⟩ := h
      obtain ⟨X1, d, X2, hX, hp, hd, hl, hn⟩ := ih a ha
      refine ⟨c :: X1, d, X2, by simp [hX], hp, hd, ?_, ?_⟩
      · simp [hl]
      · simp [fa, hc, hn]

theorem fa_mem (i : Nat) (X : List Cell) (q : Nat × Int) (h : fa i none X = some q) :
    ∃ c ∈ X, c.ptr = q.1 ∧ i < c.height := by
  obtain ⟨X1, c, X2, hX, hp, hc, -, -⟩ := fa_some_split i X q h
  exact ⟨c, by simp [hX], hp, hc⟩

/-! ## Lemmas on `Links` -/

theorem Links_append (s : skiplist) (i : Nat) (o : Option (Nat × Int)) (X Y : List Cell) :
    Links s i o (X ++ Y) ↔ Links s i (fa i o Y) X ∧ Links s i o Y := by
  induction X with
  | nil => simp [Links]
  | cons c X ih => simp [Links, ih, fa_append, and_assoc]

theorem Links_congr (s s' : skiplist) (i : Nat) (o : Option (Nat × Int)) (X : List Cell)
    (h : ∀ c ∈ X, lvl s' c.ptr i = lvl s c.ptr i) (hL : Links s i o X) : Links s' i o X := by
  induction X with
  | nil => trivial
  | cons c X ih =>
    refine ⟨?_, ih (fun d hd => h d (List.mem_cons_of_mem _ hd)) hL.2⟩
    intro hc
    rw [h c (List.mem_cons_self _ _)]
    exact hL.1 hc

theorem Links_low (s : skiplist) (i : Nat) (o : Option (Nat × Int)) (X : List Cell)
    (h : ∀ c ∈ X, c.height ≤ i) : Links s i o X := by
  induction X with
  | nil => trivial
  | cons c X ih =>
    refine ⟨?_, ih (fun d hd => h d (List.mem_cons_of_mem _ hd))⟩
    intro hc
    have := h c (List.mem_cons_self _ _)
    omega

/-! ## Lemmas on the heap primitives -/

theorem Frame.refl (s : skiplist) : Frame s s :=
  ⟨rfl, rfl, rfl, rfl, rfl, fun _ => rfl, fun _ => rfl⟩

theorem Frame.trans {s s' s'' : skiplist} (h : Frame s s') (h' : Frame s' s'') : Frame s s'' :=
  ⟨h'.next.trans h.next, h'.header.trans h.header, h'.tail.trans h.tail,
    h'.length.trans h.length, h'.level.trans h.level,
    fun q => (h'.ele q).trans (h.ele q), fun q => (h'.bwd q).trans (h.bwd q)⟩

theorem heap_of_elementAt {s : skiplist} {p : Nat} {e : Element} (h : elementAt s p = some e) :
    ∃ n, s.heap p = some n ∧ n.toElement = e := by
  unfold elementAt at h
  cases hp : s.heap p with
  | none => simp [hp] at h
  | some n => exact ⟨n, rfl, by simpa [hp] using h⟩

theorem setLevel_spec {s : skiplist} {p i : Nat} {l0 : Level} (l : Level)
    (h : lvl s p i = some l0) :
    ∃ s', setLevel s p i l = some s' ∧ Frame s s' ∧
      ∀ q j, lvl s' q j = if q = p ∧ j = i then some l else lvl s q j := by
  unfold lvl at h
  cases hp : s.heap p with
  | none => simp [hp] at h
  | some n =>
    simp only [hp] at h
    have hi : i < n.level.length := by
      rw [List.get?_eq_some] at h
      exact h.1
    have hs : setLevel s p i l = some { s with
        heap := Function.update s.heap p (some { n with level := n.level.set i l }) } := by
      simp [setLevel, hp, hi]
    refine ⟨_, hs, ?_, ?_⟩
    · refine ⟨rfl, rfl, rfl, rfl, rfl, ?_, ?_⟩
      · intro q
        by_cases hq : q = p
        · subst hq; simp [elementAt, hp]
        · simp [elementAt, Function.update_noteq hq]
      · intro q
        by_cases hq : q = p
        · subst hq; simp [backwardAt, hp]
        · simp [backwardAt, Function.update_noteq hq]
    · intro q j
      by_cases hq : q = p
      · subst hq
        by_cases hj : j = i
        · subst hj
          simp [lvl, hi]
        · have hj' : i ≠ j := fun e => hj e.symm
          simp [lvl, hp, hj, List.getElem?_set_ne hj']
      · simp [lvl, Function.update_noteq hq, hq]

theorem setForward_spec {s : skiplist} {p i : Nat} {l0 : Level} (v : Option Nat)
    (h : lvl s p i = some l0) :
    ∃ s', setForward s p i v = some s' ∧ Frame s s' ∧
      ∀ q j, lvl s' q j = if q = p ∧ j = i then some { l0 with forward := v } else lvl s q j := by
  simp only [setForward, h]
  exact setLevel_spec _ h

theorem setSpan_spec {s : skiplist} {p i : Nat} {l0 : Level} (v : Int)
    (h : lvl s p i = some l0) :
    ∃ s', setSpan s p i v = some s' ∧ Frame s s' ∧
      ∀ q j, lvl s' q j = if q = p ∧ j = i then some { l0 with span := v } else lvl s q j := by
  simp only [setSpan, h]
  exact setLevel_spec _ h

theorem setBackward_spec {s : skiplist} {p : Nat} {e : Element} (v : Option Nat)
    (h : elementAt s p = some e) :
    ∃ s', setBackward s p v = some s' ∧ s'.next = s.next ∧ s'.header = s.header ∧
      s'.tail = s.tail ∧ s'.length = s.length ∧ s'.level = s.level ∧
      (∀ q, elementAt s' q = elementAt s q) ∧
      (∀ q, backwardAt s' q = if q = p then some v else backwardAt s q) ∧
      (∀ q j, lvl s' q j = lvl s q j) := by
  obtain ⟨n, hp, -⟩ := heap_of_elementAt h
  have hs : setBackward s p v = some { s with
      heap := Function.update s.heap p (some { n with backward := v }) } := by
    simp [setBackward, hp]
  refine ⟨_, hs, rfl, rfl, rfl, rfl, rfl, ?_, ?_, ?_⟩
  · intro q
    by_cases hq : q = p
    · subst hq; simp [elementAt, hp]
    · simp [elementAt, Function.update_noteq hq]
  · intro q
    by_cases hq : q = p
    · subst hq; simp [backwardAt]
    · simp [backwardAt, Function.update_noteq hq, hq]
  · intro q j
    by_cases hq : q = p
    · subst hq; simp [lvl, hp]
    · simp [lvl, Function.update_noteq hq]

theorem forUp_inv {σ : Type} (f : Nat → σ → Option σ) (Inv : Nat → σ → Prop) (n : Nat) :
    ∀ (a : Nat) (st : σ), Inv a st →
      (∀ i st, a ≤ i → i < a + n → Inv i st → ∃ st', f i st = some st' ∧ Inv (i + 1) st') →
      ∃ st', forUp f a n st = some st' ∧ Inv (a + n) st' := by
  induction n with
  | zero => intro a st h0 _; exact ⟨st, rfl, h0⟩
  | succ n ih =>
    intro a st h0 hstep
    obtain ⟨st1, hf, h1⟩ := hstep a st (le_refl _) (by omega) h0
    obtain ⟨st2, hl, h2⟩ := ih (a + 1) st1 h1
      (fun i st hi hlt hI => hstep i st (by omega) (by omega) hI)
    refine ⟨st2, by simp [forUp, hf, hl], ?_⟩
    have : a + (n + 1) = a + 1 + n := by omega
    rw [this]; exact h2

/-! ## The search loops -/

theorem insertWalk_eq (s : skiplist) (ele : Element) (i : Nat) :
    ∀ fuel x r, insertWalk s ele i fuel x r =
      advance s i (fun f _ => (s.heap f).map (fun fn => keyLess fn.toElement ele)) fuel x r := by
  intro fuel
  induction fuel with
  | zero => intro x r; rfl
  | succ fuel ih =>
    intro x r
    simp only [insertWalk, advance]
    cases lvl s x i with
    | none => rfl
    | some l =>
      obtain ⟨fw, sp⟩ := l
      cases fw with
      | none => rfl
      | some f =>
        cases hh : s.heap f with
        | none => simp [hh]
        | some fn =>
          cases hk : keyLess fn.toElement ele <;> simp [hh, hk, ih]

theorem removeWalk_eq (s : skiplist) (start : Int) (i : Nat) :
    ∀ fuel x r, removeWalk s start i fuel x r =
      advance s i (fun _ r' => some (decide (r' < start))) fuel x r := by
  intro fuel
  induction fuel with
  | zero => intro x r; rfl
  | succ fuel ih =>
    intro x r
    simp only [removeWalk, advance]
    cases lvl s x i with
    | none => rfl
    | some l =>
      obtain ⟨fw, sp⟩ := l
      cases fw with
      | none => rfl
      | some f =>
        by_cases hk : r + sp < start <;> simp [hk, ih]

theorem rankWalk_eq (s : skiplist) (rank : Int) (i : Nat) :
    ∀ fuel x r, rankWalk s rank i fuel x r =
      advance s i (fun _ r' => some (decide (r' ≤ rank))) fuel x r := by
  intro fuel
  induction fuel with
  | zero => intro x r; rfl
  | succ fuel ih =>
    intro x r
    simp only [rankWalk, advance]
    cases lvl s x i with
    | none => rfl
    | some l =>
      obtain ⟨fw, sp⟩ := l
      cases fw with
      | none => rfl
      | some f =>
        by_cases hk : r + sp ≤ rank <;> simp [hk, ih]

theorem advance_spec (s : skiplist) (i : Nat) (cond : Nat → Int → Option Bool) :
    ∀ (fuel : Nat) (x : Cell) (r : Int) (A2 B : List Cell),
      A2.length < fuel → i < x.height → Links s i none (x :: (A2 ++ B)) →
      (∀ A21 c A22, A2 = A21 ++ c :: A22 → i < c.height →
        cond c.ptr (r + A21.length + 1) = some true) →
      (∀ B1 c B2, B = B1 ++ c :: B2 → i < c.height →
        cond c.ptr (r + A2.length + B1.length + 1) = some false) →
      ∃ A21 u post, x :: A2 = A21 ++ u :: post ∧ i < u.height ∧ fa i none post = none ∧
        advance s i cond fuel x.ptr r = some (u.ptr, r + A21.length) := by
  intro fuel
  induction fuel with
  | zero => intro x r A2 B h; simp at h
  | succ fuel ih =>
    intro x r A2 B hfuel hx hL hA hB
    obtain ⟨l, hl, hfw, hsp⟩ := hL.1 hx
    rw [fa_append] at hfw hsp
    cases hA2 : fa i none A2 with
    | none =>
      rw [fa_of_none i _ A2 hA2] at hfw hsp
      cases hBf : fa i none B with
      | none =>
        rw [hBf] at hfw
        refine ⟨[], x, A2, rfl, hx, hA2, ?_⟩
        simp only [Option.map_none'] at hfw
        simp [advance, hl, hfw]
      | some q =>
        rw [hBf] at hfw hsp
        obtain ⟨B1, c, B2, hBs, hcp, hch, hq, -⟩ := fa_some_split i B q hBf
        have hspan : l.span = q.2 + A2.length := hsp _ rfl
        have hfw' : l.forward = some c.ptr := by simpa [hcp] using hfw
        have harg : r + l.span = r + A2.length + B1.length + 1 := by rw [hspan, hq]; ring
        refine ⟨[], x, A2, rfl, hx, hA2, ?_⟩
        simp [advance, hl, hfw', harg, hB B1 c B2 hBs hch]
    | some q =>
      rw [fa_of_some i _ A2 q hA2] at hfw hsp
      obtain ⟨A21, c, A22, hAs, hcp, hch, hq, -⟩ := fa_some_split i A2 q hA2
      have hspan : l.span = q.2 := hsp _ rfl
      have hfw' : l.forward = some c.ptr := by simpa [hcp] using hfw
      have harg : r + l.span = r + A21.length + 1 := by rw [hspan, hq]; ring
      have hL' : Links s i none (c :: (A22 ++ B)) := by
        have h1 : x :: (A2 ++ B) = (x :: A21) ++ (c :: (A22 ++ B)) := by simp [hAs]
        rw [h1, Links_append] at hL
        exact hL.2
      have hlen : A22.length < fuel := by
        have : A2.length = A21.length + A22.length + 1 := by simp [hAs]; omega
        omega
      obtain ⟨A21', u, post, hdec, hu, hpost, hadv⟩ := ih c (r + A21.length + 1) A22 B hlen hch hL'
        (fun A' d A'' hd hdh => by
          have := hA (A21 ++ c :: A') d A'' (by simp [hAs, hd]) hdh
          rw [← this]; congr 1; simp; ring)
        (fun B1 d B2 hd hdh => by
          have := hB B1 d B2 hd hdh
          rw [← this]; congr 1; simp [hAs]; ring)
      refine ⟨x :: A21 ++ A21', u, post, ?_, hu, hpost, ?_⟩
      · simp [hAs, hdec]
      · simp only [advance, hl, hfw', harg, hA A21 c A22 hAs hch, hadv]
        simp; ring

/-! ## The search of `insert` -/

theorem Links_suffix {s : skiplist} {i : Nat} {X Y : List Cell}
    (h : Links s i none (X ++ Y)) : Links s i none Y :=
  ((Links_append s i none X Y).1 h).2

theorem insertSearch_spec (s : skiplist) (e : Element) (A B : List Cell)
    (hR : Repr s (A ++ B)) (hA : ∀ c ∈ A, c.ele < e) (hB : ∀ c ∈ B, ¬ c.ele < e) :
    ∀ (k : Nat) (update : Nat → Option Nat) (rank : Nat → Int) (pre : List Cell) (x : Cell)
      (A2 : List Cell),
      hdrCell s :: A = pre ++ x :: A2 → k ≤ x.height → k ≤ s.level →
      (if k = s.level then 0 else rank k) = (pre.length : Int) →
      (∀ i, k ≤ i → i < s.level → StopsAt (hdrCell s :: A) i (update i) (rank i)) →
      ∃ update' rank', insertSearch s e k x.ptr update rank = some (update', rank') ∧
        ∀ i, i < s.level → StopsAt (hdrCell s :: A) i (update' i) (rank' i) := by
  intro k
  induction k with
  | zero =>
    intro update rank pre x A2 _ _ _ _ hS
    exact ⟨update, rank, rfl, fun i hi => hS i (Nat.zero_le _) hi⟩
  | succ k ih =>
    intro update rank pre x A2 hdec hx hk hr hS
    have hmax : k < maxLevel := by have := hR.levelBounds.2; omega
    have hAlen : A2.length < s.next := by
      have h1 : (hdrCell s :: A).length = (pre ++ x :: A2).length := by rw [hdec]
      have h2 := hR.count
      simp at h1 h2
      omega
    have hL : Links s k none (x :: (A2 ++ B)) := by
      have h1 := hR.links k
      have h2 : hdrCell s :: (A ++ B) = pre ++ (x :: (A2 ++ B)) := by
        rw [← List.cons_append, hdec]; simp
      rw [h2] at h1
      exact Links_suffix h1
    have hmemA : ∀ c ∈ A2, c ∈ A := by
      intro c hc
      have h1 : c ∈ hdrCell s :: A := by rw [hdec]; simp [hc]
      have h2 : (hdrCell s :: A) = pre ++ x :: A2 := hdec
      cases pre with
      | nil =>
        simp only [List.nil_append, List.cons.injEq] at h2
        rw [h2.2]; exact hc
      | cons p pre' =>
        simp only [List.cons_append, List.cons.injEq] at h2
        rw [h2.2]; simp [hc]
    obtain ⟨A21, u, post, hdec', hu, hpost, hadv⟩ :=
      advance_spec s k (fun f _ => (s.heap f).map (fun fn => keyLess fn.toElement e))
        s.next x (pre.length : Int) A2 B hAlen (by omega) hL
        (fun A21 c A22 hc _ => by
          have hcA : c ∈ A := hmemA c (by simp [hc])
          obtain ⟨n, hn, hne⟩ := heap_of_elementAt (hR.eles c (by simp [hcA]))
          simp [hn, hne, (keyLess_iff c.ele e).2 (hA c hcA)])
        (fun B1 c B2 hc _ => by
          have hcB : c ∈ B := by simp [hc]
          obtain ⟨n, hn, hne⟩ := heap_of_elementAt (hR.eles c (by simp [hcB]))
          simp [hn, hne, (keyLess_false_iff c.ele e).2 (hB c hcB)])
    have hdec2 : hdrCell s :: A = (pre ++ A21) ++ u :: post := by
      rw [hdec, List.append_assoc, ← hdec']
    have hklt : k < s.level := by omega
    obtain ⟨update', rank', hrec, hres⟩ :=
      ih (Function.update update k (some u.ptr))
        (Function.update rank k ((pre.length : Int) + A21.length)) (pre ++ A21) u post hdec2
        (by omega) (by omega)
        (by
          have : k ≠ s.level := by omega
          simp [this])
        (fun i hi hil => by
          by_cases hik : i = k
          · subst hik
            simp only [Function.update_same]
            exact ⟨pre ++ A21, u, post, hdec2, hu, hpost, rfl, by simp⟩
          · simp only [Function.update_noteq hik]
            exact hS i (by omega) hil)
    refine ⟨update', rank', ?_, hres⟩
    have hr' : (if k + 1 = s.level then (0 : Int) else rank (k + 1)) = pre.length := hr
    simp only [insertSearch, hmax, if_true, hr', insertWalk_eq, hadv]
    exact hrec

/-! ## Basic consequences of `Repr` -/

theorem Repr.ptr_lt {s : skiplist} {L : List Cell} (hR : Repr s L) :
    ∀ c ∈ L, c.ptr < s.next := by
  intro c hc
  by_contra hlt
  have h1 := hR.fresh c.ptr (by omega)
  have h2 := hR.eles c hc
  simp [elementAt, h1] at h2

theorem Repr.header_lvl {s : skiplist} {L : List Cell} (hR : Repr s L) (i : Nat)
    (hi : i < maxLevel) : ∃ l, lvl s s.header i = some l ∧ linkOK l (fa i none L) :=
  (hR.links i).1 hi

theorem lvl_some_heap {s : skiplist} {p i : Nat} {l : Level} (h : lvl s p i = some l) :
    s.heap p ≠ none := by
  intro hn
  simp [lvl, hn] at h

theorem Repr.header_lt {s : skiplist} {L : List Cell} (hR : Repr s L) : s.header < s.next := by
  by_contra hlt
  obtain ⟨l, hl, -⟩ := hR.header_lvl 0 (by decide)
  exact lvl_some_heap hl (hR.fresh s.header (by omega))

/-! ## Raising the level in `insert` -/

theorem insertRaise_spec (s : skiplist) (L : List Cell) (hR : Repr s L) (h : Nat)
    (hh : h ≤ maxLevel) (update0 : Nat → Option Nat) (rank0 : Nat → Int) :
    ∃ s1 update rank,
      forUp insertRaiseStep s.level (h - s.level) (s, update0, rank0) = some (s1, update, rank) ∧
      Frame s s1 ∧
      (∀ q i, (lvl s1 q i).map Level.forward = (lvl s q i).map Level.forward) ∧
      (∀ q i, i < s.level → lvl s1 q i = lvl s q i) ∧
      (∀ i, s.level ≤ i → i < s.level + (h - s.level) → update i = some s.header ∧ rank i = 0) ∧
      (∀ i, i < s.level → update i = update0 i ∧ rank i = rank0 i) := by
  have key := forUp_inv insertRaiseStep
    (fun j (st : skiplist × (Nat → Option Nat) × (Nat → Int)) =>
      Frame s st.1 ∧
      (∀ q i, (lvl st.1 q i).map Level.forward = (lvl s q i).map Level.forward) ∧
      (∀ q i, i < s.level → lvl st.1 q i = lvl s q i) ∧
      (∀ i, s.level ≤ i → i < j → st.2.1 i = some s.header ∧ st.2.2 i = 0) ∧
      (∀ i, i < s.level → st.2.1 i = update0 i ∧ st.2.2 i = rank0 i))
    (h - s.level) s.level (s, update0, rank0)
    ⟨Frame.refl s, fun _ _ => rfl, fun _ _ _ => rfl, fun i h1 h2 => by omega,
      fun _ _ => ⟨rfl, rfl⟩⟩
    (by
      rintro i ⟨st, up, rk⟩ hi hlt ⟨hF, hfw, hlow, hup, hold⟩
      have himax : i < maxLevel := by omega
      obtain ⟨l0, hl0, -⟩ := hR.header_lvl i himax
      have h1 := hfw s.header i
      rw [hl0] at h1
      obtain ⟨l1, hl1, -⟩ := Option.map_eq_some'.1 h1
      have hl1' : lvl st st.header i = some l1 := by rw [hF.header]; exact hl1
      obtain ⟨st', hset, hF', hlv⟩ := setSpan_spec st.length hl1'
      refine ⟨(st', Function.update up i (some st.header), Function.update rk i 0), ?_, ?_⟩
      · simp [insertRaiseStep, himax, hset]
      · refine ⟨hF.trans hF', ?_, ?_, ?_, ?_⟩
        · intro q j
          rw [hlv q j]
          by_cases hc : q = st.header ∧ j = i
          · obtain ⟨rfl, rfl⟩ := hc
            simp only [and_self, if_true, Option.map_some']
            rw [← hfw, hl1']; rfl
          · simp only [hc, if_false]; exact hfw q j
        · intro q j hj
          rw [hlv q j]
          have hc : ¬ (q = st.header ∧ j = i) := by omega
          simp only [hc, if_false]; exact hlow q j hj
        · intro j hj1 hj2
          by_cases hji : j = i
          · subst hji
            have := hF.header
            simp only at this
            simp [this]
          · simp only [Function.update_noteq hji]
            exact hup j hj1 (by omega)
        · intro j hj
          have hji : j ≠ i := by omega
          simp only [Function.update_noteq hji]
          exact hold j hj)
  obtain ⟨⟨s1, update, rank⟩, hrun, hF, hfw, hlow, hup, hold⟩ := key
  exact ⟨s1, update, rank, hrun, hF, hfw, hlow, hup, hold⟩

/-! ## Linking the new node, one level at a time -/

theorem insertLinkStep_spec (s : skiplist) (n k u : Nat) (update : Nat → Option Nat)
    (rank : Nat → Int) (lu ln : Level) (hk : k < maxLevel) (hu : update k = some u)
    (hne : u ≠ n) (hlu : lvl s u k = some lu) (hln : lvl s n k = some ln) :
    ∃ s', insertLinkStep n update rank k s = some s' ∧ Frame s s' ∧
      ∀ q j, lvl s' q j =
        if q = u ∧ j = k then some ⟨some n, rank 0 - rank k + 1⟩
        else if q = n ∧ j = k then some ⟨lu.forward, lu.span - (rank 0 - rank k)⟩
        else lvl s q j := by
  obtain ⟨s1, h1, hF1, hl1⟩ := setForward_spec lu.forward hln
  have hu1 : lvl s1 u k = some lu := by rw [hl1]; simp [hne, hlu]
  obtain ⟨s2, h2, hF2, hl2⟩ := setForward_spec (some n) hu1
  have hu2 : lvl s2 u k = some { lu with forward := some n } := by rw [hl2]; simp
  have hn2 : lvl s2 n k = some { ln with forward := lu.forward } := by
    rw [hl2, hl1]; simp [Ne.symm hne]
  obtain ⟨s3, h3, hF3, hl3⟩ := setSpan_spec (lu.span - (rank 0 - rank k)) hn2
  have hu3 : lvl s3 u k = some { lu with forward := some n } := by
    rw [hl3]; simp [hne, hu2]
  obtain ⟨s4, h4, hF4, hl4⟩ := setSpan_spec (rank 0 - rank k + 1) hu3
  refine ⟨s4, ?_, ((hF1.trans hF2).trans hF3).trans hF4, ?_⟩
  · simp [insertLinkStep, hk, hu, hlu, h1, h2, hu2, h3, h4]
  · intro q j
    rw [hl4]
    by_cases hc : q = u ∧ j = k
    · simp [hc]
    · simp only [hc, if_false]
      rw [hl3]
      by_cases hc' : q = n ∧ j = k
      · simp [hc']
      · simp only [hc', if_false]
        rw [hl2, hl1]
        simp [hc, hc']

theorem insertWidenStep_spec (s : skiplist) (k u : Nat) (update : Nat → Option Nat)
    (lu : Level) (hk : k < maxLevel) (hu : update k = some u) (hlu : lvl s u k = some lu) :
    ∃ s', insertWidenStep update k s = some s' ∧ Frame s s' ∧
      ∀ q j, lvl s' q j =
        if q = u ∧ j = k then some { lu with span := lu.span + 1 } else lvl s q j := by
  obtain ⟨s1, h1, hF1, hl1⟩ := setSpan_spec (lu.span + 1) hlu
  exact ⟨s1, by simp [insertWidenStep, hk, hu, hlu, h1], hF1, hl1⟩

theorem fa_cons_high (i : Nat) (o : Option (Nat × Int)) (c : Cell) (X : List Cell)
    (h : i < c.height) : fa i o (c :: X) = some (c.ptr, 1) := by
  simp [fa, h]

theorem fa_cons_low (i : Nat) (o : Option (Nat × Int)) (c : Cell) (X : List Cell)
    (h : c.height ≤ i) : fa i o (c :: X) = (fa i o X).map (fun q => (q.1, q.2 + 1)) := by
  have : ¬ i < c.height := by omega
  simp [fa, this]

theorem Links_insert (s s' : skiplist) (i : Nat) (pre post B : List Cell) (uc nc : Cell)
    (lu : Level) (hL : Links s i none (pre ++ uc :: (post ++ B)))
    (hu : i < uc.height) (hpost : fa i none post = none) (hn : i < nc.height)
    (hlu : lvl s uc.ptr i = some lu)
    (hu' : lvl s' uc.ptr i = some ⟨some nc.ptr, (post.length : Int) + 1⟩)
    (hn' : lvl s' nc.ptr i = some ⟨lu.forward, lu.span - post.length⟩)
    (hother : ∀ c ∈ pre ++ B, lvl s' c.ptr i = lvl s c.ptr i) :
    Links s' i none (pre ++ uc :: (post ++ nc :: B)) := by
  rw [Links_append] at hL ⊢
  obtain ⟨hpre, hulink, hrest⟩ := hL
  obtain ⟨l, hl, hfw, hsp⟩ := hulink hu
  rw [hlu] at hl
  cases hl
  rw [fa_append, fa_of_none i _ post hpost] at hfw hsp
  rw [Links_append] at hrest
  rw [fa_cons_high i none uc _ hu] at hpre ⊢
  refine ⟨Links_congr s s' i _ pre (fun c hc => hother c (by simp [hc])) hpre, ?_, ?_⟩
  · intro _
    refine ⟨_, hu', ?_⟩
    rw [fa_append, fa_cons_high i none nc B hn, fa_of_none i _ post hpost]
    constructor
    · simp
    · intro q hq
      simp at hq
      subst hq
      simp; ring
  · rw [Links_append]
    refine ⟨Links_low s' i _ post ((fa_none_iff i post).1 hpost), ?_,
      Links_congr s s' i _ B (fun c hc => hother c (by simp [hc])) hrest.2⟩
    intro _
    refine ⟨_, hn', ?_⟩
    constructor
    · simp only [hfw, Option.map_map]; rfl
    · intro q hq
      have := hsp (q.1, q.2 + post.length) (by simp [hq])
      simp [this]

theorem Links_widen (s s' : skiplist) (i : Nat) (pre post B : List Cell) (uc nc : Cell)
    (lu : Level) (hL : Links s i none (pre ++ uc :: (post ++ B)))
    (hu : i < uc.height) (hpost : fa i none post = none) (hn : nc.height ≤ i)
    (hlu : lvl s uc.ptr i = some lu)
    (hu' : lvl s' uc.ptr i = some { lu with span := lu.span + 1 })
    (hother : ∀ c ∈ pre ++ B, lvl s' c.ptr i = lvl s c.ptr i) :
    Links s' i none (pre ++ uc :: (post ++ nc :: B)) := by
  rw [Links_append] at hL ⊢
  obtain ⟨hpre, hulink, hrest⟩ := hL
  obtain ⟨l, hl, hfw, hsp⟩ := hulink hu
  rw [hlu] at hl
  cases hl
  rw [fa_append, fa_of_none i _ post hpost] at hfw hsp
  rw [Links_append] at hrest
  rw [fa_cons_high i none uc _ hu] at hpre ⊢
  refine ⟨Links_congr s s' i _ pre (fun c hc => hother c (by simp [hc])) hpre, ?_, ?_⟩
  · intro _
    refine ⟨_, hu', ?_⟩
    rw [fa_append, fa_cons_low i none nc B hn, fa_of_none i _ post hpost]
    constructor
    · simp only [hfw, Option.map_map]; rfl
    · intro q hq
      simp only [Option.map_map, Option.map_eq_some'] at hq
      obtain ⟨a, ha, rfl⟩ := hq
      have := hsp (a.1, a.2 + post.length) (by simp [ha])
      simp [this]; ring
  · rw [Links_append]
    refine ⟨Links_low s' i _ post ((fa_none_iff i post).1 hpost), ?_,
      Links_congr s s' i _ B (fun c hc => hother c (by simp [hc])) hrest.2⟩
    intro hlt
    omega

/-! ## Allocation -/

theorem lvl_makeNode (s : skiplist) (h : Nat) (e : Element) (q j : Nat) :
    lvl (makeNode s h e).1 q j =
      if q = s.next then (if j < h then some ⟨none, 0⟩ else none) else lvl s q j := by
  by_cases hq : q = s.next
  · subst hq
    by_cases hj : j < h
    · simp [lvl, makeNode, hj, List.getElem?_replicate]
    · simp [lvl, makeNode, hj, List.getElem?_replicate]
  · simp [lvl, makeNode, Function.update_noteq hq, hq]

theorem elementAt_makeNode (s : skiplist) (h : Nat) (e : Element) (q : Nat) :
    elementAt (makeNode s h e).1 q = if q = s.next then some e else elementAt s q := by
  by_cases hq : q = s.next
  · subst hq; simp [elementAt, makeNode]
  · simp [elementAt, makeNode, Function.update_noteq hq, hq]

theorem backwardAt_makeNode (s : skiplist) (h : Nat) (e : Element) (q : Nat) :
    backwardAt (makeNode s h e).1 q = if q = s.next then some none else backwardAt s q := by
  by_cases hq : q = s.next
  · subst hq; simp [backwardAt, makeNode]
  · simp [backwardAt, makeNode, Function.update_noteq hq, hq]

theorem ptr_ne_of_nodup {pre rest : List Cell} {uc : Cell}
    (h : ((pre ++ uc :: rest).map Cell.ptr).Nodup) : ∀ c ∈ pre ++ rest, c.ptr ≠ uc.ptr := by
  intro c hc heq
  rw [List.map_append, List.map_cons, List.nodup_middle, List.nodup_cons] at h
  apply h.1
  rw [← heq, ← List.map_append]
  exact List.mem_map_of_mem _ hc

theorem StopsAt.rank_zero {X : List Cell} {c0 : Cell} {u : Option Nat} {r : Int}
    (hS : StopsAt (c0 :: X) 0 u r) (hX : ∀ c ∈ X, 1 ≤ c.height) :
    r = X.length ∧ ∀ d, (c0 :: X).getLast? = some d → u = some d.ptr := by
  obtain ⟨pre, uc, post, hdec, -, hpost, hu, hr⟩ := hS
  have hpost' : post = [] := by
    cases post with
    | nil => rfl
    | cons d post' =>
      exfalso
      have h1 := (fa_none_iff 0 _).1 hpost d (List.mem_cons_self _ _)
      have h2 : d ∈ X := by
        have h3 : d ∈ c0 :: X := by rw [hdec]; simp
        cases pre with
        | nil =>
          simp only [List.nil_append, List.cons.injEq] at hdec
          rw [hdec.2]; simp
        | cons p pre' =>
          simp only [List.cons_append, List.cons.injEq] at hdec
          rw [hdec.2]; simp
      have := hX d h2
      omega
  subst hpost'
  have hlen : (c0 :: X).length = (pre ++ [uc]).length := by rw [hdec]
  constructor
  · simp at hlen; rw [hr]; omega
  · intro d hd
    rw [hdec] at hd
    simp at hd
    rw [hu, hd]

/-! ## The link and widen loops of `insert` -/

theorem insert_links (s1 : skiplist) (A B : List Cell) (h : Nat) (e : Element)
    (update : Nat → Option Nat) (rank : Nat → Int)
    (H1 : ∀ i, Links s1 i none (hdrCell s1 :: (A ++ B)))
    (H2 : ∀ i, i < s1.level → StopsAt (hdrCell s1 :: A) i (update i) (rank i))
    (H3 : ∀ c ∈ A ++ B, 1 ≤ c.height ∧ c.height ≤ s1.level)
    (H4 : 1 ≤ h ∧ h ≤ s1.level) (H4' : s1.level ≤ maxLevel)
    (H5 : (s1.header :: (A ++ B).map Cell.ptr).Nodup)
    (H6 : ∀ c ∈ A ++ B, c.ptr < s1.next) (H6' : s1.header < s1.next) :
    ∃ s2 s3, forUp (insertLinkStep s1.next update rank) 0 h (makeNode s1 h e).1 = some s2 ∧
      Frame (makeNode s1 h e).1 s2 ∧
      forUp (insertWidenStep update) h (s1.level - h) s2 = some s3 ∧
      Frame (makeNode s1 h e).1 s3 ∧
      ∀ i, Links s3 i none (hdrCell s1 :: (A ++ ⟨s1.next, h, e⟩ :: B)) := by
  have hrank0 : rank 0 = A.length :=
    (StopsAt.rank_zero (H2 0 (by omega)) (fun c hc => (H3 c (by simp [hc])).1)).1
  -- facts about one level
  have hlevel : ∀ k, k < s1.level → ∃ pre uc post lu,
      hdrCell s1 :: A = pre ++ uc :: post ∧ k < uc.height ∧ fa k none post = none ∧
      update k = some uc.ptr ∧ rank 0 - rank k = post.length ∧ uc.ptr ≠ s1.next ∧
      lvl s1 uc.ptr k = some lu ∧ Links s1 k none (pre ++ uc :: (post ++ B)) ∧
      (∀ c ∈ pre ++ B, c.ptr ≠ uc.ptr ∧ c.ptr ≠ s1.next) := by
    intro k hk
    obtain ⟨pre, uc, post, hdec, huc, hpost, hu, hr⟩ := H2 k hk
    have hfull : hdrCell s1 :: (A ++ B) = pre ++ uc :: (post ++ B) := by
      rw [← List.cons_append, hdec]; simp
    have hL := H1 k
    rw [hfull] at hL
    have hlt : ∀ c ∈ hdrCell s1 :: (A ++ B), c.ptr < s1.next := by
      intro c hc
      rcases List.mem_cons.1 hc with rfl | hc
      · exact H6'
      · exact H6 c hc
    have hucmem : uc ∈ hdrCell s1 :: (A ++ B) := by rw [hfull]; simp
    obtain ⟨lu, hlu, -⟩ := ((Links_append _ _ _ _ _).1 hL).2.1 huc
    have hnd : ((pre ++ uc :: (post ++ B)).map Cell.ptr).Nodup := by
      rw [← hfull]; exact H5
    refine ⟨pre, uc, post, lu, hdec, huc, hpost, hu, ?_, ?_, hlu, hL, ?_⟩
    · have hlen : (hdrCell s1 :: A).length = (pre ++ uc :: post).length := by rw [hdec]
      simp at hlen
      rw [hrank0, hr]
      have : A.length = pre.length + post.length := by omega
      rw [this]; push_cast; ring
    · exact Nat.ne_of_lt (hlt uc hucmem)
    · intro c hc
      constructor
      · exact ptr_ne_of_nodup hnd c (by
          rcases List.mem_append.1 hc with h' | h'
          · simp [h']
          · simp [h'])
      · exact Nat.ne_of_lt (hlt c (by
          rw [hfull]
          rcases List.mem_append.1 hc with h' | h'
          · simp [h']
          · simp [h']))
  have hInv := fun (a n : Nat) (f : Nat → skiplist → Option skiplist) => forUp_inv f
    (fun k st => Frame (makeNode s1 h e).1 st ∧
      (∀ i, i < k → Links st i none (hdrCell s1 :: (A ++ ⟨s1.next, h, e⟩ :: B))) ∧
      (∀ i, k ≤ i → ∀ q, lvl st q i = lvl (makeNode s1 h e).1 q i)) n a
  -- the link loop
  obtain ⟨s2, hrun2, hF2, hdone2, hrest2⟩ := hInv 0 h (insertLinkStep s1.next update rank)
    (makeNode s1 h e).1 ⟨Frame.refl _, fun i hi => by omega, fun _ _ _ => rfl⟩ (by
      intro k st _ hk ⟨hF, hdone, hrest⟩
      have hk' : k < h := by omega
      obtain ⟨pre, uc, post, lu, hdec, huc, hpost, hu, hr, hne, hlu, hL, hothers⟩ :=
        hlevel k (by omega)
      have hlu' : lvl st uc.ptr k = some lu := by
        rw [hrest k (le_refl _), lvl_makeNode]; simp [hne, hlu]
      have hln' : lvl st s1.next k = some ⟨none, 0⟩ := by
        rw [hrest k (le_refl _), lvl_makeNode]; simp [hk']
      obtain ⟨st', hstep, hF', hlv⟩ := insertLinkStep_spec st s1.next k uc.ptr update rank lu _
        (by omega) hu hne hlu' hln'
      refine ⟨st', hstep, hF.trans hF', ?_, ?_⟩
      · intro i hi
        by_cases hik : i = k
        · subst hik
          have hfull : hdrCell s1 :: (A ++ ⟨s1.next, h, e⟩ :: B) =
              pre ++ uc :: (post ++ ⟨s1.next, h, e⟩ :: B) := by
            rw [← List.cons_append, hdec]; simp
          rw [hfull]
          refine Links_insert s1 st' i pre post B uc ⟨s1.next, h, e⟩ lu hL huc hpost hk' hlu
            ?_ ?_ ?_
          · rw [hlv]; simp [hr]
          · rw [hlv]; simp [Ne.symm hne, hr]
          · intro c hc
            obtain ⟨h1, h2⟩ := hothers c hc
            rw [hlv, hrest i (le_refl _), lvl_makeNode]
            simp [h1, h2]
        · refine Links_congr st st' i none _ (fun c _ => ?_) (hdone i (by omega))
          rw [hlv]; simp [hik]
      · intro i hi q
        rw [hlv]
        have : i ≠ k := by omega
        simp only [this, and_false, if_false]
        exact hrest i (by omega) q)
  -- the widen loop
  obtain ⟨s3, hrun3, hF3, hdone3, hrest3⟩ := hInv h (s1.level - h) (insertWidenStep update)
    s2 ⟨hF2, by simpa using hdone2, by simpa using hrest2⟩ (by
      intro k st hk1 hk2 ⟨hF, hdone, hrest⟩
      have hk' : k < s1.level := by omega
      obtain ⟨pre, uc, post, lu, hdec, huc, hpost, hu, hr, hne, hlu, hL, hothers⟩ :=
        hlevel k hk'
      have hlu' : lvl st uc.ptr k = some lu := by
        rw [hrest k (le_refl _), lvl_makeNode]; simp [hne, hlu]
      obtain ⟨st', hstep, hF', hlv⟩ := insertWidenStep_spec st k uc.ptr update lu
        (by omega) hu hlu'
      refine ⟨st', hstep, hF.trans hF', ?_, ?_⟩
      · intro i hi
        by_cases hik : i = k
        · subst hik
          have hfull : hdrCell s1 :: (A ++ ⟨s1.next, h, e⟩ :: B) =
              pre ++ uc :: (post ++ ⟨s1.next, h, e⟩ :: B) := by
            rw [← List.cons_append, hdec]; simp
          rw [hfull]
          refine Links_widen s1 st' i pre post B uc ⟨s1.next, h, e⟩ lu hL huc hpost hk1 hlu
            ?_ ?_
          · rw [hlv]; simp
          · intro c hc
            obtain ⟨h1, h2⟩ := hothers c hc
            rw [hlv, hrest i (le_refl _), lvl_makeNode]
            simp [h1, h2]
        · refine Links_congr st st' i none _ (fun c _ => ?_) (hdone i (by omega))
          rw [hlv]; simp [hik]
      · intro i hi q
        rw [hlv]
        have : i ≠ k := by omega
        simp only [this, and_false, if_false]
        exact hrest i (by omega) q)
  refine ⟨s2, s3, hrun2, hF2, hrun3, hF3, ?_⟩
  intro i
  by_cases hi : i < s1.level
  · exact hdone3 i (by omega)
  · have hlow : ∀ c ∈ A ++ ⟨s1.next, h, e⟩ :: B, c.height ≤ i := by
      intro c hc
      rcases List.mem_append.1 hc with h' | h'
      · have := (H3 c (by simp [h'])).2; omega
      · rcases List.mem_cons.1 h' with rfl | h''
        · simp only; omega
        · have := (H3 c (by simp [h''])).2; omega
    refine ⟨?_, Links_low _ _ _ _ hlow⟩
    intro him
    obtain ⟨l, hl, hlk⟩ := (H1 i).1 him
    have hB0 : fa i none (A ++ B) = none := (fa_none_iff _ _).2 (fun c hc => by
      have := (H3 c hc).2; omega)
    rw [hB0] at hlk
    refine ⟨l, ?_, ?_⟩
    · rw [hrest3 i (by omega), lvl_makeNode]
      have : (hdrCell s1).ptr ≠ s1.next := Nat.ne_of_lt H6'
      simp [this, hl]
    · rw [(fa_none_iff _ _).2 hlow]; exact hlk

/-! ## The state of `insert` before the new node is allocated -/

theorem insert_prepare (s : skiplist) (A B : List Cell) (h : Nat)
    (hR : Repr s (A ++ B)) (hh : h ≤ maxLevel)
    (update0 : Nat → Option Nat) (rank0 : Nat → Int)
    (hS : ∀ i, i < s.level → StopsAt (hdrCell s :: A) i (update0 i) (rank0 i)) :
    ∃ s1 update rank,
      (if s.level < h then
          (forUp insertRaiseStep s.level (h - s.level) (s, update0, rank0)).map
            (fun st => (({ st.1 with level := h } : skiplist), st.2.1, st.2.2))
        else some (s, update0, rank0)) = some (s1, update, rank) ∧
      s1.next = s.next ∧ s1.header = s.header ∧ s1.tail = s.tail ∧ s1.length = s.length ∧
      s1.level = max s.level h ∧
      (∀ q, elementAt s1 q = elementAt s q) ∧ (∀ q, backwardAt s1 q = backwardAt s q) ∧
      (∀ i, Links s1 i none (hdrCell s :: (A ++ B))) ∧
      (∀ i, i < s1.level → StopsAt (hdrCell s :: A) i (update i) (rank i)) := by
  by_cases hlt : s.level < h
  · obtain ⟨s1, update, rank, hrun, hF, hfw, hlow, hup, hold⟩ :=
      insertRaise_spec s (A ++ B) hR h hh update0 rank0
    have hmax : max s.level h = h := by omega
    refine ⟨{ s1 with level := h }, update, rank, by simp [hlt, hrun], hF.next, hF.header,
      hF.tail, hF.length, by simp [hmax], hF.ele, hF.bwd, ?_, ?_⟩
    · intro i
      by_cases hi : i < s.level
      · exact Links_congr s _ i none _ (fun c _ => hlow c.ptr i hi) (hR.links i)
      · have hlowc : ∀ c ∈ A ++ B, c.height ≤ i := fun c hc => by
          have := (hR.heights c hc).2; omega
        refine ⟨?_, Links_low _ _ _ _ hlowc⟩
        intro him
        obtain ⟨l, hl, hlk⟩ := hR.header_lvl i him
        rw [(fa_none_iff _ _).2 hlowc] at hlk ⊢
        have h1 := hfw s.header i
        rw [hl] at h1
        obtain ⟨l1, hl1, hl1f⟩ := Option.map_eq_some'.1 h1
        refine ⟨l1, hl1, ?_, ?_⟩
        · rw [hl1f]; exact hlk.1
        · intro q hq; cases hq
    · intro i hi
      have hi' : i < h := hi
      by_cases his : i < s.level
      · rw [(hold i his).1, (hold i his).2]; exact hS i his
      · obtain ⟨h1, h2⟩ := hup i (by omega) (by omega)
        rw [h1, h2]
        refine ⟨[], hdrCell s, A, rfl, by simp only [hdrCell]; omega, ?_, rfl, rfl⟩
        exact (fa_none_iff _ _).2 (fun c hc => by
          have := (hR.heights c (by simp [hc])).2; omega)
  · have hmax : max s.level h = s.level := by omega
    refine ⟨s, update0, rank0, by simp [hlt], rfl, rfl, rfl, rfl, hmax.symm, fun _ => rfl,
      fun _ => rfl, hR.links, hS⟩

/-! ## Back pointers -/

theorem BackOK_append (s : skiplist) (prev : Option Nat) (X Y : List Cell) :
    BackOK s prev (X ++ Y) ↔ BackOK s prev X ∧ BackOK s (lastPtr prev X) Y := by
  unfold lastPtr
  induction X generalizing prev with
  | nil => simp [BackOK]
  | cons c X ih =>
    cases X with
    | nil => simp [BackOK]
    | cons d X' =>
      have h1 := ih (some c.ptr)
      have h2 : (c :: d :: X').getLast? = (d :: X').getLast? := List.getLast?_cons_cons
      have h3 : ∃ z, (d :: X').getLast? = some z := by
        cases hz : (d :: X').getLast? with
        | none => simp at hz
        | some z => exact ⟨z, rfl⟩
      obtain ⟨z, hz⟩ := h3
      rw [h2, hz]
      rw [hz] at h1
      show (_ ∧ BackOK s (some c.ptr) ((d :: X') ++ Y)) ↔ (_ ∧ _) ∧ _
      rw [h1]
      simp only [and_assoc]

theorem BackOK_congr (s s' : skiplist) (prev : Option Nat) (X : List Cell)
    (h : ∀ c ∈ X, backwardAt s' c.ptr = backwardAt s c.ptr) (hB : BackOK s prev X) :
    BackOK s' prev X := by
  induction X generalizing prev with
  | nil => trivial
  | cons c X ih =>
    refine ⟨?_, ih _ (fun d hd => h d (List.mem_cons_of_mem _ hd)) hB.2⟩
    rw [h c (List.mem_cons_self _ _)]
    exact hB.1

theorem elementAt_eq_none {s : skiplist} {p : Nat} : elementAt s p = none ↔ s.heap p = none := by
  simp [elementAt]

/-! ## `insert` preserves the representation -/

theorem Repr_insert (s s' : skiplist) (A B : List Cell) (e : Element) (h : Nat)
    (hR : Repr s (A ++ B)) (hA : ∀ c ∈ A, c.ele < e) (hB : ∀ c ∈ B, e < c.ele)
    (hh : 1 ≤ h) (hh' : h ≤ maxLevel)
    (hnext : s'.next = s.next + 1) (hhdr : s'.header = s.header)
    (hlev : s'.level = max s.level h) (hlen : s'.length = s.length + 1)
    (htail : s'.tail = if B.isEmpty then some s.next else s.tail)
    (hele : ∀ q, elementAt s' q = if q = s.next then some e else elementAt s q)
    (hbwd : ∀ q, backwardAt s' q =
      if B.head?.map Cell.ptr = some q then some (some s.next)
      else if q = s.next then some (lastPtr none A)
      else backwardAt s q)
    (hL : ∀ i, Links s' i none (hdrCell s :: (A ++ ⟨s.next, h, e⟩ :: B))) :
    Repr s' (A ++ ⟨s.next, h, e⟩ :: B) := by
  have hlt : ∀ c ∈ A ++ B, c.ptr < s.next := hR.ptr_lt
  have hnd := hR.nodup
  have hne : ∀ c ∈ A ++ B, c.ptr ≠ s.next := fun c hc => Nat.ne_of_lt (hlt c hc)
  have hbackold := (BackOK_append s none A B).1 hR.back
  have hndAB : ((A ++ B).map Cell.ptr).Nodup := (List.nodup_cons.1 hnd).2
  refine ⟨?_, ?_, ?_, ?_, ?_, ?_, ?_, ?_, ?_, ?_, ?_, ?_⟩
  · intro p hp
    rw [hnext] at hp
    have h1 := hele p
    have h2 : p ≠ s.next := by omega
    simp only [h2, if_false] at h1
    rw [← elementAt_eq_none, h1, elementAt_eq_none]
    exact hR.fresh p (by omega)
  · have := hR.count
    simp at this ⊢
    omega
  · rw [hhdr]
    have h1 : (s.next :: s.header :: (A ++ B).map Cell.ptr).Nodup := by
      refine List.nodup_cons.2 ⟨?_, hnd⟩
      intro hmem
      rcases List.mem_cons.1 hmem with h' | h'
      · have := hR.header_lt; omega
      · obtain ⟨c, hc, hcp⟩ := List.mem_map.1 h'
        exact hne c hc hcp
    have h2 : (s.header :: (A ++ ⟨s.next, h, e⟩ :: B).map Cell.ptr).Perm
        (s.next :: s.header :: (A ++ B).map Cell.ptr) := by
      simp only [List.map_append, List.map_cons]
      rw [← List.cons_append, ← List.cons_append]
      exact List.perm_middle
    exact h2.nodup_iff.2 h1
  · intro c hc
    rw [hele]
    rcases List.mem_append.1 hc with h' | h'
    · have := hne c (by simp [h'])
      simp only [this, if_false]
      exact hR.eles c (by simp [h'])
    · rcases List.mem_cons.1 h' with rfl | h''
      · simp
      · have := hne c (by simp [h''])
        simp only [this, if_false]
        exact hR.eles c (by simp [h''])
  · intro c hc
    rw [hlev]
    rcases List.mem_append.1 hc with h' | h'
    · have := hR.heights c (by simp [h']); omega
    · rcases List.mem_cons.1 h' with rfl | h''
      · simp only; omega
      · have := hR.heights c (by simp [h'']); omega
  · rw [hlev]
    have := hR.levelBounds
    omega
  · intro i
    have : hdrCell s' = hdrCell s := by simp [hdrCell, hhdr]
    rw [this]; exact hL i
  · have hs := hR.sorted
    simp only [List.Sorted, List.map_append, List.map_cons, List.pairwise_append,
      List.pairwise_cons, List.mem_map, List.mem_cons] at hs ⊢
    obtain ⟨hsA, hsB, hAB⟩ := hs
    refine ⟨hsA, ⟨?_, hsB⟩, ?_⟩
    · rintro a ⟨c, hc, rfl⟩
      exact hB c hc
    · rintro a ⟨c, hc, rfl⟩ b hb
      rcases hb with rfl | ⟨d, hd, rfl⟩
      · exact hA c hc
      · exact hAB _ ⟨c, hc, rfl⟩ _ ⟨d, hd, rfl⟩
  · rw [BackOK_append]
    have hheadA : ∀ c ∈ A, ¬ B.head?.map Cell.ptr = some c.ptr := by
      intro c hc hhead
      cases B with
      | nil => simp at hhead
      | cons b B' =>
        simp only [List.head?_cons, Option.map_some', Option.some.injEq] at hhead
        have h1 : ((A ++ b :: B').map Cell.ptr).Nodup := hndAB
        rw [List.map_append, List.map_cons, List.nodup_middle, List.nodup_cons] at h1
        apply h1.1
        rw [hhead]
        exact List.mem_append_left _ (List.mem_map_of_mem _ hc)
    refine ⟨BackOK_congr s s' none A (fun c hc => ?_) hbackold.1, ?_, ?_⟩
    · rw [hbwd]
      simp [hheadA c hc, hne c (by simp [hc])]
    · rw [hbwd]
      have : ¬ B.head?.map Cell.ptr = some s.next := by
        cases B with
        | nil => simp
        | cons b B' =>
          simp only [List.head?_cons, Option.map_some', Option.some.injEq]
          exact hne b (by simp)
      simp [this]
    · cases B with
      | nil => trivial
      | cons b B' =>
        refine ⟨by rw [hbwd]; simp, BackOK_congr s s' _ B' (fun c hc => ?_) hbackold.2.2⟩
        rw [hbwd]
        have h1 : ((A ++ b :: B').map Cell.ptr).Nodup := hndAB
        rw [List.map_append, List.map_cons, List.nodup_append] at h1
        have h2 := (List.nodup_cons.1 h1.2.1).1
        have h3 : b.ptr ≠ c.ptr := fun heq => h2 (heq ▸ List.mem_map_of_mem _ hc)
        simp [h3, hne c (by simp [hc])]
  · rw [htail]
    cases B with
    | nil => simp
    | cons b B' =>
      have := hR.tailOK
      simp only [List.getLast?_append, List.getLast?_cons_cons] at this ⊢
      simpa using this
  · rw [hlen, hR.lengthOK]
    simp
    ring
  · intro h1
    rw [hlev] at h1 ⊢
    by_cases hc : s.level < h
    · refine ⟨⟨s.next, h, e⟩, by simp, ?_⟩
      simp only; omega
    · obtain ⟨c, hc1, hc2⟩ := hR.top (by omega)
      refine ⟨c, ?_, by omega⟩
      rcases List.mem_append.1 hc1 with h' | h'
      · simp [h']
      · simp [h']

/-! ## The number of level slots of a node never changes -/

theorem lvl_lt_slots {s : skiplist} {p i : Nat} {l : Level} (h : lvl s p i = some l) :
    i < slots s p := by
  unfold lvl at h
  unfold slots
  cases hp : s.heap p with
  | none => simp [hp] at h
  | some n =>
    simp only [hp] at h ⊢
    exact (List.get?_eq_some.1 h).1

theorem slots_setLevel {s s' : skiplist} {p i : Nat} {l : Level}
    (h : setLevel s p i l = some s') : slots s' = slots s := by
  unfold setLevel at h
  cases hp : s.heap p with
  | none => simp [hp] at h
  | some n =>
    simp only [hp] at h
    split at h
    · cases h
      funext q
      by_cases hq : q = p
      · subst hq; simp [slots, hp]
      · simp [slots, Function.update_noteq hq]
    · cases h

theorem slots_setForward {s s' : skiplist} {p i : Nat} {v : Option Nat}
    (h : setForward s p i v = some s') : slots s' = slots s := by
  unfold setForward at h
  cases hl : lvl s p i with
  | none => simp [hl] at h
  | some l => simp only [hl] at h; exact slots_setLevel h

theorem slots_setSpan {s s' : skiplist} {p i : Nat} {v : Int}
    (h : setSpan s p i v = some s') : slots s' = slots s := by
  unfold setSpan at h
  cases hl : lvl s p i with
  | none => simp [hl] at h
  | some l => simp only [hl] at h; exact slots_setLevel h

theorem slots_setBackward {s s' : skiplist} {p : Nat} {v : Option Nat}
    (h : setBackward s p v = some s') : slots s' = slots s := by
  unfold setBackward at h
  cases hp : s.heap p with
  | none => simp [hp] at h
  | some n =>
    simp only [hp, Option.some.injEq] at h
    subst h
    funext q
    by_cases hq : q = p
    · subst hq; simp [slots, hp]
    · simp [slots, Function.update_noteq hq]

theorem slots_makeNode (s : skiplist) (h : Nat) (e : Element) (q : Nat) :
    slots (makeNode s h e).1 q = if q = s.next then h else slots s q := by
  by_cases hq : q = s.next
  · subst hq; simp [slots, makeNode]
  · simp [slots, makeNode, Function.update_noteq hq, hq]

theorem forUp_preserves {σ α : Type} (f : Nat → σ → Option σ) (g : σ → α)
    (hstep : ∀ i st st', f i st = some st' → g st' = g st) :
    ∀ (n a : Nat) (st st' : σ), forUp f a n st = some st' → g st' = g st := by
  intro n
  induction n with
  | zero =>
    intro a st st' h
    simp only [forUp, Option.some.injEq] at h
    rw [h]
  | succ n ih =>
    intro a st st' h
    simp only [forUp] at h
    cases hf : f a st with
    | none => simp [hf] at h
    | some st1 =>
      simp only [hf] at h
      rw [ih (a + 1) st1 st' h, hstep a st st1 hf]

theorem slots_insertRaiseStep (i : Nat) (st st' : skiplist × (Nat → Option Nat) × (Nat → Int))
    (h : insertRaiseStep i st = some st') : slots st'.1 = slots st.1 := by
  unfold insertRaiseStep at h
  split at h
  · cases hs : setSpan st.1 st.1.header i st.1.length with
    | none => simp [hs] at h
    | some s1 =>
      simp only [hs, Option.some.injEq] at h
      rw [← h]
      exact slots_setSpan hs
  · cases h

theorem slots_insertLinkStep (node : Nat) (update : Nat → Option Nat) (rank : Nat → Int)
    (i : Nat) (s s' : skiplist) (h : insertLinkStep node update rank i s = some s') :
    slots s' = slots s := by
  unfold insertLinkStep at h
  split at h
  · cases hu : update i with
    | none => simp [hu] at h
    | some u =>
      simp only [hu] at h
      cases hlu : lvl s u i with
      | none => simp [hlu] at h
      | some lu =>
        simp only [hlu] at h
        cases h1 : setForward s node i lu.forward with
        | none => simp [h1] at h
        | some s1 =>
          simp only [h1] at h
          cases h2 : setForward s1 u i (some node) with
          | none => simp [h2] at h
          | some s2 =>
            simp only [h2] at h
            cases hlu2 : lvl s2 u i with
            | none => simp [hlu2] at h
            | some lu2 =>
              simp only [hlu2] at h
              cases h3 : setSpan s2 node i (lu2.span - (rank 0 - rank i)) with
              | none => simp [h3] at h
              | some s3 =>
                simp only [h3] at h
                rw [slots_setSpan h, slots_setSpan h3, slots_setForward h2, slots_setForward h1]
  · cases h

theorem slots_insertWidenStep (update : Nat → Option Nat) (i : Nat) (s s' : skiplist)
    (h : insertWidenStep update i s = some s') : slots s' = slots s := by
  unfold insertWidenStep at h
  split at h
  · cases hu : update i with
    | none => simp [hu] at h
    | some u =>
      simp only [hu] at h
      cases hlu : lvl s u i with
      | none => simp [hlu] at h
      | some lu =>
        simp only [hlu] at h
        exact slots_setSpan h
  · cases h

theorem slots_removeUnlinkStep (node : Nat) (update : Nat → Option Nat) (i : Nat)
    (s s' : skiplist) (h : removeUnlinkStep node update i s = some s') :
    slots s' = slots s := by
  unfold removeUnlinkStep at h
  split at h
  · cases hu : update i with
    | none => simp [hu] at h
    | some u =>
      simp only [hu] at h
      cases hlu : lvl s u i with
      | none => simp [hlu] at h
      | some lu =>
        simp only [hlu] at h
        split at h
        · cases hln : lvl s node i with
          | none => simp [hln] at h
          | some ln =>
            simp only [hln] at h
            cases h1 : setSpan s u i (lu.span + (ln.span - 1)) with
            | none => simp [h1] at h
            | some s1 =>
              simp only [h1] at h
              cases hln1 : lvl s1 node i with
              | none => simp [hln1] at h
              | some ln1 =>
                simp only [hln1] at h
                rw [slots_setForward h, slots_setSpan h1]
        · exact slots_setSpan h
  · cases h

theorem slots_prepare (s s1 : skiplist) (h : Nat) (update0 update : Nat → Option Nat)
    (rank0 rank : Nat → Int)
    (hp : (if s.level < h then
          (forUp insertRaiseStep s.level (h - s.level) (s, update0, rank0)).map
            (fun st => (({ st.1 with level := h } : skiplist), st.2.1, st.2.2))
        else some (s, update0, rank0)) = some (s1, update, rank)) :
    slots s1 = slots s := by
  split at hp
  · cases hr : forUp insertRaiseStep s.level (h - s.level) (s, update0, rank0) with
    | none => simp [hr] at hp
    | some st =>
      simp only [hr, Option.map_some', Option.some.injEq, Prod.mk.injEq] at hp
      have := forUp_preserves insertRaiseStep (fun st => slots st.1) slots_insertRaiseStep _ _ _ _ hr
      rw [← hp.1]
      exact this
  · simp only [Option.some.injEq, Prod.mk.injEq] at hp
    rw [← hp.1]

/-! ## What `insert` does to a well-formed list

The new element goes between the cells `A` that are smaller and the cells `B`
that are not; `B` may start with a cell of the same key. -/

theorem insert_core (s : skiplist) (A B : List Cell) (e : Element) (h : Nat)
    (hR : Repr s (A ++ B)) (hA : ∀ c ∈ A, c.ele < e) (hB : ∀ c ∈ B, ¬ c.ele < e)
    (hh : 1 ≤ h) (hh' : h ≤ maxLevel) :
    ∃ s', s.insert e h = some (s', s.next) ∧
      s'.next = s.next + 1 ∧ s'.header = s.header ∧ s'.level = max s.level h ∧
      s'.length = s.length + 1 ∧
      s'.tail = (if B.isEmpty then some s.next else s.tail) ∧
      (∀ q, elementAt s' q = if q = s.next then some e else elementAt s q) ∧
      (∀ q, backwardAt s' q =
        if B.head?.map Cell.ptr = some q then some (some s.next)
        else if q = s.next then some (lastPtr none A)
        else backwardAt s q) ∧
      (∀ i, Links s' i none (hdrCell s :: (A ++ ⟨s.next, h, e⟩ :: B))) ∧
      (∀ q, slots s' q = if q = s.next then h else slots s q) := by
  obtain ⟨update0, rank0, hsearch, hS0⟩ := insertSearch_spec s e A B hR hA
    hB s.level (fun _ => none) (fun _ => 0) [] (hdrCell s) A
    rfl hR.levelBounds.2 (le_refl _) (by simp) (fun i h1 h2 => by omega)
  have hsearch' : insertSearch s e s.level s.header (fun _ => none) (fun _ => 0) =
      some (update0, rank0) := hsearch
  obtain ⟨s1, update, rank, hprep, hnext, hhdr, htail, hlen, hlev, hele1, hbwd1, hL1, hS1⟩ :=
    insert_prepare s A B h hR hh' update0 rank0 hS0
  have hhc : hdrCell s1 = hdrCell s := by simp [hdrCell, hhdr]
  obtain ⟨s2, s3, hrun2, hF2, hrun3, hF3, hL3⟩ := insert_links s1 A B h e update rank
    (by rw [hhc]; exact hL1) (by rw [hhc]; exact hS1)
    (fun c hc => ⟨(hR.heights c hc).1, by rw [hlev]; have := (hR.heights c hc).2; omega⟩)
    ⟨hh, by rw [hlev]; omega⟩ (by rw [hlev]; have := hR.levelBounds.2; omega)
    (by rw [hhdr]; exact hR.nodup) (fun c hc => by rw [hnext]; exact hR.ptr_lt c hc)
    (by rw [hhdr, hnext]; exact hR.header_lt)
  rw [hhc, hnext] at hL3
  have hrun2' : forUp (insertLinkStep (makeNode s1 h e).2 update rank) 0 h (makeNode s1 h e).1 =
      some s2 := hrun2
  have hn2 : (makeNode s1 h e).2 = s.next := hnext
  have hs2lev : s2.level = s1.level := hF2.level
  -- the level-0 predecessor
  have hlast : ∃ d, (hdrCell s :: A).getLast? = some d := by
    cases hz : (hdrCell s :: A).getLast? with
    | none => simp at hz
    | some z => exact ⟨z, rfl⟩
  obtain ⟨d, hd⟩ := hlast
  have hu0 : update 0 = some d.ptr :=
    (StopsAt.rank_zero (hS1 0 (by rw [hlev]; have := hR.levelBounds.1; omega))
      (fun c hc => (hR.heights c (by simp [hc])).1)).2 d hd
  have hs3hdr : s3.header = s.header := by rw [hF3.header]; exact hhdr
  have hbwn : (if d.ptr = s3.header then none else some d.ptr) = lastPtr none A := by
    unfold lastPtr
    cases A with
    | nil =>
      simp only [List.getLast?_singleton, Option.some.injEq] at hd
      subst hd
      simp [hdrCell, hs3hdr]
    | cons a A' =>
      rw [List.getLast?_cons_cons] at hd
      rw [hd]
      have hmem : d ∈ a :: A' := List.mem_of_getLast?_eq_some hd
      have hnd := hR.nodup
      have : d.ptr ≠ s3.header := by
        rw [hs3hdr]
        intro heq
        apply (List.nodup_cons.1 hnd).1
        rw [← heq]
        exact List.mem_map_of_mem _ (List.mem_append_left _ hmem)
      simp [this]
  have hele3 : ∀ q, elementAt s3 q = if q = s.next then some e else elementAt s q := by
    intro q
    rw [hF3.ele, elementAt_makeNode, hnext]
    by_cases hq : q = s.next
    · simp [hq]
    · simp [hq, hele1]
  have hbwd3 : ∀ q, backwardAt s3 q = if q = s.next then some none else backwardAt s q := by
    intro q
    rw [hF3.bwd, backwardAt_makeNode, hnext]
    by_cases hq : q = s.next
    · simp [hq]
    · simp [hq, hbwd1]
  obtain ⟨s4, hset4, h4next, h4hdr, h4tail, h4len, h4lev, h4ele, h4bwd, h4lvl⟩ :=
    @setBackward_spec s3 s.next e
      (if d.ptr = s3.header then none else some d.ptr) (by rw [hele3]; simp)
  have hset4' : setBackward s3 (makeNode s1 h e).2 (if d.ptr = s3.header then none else some d.ptr)
      = some s4 := by rw [hn2]; exact hset4
  -- the level-0 successor
  have hLn : Links s3 0 none (⟨s.next, h, e⟩ :: B) := by
    have h1 := hL3 0
    rw [← List.cons_append] at h1
    exact Links_suffix h1
  obtain ⟨l0, hl0, hlk0⟩ := hLn.1 (by simp only; omega)
  have hl0' : lvl s4 (makeNode s1 h e).2 0 = some l0 := by rw [hn2, h4lvl]; exact hl0
  have hfinalNone : l0.forward = none →
      s.insert e h = some ({ s4 with tail := some s.next, length := s4.length + 1 }, s.next) := by
    intro hfw
    simp only [skiplist.insert, hsearch', hprep, hrun2', hs2lev, hrun3, hu0, hset4', hl0', hfw]
    rw [hn2]
  have hfinalSome : ∀ f s5, l0.forward = some f →
      setBackward s4 f (some (makeNode s1 h e).2) = some s5 →
      s.insert e h = some ({ s5 with length := s5.length + 1 }, s.next) := by
    intro f s5 hfw h5
    simp only [skiplist.insert, hsearch', hprep, hrun2', hs2lev, hrun3, hu0, hset4', hl0', hfw,
      h5]
    rw [hn2]
  have hs3facts : s3.next = s.next + 1 ∧ s3.level = max s.level h ∧ s3.length = s.length ∧
      s3.tail = s.tail := by
    refine ⟨?_, ?_, ?_, ?_⟩
    · rw [hF3.next]; show s1.next + 1 = _; rw [hnext]
    · rw [hF3.level]; exact hlev
    · rw [hF3.length]; exact hlen
    · rw [hF3.tail]; exact htail
  obtain ⟨h3next, h3lev, h3len, h3tail⟩ := hs3facts
  have hslots3 : ∀ q, slots s3 q = if q = s.next then h else slots s q := by
    intro q
    have h1 := forUp_preserves _ slots (slots_insertWidenStep update) _ _ _ _ hrun3
    have h2 := forUp_preserves _ slots (slots_insertLinkStep s1.next update rank) _ _ _ _ hrun2
    rw [h1, h2, slots_makeNode, hnext, slots_prepare s s1 h update0 update rank0 rank hprep]
  have hslots4 : slots s4 = slots s3 := slots_setBackward hset4
  cases B with
  | nil =>
    have hfw : l0.forward = none := by simpa [fa] using hlk0.1
    refine ⟨_, hfinalNone hfw, ?_, ?_, ?_, ?_, ?_, ?_, ?_, ?_, ?_⟩
    · show s4.next = _; rw [h4next, h3next]
    · show s4.header = _; rw [h4hdr, hs3hdr]
    · show s4.level = _; rw [h4lev, h3lev]
    · show s4.length + 1 = _; rw [h4len, h3len]
    · show some s.next = _; simp
    · intro q; show elementAt s4 q = _; rw [h4ele, hele3]
    · intro q
      show backwardAt s4 q = _
      rw [h4bwd, hbwd3, hbwn]
      by_cases hq : q = s.next <;> simp [hq]
    · intro i
      exact Links_congr s3 _ i none _ (fun c _ => h4lvl c.ptr i) (hL3 i)
    · intro q
      show slots s4 q = _
      rw [hslots4, hslots3]
  | cons b B' =>
    have hb1 : 0 < b.height := (hR.heights b (by simp)).1
    have hfw : l0.forward = some b.ptr := by simpa [fa, hb1] using hlk0.1
    have hbne : b.ptr ≠ s.next := Nat.ne_of_lt (hR.ptr_lt b (by simp))
    have hbele : elementAt s4 b.ptr = some b.ele := by
      rw [h4ele, hele3]; simp only [hbne, if_false]; exact hR.eles b (by simp)
    obtain ⟨s5, hset5, h5next, h5hdr, h5tail, h5len, h5lev, h5ele, h5bwd, h5lvl⟩ :=
      setBackward_spec (some (makeNode s1 h e).2) hbele
    refine ⟨_, hfinalSome b.ptr s5 hfw hset5, ?_, ?_, ?_, ?_, ?_, ?_, ?_, ?_, ?_⟩
    · show s5.next = _; rw [h5next, h4next, h3next]
    · show s5.header = _; rw [h5hdr, h4hdr, hs3hdr]
    · show s5.level = _; rw [h5lev, h4lev, h3lev]
    · show s5.length + 1 = _; rw [h5len, h4len, h3len]
    · show s5.tail = _; rw [h5tail, h4tail, h3tail]; simp
    · intro q; show elementAt s5 q = _; rw [h5ele, h4ele, hele3]
    · intro q
      show backwardAt s5 q = _
      rw [h5bwd, h4bwd, hbwd3, hbwn, hn2]
      by_cases hq : q = b.ptr
      · simp [hq, hbne, Ne.symm hbne]
      · have hq' : ¬ b.ptr = q := fun h => hq h.symm
        by_cases hq2 : q = s.next <;> simp [hq, hq', hq2, hbne, Ne.symm hbne]
    · intro i
      exact Links_congr s3 _ i none _
        (fun c _ => by show lvl s5 c.ptr i = _; rw [h5lvl, h4lvl]) (hL3 i)
    · intro q
      show slots s5 q = _
      rw [slots_setBackward hset5, hslots4, hslots3]

theorem insert_spec (s : skiplist) (A B : List Cell) (e : Element) (h : Nat)
    (hR : Repr s (A ++ B)) (hA : ∀ c ∈ A, c.ele < e) (hB : ∀ c ∈ B, e < c.ele)
    (hh : 1 ≤ h) (hh' : h ≤ maxLevel) :
    ∃ s', s.insert e h = some (s', s.next) ∧ Repr s' (A ++ ⟨s.next, h, e⟩ :: B) ∧
      s'.level = max s.level h := by
  obtain ⟨s', hins, hnext, hhdr, hlev, hlen, htail, hele, hbwd, hL, -⟩ :=
    insert_core s A B e h hR hA (fun c hc => not_lt_of_gt (hB c hc)) hh hh'
  exact ⟨s', hins, Repr_insert s s' A B e h hR hA hB hh hh' hnext hhdr hlev hlen htail hele
    hbwd hL, hlev⟩

/-! ## Unlinking a node, one level at a time -/

theorem removeUnlinkStep_high (s : skiplist) (node k u : Nat) (update : Nat → Option Nat)
    (lu ln : Level) (hk : k < maxLevel) (hu : update k = some u) (hne : u ≠ node)
    (hlu : lvl s u k = some lu) (hln : lvl s node k = some ln)
    (hfw : lu.forward = some node) :
    ∃ s', removeUnlinkStep node update k s = some s' ∧ Frame s s' ∧
      ∀ q j, lvl s' q j =
        if q = u ∧ j = k then some ⟨ln.forward, lu.span + (ln.span - 1)⟩ else lvl s q j := by
  obtain ⟨s1, h1, hF1, hl1⟩ := setSpan_spec (lu.span + (ln.span - 1)) hlu
  have hn1 : lvl s1 node k = some ln := by
    rw [hl1]; simp [Ne.symm hne, hln]
  have hu1 : lvl s1 u k = some { lu with span := lu.span + (ln.span - 1) } := by
    rw [hl1]; simp
  obtain ⟨s2, h2, hF2, hl2⟩ := setForward_spec ln.forward hu1
  refine ⟨s2, ?_, hF1.trans hF2, ?_⟩
  · simp [removeUnlinkStep, hk, hu, hlu, hfw, hln, h1, hn1, h2]
  · intro q j
    rw [hl2]
    by_cases hc : q = u ∧ j = k
    · simp [hc]
    · simp only [hc, if_false]
      rw [hl1]; simp [hc]

theorem removeUnlinkStep_low (s : skiplist) (node k u : Nat) (update : Nat → Option Nat)
    (lu : Level) (hk : k < maxLevel) (hu : update k = some u)
    (hlu : lvl s u k = some lu) (hfw : lu.forward ≠ some node) :
    ∃ s', removeUnlinkStep node update k s = some s' ∧ Frame s s' ∧
      ∀ q j, lvl s' q j =
        if q = u ∧ j = k then some { lu with span := lu.span - 1 } else lvl s q j := by
  obtain ⟨s1, h1, hF1, hl1⟩ := setSpan_spec (lu.span - 1) hlu
  exact ⟨s1, by simp [removeUnlinkStep, hk, hu, hlu, hfw, h1], hF1, hl1⟩

theorem Links_remove_high (s s' : skiplist) (i : Nat) (pre post B : List Cell) (uc c : Cell)
    (lu lc : Level) (hL : Links s i none (pre ++ uc :: (post ++ c :: B)))
    (hu : i < uc.height) (hpost : fa i none post = none) (hc : i < c.height)
    (hlu : lvl s uc.ptr i = some lu) (hlc : lvl s c.ptr i = some lc)
    (hu' : lvl s' uc.ptr i = some ⟨lc.forward, lu.span + (lc.span - 1)⟩)
    (hother : ∀ d ∈ pre ++ B, lvl s' d.ptr i = lvl s d.ptr i) :
    lu.forward = some c.ptr ∧ Links s' i none (pre ++ uc :: (post ++ B)) := by
  rw [Links_append] at hL ⊢
  obtain ⟨hpre, hulink, hrest⟩ := hL
  obtain ⟨l, hl, hfw, hsp⟩ := hulink hu
  rw [hlu] at hl
  cases hl
  rw [fa_append, fa_of_none i _ post hpost, fa_cons_high i none c B hc] at hfw hsp
  rw [Links_append] at hrest
  obtain ⟨-, hclink, hB⟩ := hrest
  obtain ⟨l, hl, hcfw, hcsp⟩ := hclink hc
  rw [hlc] at hl
  cases hl
  rw [fa_cons_high i none uc _ hu] at hpre ⊢
  refine ⟨by simpa using hfw, Links_congr s s' i _ pre (fun d hd => hother d (by simp [hd])) hpre,
    ?_, ?_⟩
  · intro _
    refine ⟨_, hu', ?_⟩
    rw [fa_append, fa_of_none i _ post hpost]
    constructor
    · simp only [hcfw, Option.map_map]; rfl
    · intro q hq
      simp only [Option.map_eq_some'] at hq
      obtain ⟨a, ha, rfl⟩ := hq
      have h1 := hcsp a ha
      have h2 := hsp (c.ptr, 1 + post.length) (by simp)
      simp only at h2 ⊢
      rw [h1, h2]; ring
  · rw [Links_append]
    exact ⟨Links_low s' i _ post ((fa_none_iff i post).1 hpost),
      Links_congr s s' i _ B (fun d hd => hother d (by simp [hd])) hB⟩

theorem Links_remove_low (s s' : skiplist) (i : Nat) (pre post B : List Cell) (uc c : Cell)
    (lu : Level) (hL : Links s i none (pre ++ uc :: (post ++ c :: B)))
    (hu : i < uc.height) (hpost : fa i none post = none) (hc : c.height ≤ i)
    (hlu : lvl s uc.ptr i = some lu) (hcB : ∀ d ∈ B, d.ptr ≠ c.ptr)
    (hu' : lvl s' uc.ptr i = some { lu with span := lu.span - 1 })
    (hother : ∀ d ∈ pre ++ B, lvl s' d.ptr i = lvl s d.ptr i) :
    lu.forward ≠ some c.ptr ∧ Links s' i none (pre ++ uc :: (post ++ B)) := by
  rw [Links_append] at hL ⊢
  obtain ⟨hpre, hulink, hrest⟩ := hL
  obtain ⟨l, hl, hfw, hsp⟩ := hulink hu
  rw [hlu] at hl
  cases hl
  rw [fa_append, fa_of_none i _ post hpost, fa_cons_low i none c B hc] at hfw hsp
  rw [Links_append] at hrest
  obtain ⟨-, -, hB⟩ := hrest
  rw [fa_cons_high i none uc _ hu] at hpre ⊢
  refine ⟨?_, Links_congr s s' i _ pre (fun d hd => hother d (by simp [hd])) hpre, ?_, ?_⟩
  · rw [hfw]
    intro heq
    simp only [Option.map_map, Option.map_eq_some'] at heq
    obtain ⟨a, ha, hap⟩ := heq
    obtain ⟨d, hd, hdp, -⟩ := fa_mem i B a ha
    apply hcB d hd
    rw [hdp]; simpa using hap
  · intro _
    refine ⟨_, hu', ?_⟩
    rw [fa_append, fa_of_none i _ post hpost]
    constructor
    · simp only [hfw, Option.map_map]; rfl
    · intro q hq
      simp only [Option.map_eq_some'] at hq
      obtain ⟨a, ha, rfl⟩ := hq
      have h2 := hsp (a.1, a.2 + 1 + post.length) (by simp [ha])
      simp only at h2 ⊢
      rw [h2]; ring
  · rw [Links_append]
    exact ⟨Links_low s' i _ post ((fa_none_iff i post).1 hpost),
      Links_congr s s' i _ B (fun d hd => hother d (by simp [hd])) hB⟩

/-! ## Dropping empty top levels -/

theorem shrinkLevel_spec (s : skiplist) (L : List Cell)
    (hH : ∀ i, i < maxLevel → ∃ l, lvl s s.header i = some l ∧ linkOK l (fa i none L)) :
    ∀ lev, 1 ≤ lev → lev ≤ maxLevel → (∀ c ∈ L, c.height ≤ lev) →
      ∃ k, shrinkLevel s lev = some k ∧ 1 ≤ k ∧ k ≤ lev ∧ (∀ c ∈ L, c.height ≤ k) ∧
        (1 < k → ∃ c ∈ L, k ≤ c.height) := by
  intro lev
  induction lev with
  | zero => intro h; omega
  | succ k ih =>
    intro h1 h2 h3
    cases k with
    | zero => exact ⟨1, rfl, le_refl _, le_refl _, h3, fun h => by omega⟩
    | succ k =>
      obtain ⟨l, hl, hfw, -⟩ := hH (k + 1) (by omega)
      cases hfa : fa (k + 1) none L with
      | none =>
        have hlow := (fa_none_iff _ _).1 hfa
        obtain ⟨m, hm, hm1, hm2, hm3, hm4⟩ := ih (by omega) (by omega) hlow
        refine ⟨m, ?_, hm1, by omega, hm3, hm4⟩
        rw [hfa] at hfw
        simp only [Option.map_none'] at hfw
        simp [shrinkLevel, hl, hfw, hm]
      | some q =>
        obtain ⟨c, hc, -, hch⟩ := fa_mem _ _ _ hfa
        refine ⟨k + 2, ?_, by omega, le_refl _, h3, fun _ => ⟨c, hc, by omega⟩⟩
        rw [hfa] at hfw
        simp [shrinkLevel, hl, hfw]

theorem Links_fwd_high (s : skiplist) (i : Nat) (pre post B : List Cell) (uc c : Cell)
    (lu : Level) (hL : Links s i none (pre ++ uc :: (post ++ c :: B)))
    (hu : i < uc.height) (hpost : fa i none post = none) (hc : i < c.height)
    (hlu : lvl s uc.ptr i = some lu) : lu.forward = some c.ptr := by
  rw [Links_append] at hL
  obtain ⟨l, hl, hfw, -⟩ := hL.2.1 hu
  rw [hlu] at hl
  cases hl
  rw [fa_append, fa_of_none i _ post hpost, fa_cons_high i none c B hc] at hfw
  simpa using hfw

theorem Links_fwd_low (s : skiplist) (i : Nat) (pre post B : List Cell) (uc c : Cell)
    (lu : Level) (hL : Links s i none (pre ++ uc :: (post ++ c :: B)))
    (hu : i < uc.height) (hpost : fa i none post = none) (hc : c.height ≤ i)
    (hlu : lvl s uc.ptr i = some lu) (hcB : ∀ d ∈ B, d.ptr ≠ c.ptr) :
    lu.forward ≠ some c.ptr := by
  rw [Links_append] at hL
  obtain ⟨l, hl, hfw, -⟩ := hL.2.1 hu
  rw [hlu] at hl
  cases hl
  rw [fa_append, fa_of_none i _ post hpost, fa_cons_low i none c B hc] at hfw
  rw [hfw]
  intro heq
  simp only [Option.map_map, Option.map_eq_some'] at heq
  obtain ⟨a, ha, hap⟩ := heq
  obtain ⟨d, hd, hdp, -⟩ := fa_mem i B a ha
  apply hcB d hd
  rw [hdp]; simpa using hap

theorem lastPtr_none (A : List Cell) : lastPtr none A = A.getLast?.map Cell.ptr := by
  unfold lastPtr
  cases A.getLast? <;> rfl

/-! ## `removeNode` preserves the representation -/

theorem Repr_remove (s s' : skiplist) (A B : List Cell) (c : Cell)
    (hR : Repr s (A ++ c :: B))
    (hnext : s'.next = s.next) (hhdr : s'.header = s.header)
    (hlev1 : 1 ≤ s'.level) (hlev2 : s'.level ≤ s.level)
    (hlev3 : ∀ d ∈ A ++ B, d.height ≤ s'.level)
    (hlev4 : 1 < s'.level → ∃ d ∈ A ++ B, s'.level ≤ d.height)
    (hlen : s'.length = s.length - 1)
    (htail : s'.tail = if B.isEmpty then lastPtr none A else s.tail)
    (hele : ∀ q, elementAt s' q = elementAt s q)
    (hbwd : ∀ q, backwardAt s' q =
      if B.head?.map Cell.ptr = some q then some (lastPtr none A) else backwardAt s q)
    (hL : ∀ i, Links s' i none (hdrCell s :: (A ++ B))) :
    Repr s' (A ++ B) := by
  have hsub : (A ++ B).Sublist (A ++ c :: B) :=
    (List.sublist_cons_self c B).append_left A
  have hmem : ∀ d ∈ A ++ B, d ∈ A ++ c :: B := fun d hd => hsub.subset hd
  have hnd := hR.nodup
  have hndAll : ((A ++ c :: B).map Cell.ptr).Nodup := (List.nodup_cons.1 hnd).2
  have hbackold := (BackOK_append s none A (c :: B)).1 hR.back
  refine ⟨?_, ?_, ?_, ?_, ?_, ?_, ?_, ?_, ?_, ?_, ?_, hlev4⟩
  · intro p hp
    rw [hnext] at hp
    rw [← elementAt_eq_none, hele, elementAt_eq_none]
    exact hR.fresh p hp
  · have := hR.count
    simp at this ⊢
    omega
  · rw [hhdr]
    exact hnd.sublist ((hsub.map Cell.ptr).cons₂ s.header)
  · intro d hd
    rw [hele]
    exact hR.eles d (hmem d hd)
  · intro d hd
    exact ⟨(hR.heights d (hmem d hd)).1, hlev3 d hd⟩
  · have := hR.levelBounds
    omega
  · intro i
    have : hdrCell s' = hdrCell s := by simp [hdrCell, hhdr]
    rw [this]; exact hL i
  · exact hR.sorted.sublist (hsub.map Cell.ele)
  · rw [BackOK_append]
    have hheadA : ∀ d ∈ A, ¬ B.head?.map Cell.ptr = some d.ptr := by
      intro d hd hhead
      cases B with
      | nil => simp at hhead
      | cons b B' =>
        simp only [List.head?_cons, Option.map_some', Option.some.injEq] at hhead
        have h1 := hndAll
        rw [List.map_append, List.nodup_append] at h1
        exact h1.2.2 (List.mem_map_of_mem _ hd) (by rw [← hhead]; simp)
    refine ⟨BackOK_congr s s' none A (fun d hd => ?_) hbackold.1, ?_⟩
    · rw [hbwd]
      simp [hheadA d hd]
    · cases B with
      | nil => trivial
      | cons b B' =>
        refine ⟨by rw [hbwd]; simp, BackOK_congr s s' _ B' (fun d hd => ?_) hbackold.2.2.2⟩
        rw [hbwd]
        have h1 := hndAll
        rw [List.map_append, List.map_cons, List.map_cons, List.nodup_append] at h1
        have h2 := (List.nodup_cons.1 (List.nodup_cons.1 h1.2.1).2).1
        have h3 : b.ptr ≠ d.ptr := fun heq => h2 (heq ▸ List.mem_map_of_mem _ hd)
        simp [h3]
  · rw [htail]
    cases B with
    | nil => simp [lastPtr_none]
    | cons b B' =>
      have := hR.tailOK
      simp only [List.getLast?_append, List.getLast?_cons_cons] at this ⊢
      simpa using this
  · rw [hlen, hR.lengthOK]
    simp
    ring

theorem removeNode_spec (s : skiplist) (A B : List Cell) (c : Cell)
    (update : Nat → Option Nat) (rank : Nat → Int)
    (hR : Repr s (A ++ c :: B))
    (hS : ∀ i, i < s.level → StopsAt (hdrCell s :: A) i (update i) (rank i)) :
    ∃ s', s.removeNode c.ptr update = some s' ∧ Repr s' (A ++ B) ∧ s'.level ≤ s.level ∧
      s'.next = s.next ∧ s'.header = s.header := by
  have hnd := hR.nodup
  have hlevB := hR.levelBounds
  -- facts about one level
  have hlevel : ∀ k, k < s.level → ∃ pre uc post lu,
      hdrCell s :: A = pre ++ uc :: post ∧ k < uc.height ∧ fa k none post = none ∧
      update k = some uc.ptr ∧ uc.ptr ≠ c.ptr ∧
      lvl s uc.ptr k = some lu ∧ Links s k none (pre ++ uc :: (post ++ c :: B)) ∧
      (∀ d ∈ pre ++ B, d.ptr ≠ uc.ptr) ∧ (∀ d ∈ B, d.ptr ≠ c.ptr) := by
    intro k hk
    obtain ⟨pre, uc, post, hdec, huc, hpost, hu, -⟩ := hS k hk
    have hfull : hdrCell s :: (A ++ c :: B) = pre ++ uc :: (post ++ c :: B) := by
      rw [← List.cons_append, hdec]; simp
    have hL := hR.links k
    rw [hfull] at hL
    obtain ⟨lu, hlu, -⟩ := ((Links_append _ _ _ _ _).1 hL).2.1 huc
    have hnd' : ((pre ++ uc :: (post ++ c :: B)).map Cell.ptr).Nodup := by
      rw [← hfull]; exact hnd
    have hne := ptr_ne_of_nodup hnd'
    have hnd2 : (((pre ++ uc :: post) ++ c :: B).map Cell.ptr).Nodup := by
      simpa using hnd'
    have hne2 := ptr_ne_of_nodup hnd2
    refine ⟨pre, uc, post, lu, hdec, huc, hpost, hu, ?_, hlu, hL, ?_, ?_⟩
    · exact hne2 uc (by simp)
    · intro d hd
      apply hne d
      rcases List.mem_append.1 hd with h' | h'
      · simp [h']
      · simp [h']
    · intro d hd
      exact hne2 d (by simp [hd])
  -- the loop over the levels
  obtain ⟨s1, hrun1, hF1, hdone1, hrest1, hc1⟩ := forUp_inv (removeUnlinkStep c.ptr update)
    (fun k st => Frame s st ∧
      (∀ i, i < k → Links st i none (hdrCell s :: (A ++ B))) ∧
      (∀ i, k ≤ i → ∀ q, lvl st q i = lvl s q i) ∧
      (∀ j, lvl st c.ptr j = lvl s c.ptr j)) s.level 0 s
    ⟨Frame.refl _, fun i hi => by omega, fun _ _ _ => rfl, fun _ => rfl⟩ (by
      intro k st _ hk ⟨hF, hdone, hrest, hcst⟩
      have hk' : k < s.level := by omega
      obtain ⟨pre, uc, post, lu, hdec, huc, hpost, hu, hne, hlu, hL, hothers, hcB⟩ := hlevel k hk'
      have hlu' : lvl st uc.ptr k = some lu := by rw [hrest k (le_refl _)]; exact hlu
      have hfull : hdrCell s :: (A ++ B) = pre ++ uc :: (post ++ B) := by
        rw [← List.cons_append, hdec]; simp
      have hkeep : ∀ (st' : skiplist) (l' : Level), Frame st st' →
          (∀ q j, lvl st' q j = if q = uc.ptr ∧ j = k then some l' else lvl st q j) →
          Links st' k none (hdrCell s :: (A ++ B)) →
          Frame s st' ∧ (∀ i, i < k + 1 → Links st' i none (hdrCell s :: (A ++ B))) ∧
            (∀ i, k + 1 ≤ i → ∀ q, lvl st' q i = lvl s q i) ∧
            (∀ j, lvl st' c.ptr j = lvl s c.ptr j) := by
        intro st' l' hF' hlv hLk
        refine ⟨hF.trans hF', ?_, ?_, ?_⟩
        · intro i hi
          by_cases hik : i = k
          · subst hik; exact hLk
          · refine Links_congr st st' i none _ (fun d _ => ?_) (hdone i (by omega))
            rw [hlv]; simp [hik]
        · intro i hi q
          rw [hlv]
          have : i ≠ k := by omega
          simp only [this, and_false, if_false]
          exact hrest i (by omega) q
        · intro j
          rw [hlv]
          have : ¬ (c.ptr = uc.ptr ∧ j = k) := fun h => hne h.1.symm
          simp only [this, if_false]
          exact hcst j
      by_cases hch : k < c.height
      · have hLc : Links s k none (c :: B) := by
          have h1 : pre ++ uc :: (post ++ c :: B) = (pre ++ uc :: post) ++ (c :: B) := by simp
          rw [h1] at hL
          exact Links_suffix hL
        obtain ⟨lc, hlc, -⟩ := hLc.1 hch
        have hlc' : lvl st c.ptr k = some lc := by rw [hcst]; exact hlc
        have hfw := Links_fwd_high s k pre post B uc c lu hL huc hpost hch hlu
        obtain ⟨st', hstep, hF', hlv⟩ := removeUnlinkStep_high st c.ptr k uc.ptr update lu lc
          (by omega) hu hne hlu' hlc' hfw
        refine ⟨st', hstep, hkeep st' _ hF' hlv ?_⟩
        rw [hfull]
        refine (Links_remove_high s st' k pre post B uc c lu lc hL huc hpost hch hlu hlc
          (by rw [hlv]; simp) ?_).2
        intro d hd
        rw [hlv, hrest k (le_refl _)]
        simp [hothers d hd]
      · have hfw := Links_fwd_low s k pre post B uc c lu hL huc hpost (by omega) hlu hcB
        obtain ⟨st', hstep, hF', hlv⟩ := removeUnlinkStep_low st c.ptr k uc.ptr update lu
          (by omega) hu hlu' hfw
        refine ⟨st', hstep, hkeep st' _ hF' hlv ?_⟩
        rw [hfull]
        refine (Links_remove_low s st' k pre post B uc c lu hL huc hpost (by omega) hlu hcB
          (by rw [hlv]; simp) ?_).2
        intro d hd
        rw [hlv, hrest k (le_refl _)]
        simp [hothers d hd])
  simp only [Nat.zero_add] at hdone1 hrest1
  -- all levels are linked
  have hheights : ∀ d ∈ A ++ B, d.height ≤ s.level := fun d hd =>
    (hR.heights d (by
      rcases List.mem_append.1 hd with h' | h'
      · simp [h']
      · simp [h'])).2
  have hL1 : ∀ i, Links s1 i none (hdrCell s :: (A ++ B)) := by
    intro i
    by_cases hi : i < s.level
    · exact hdone1 i hi
    · have hlow : ∀ d ∈ A ++ B, d.height ≤ i := fun d hd => by
        have := hheights d hd; omega
      refine ⟨?_, Links_low _ _ _ _ hlow⟩
      intro him
      obtain ⟨l, hl, hlk⟩ := hR.header_lvl i him
      have hB0 : fa i none (A ++ c :: B) = none := (fa_none_iff _ _).2 (fun d hd => by
        have := (hR.heights d hd).2; omega)
      rw [hB0] at hlk
      refine ⟨l, ?_, ?_⟩
      · rw [hrest1 i (by omega)]; exact hl
      · rw [(fa_none_iff _ _).2 hlow]; exact hlk
  -- the removed node
  have hcele : elementAt s1 c.ptr = some c.ele := by
    rw [hF1.ele]; exact hR.eles c (by simp)
  obtain ⟨n, hn, -⟩ := heap_of_elementAt hcele
  have hback := (BackOK_append s none A (c :: B)).1 hR.back
  have hnb : n.backward = lastPtr none A := by
    have h1 : backwardAt s1 c.ptr = some (lastPtr none A) := by rw [hF1.bwd]; exact hback.2.1
    simpa [backwardAt, hn] using h1
  have hLc : Links s 0 none (c :: B) := by
    have h1 := hR.links 0
    rw [← List.cons_append] at h1
    exact Links_suffix h1
  obtain ⟨l0, hl0, hlk0⟩ := hLc.1 (hR.heights c (by simp)).1
  have hl0' : lvl s1 c.ptr 0 = some l0 := by rw [hc1]; exact hl0
  have hrun1' : forUp (removeUnlinkStep c.ptr update) 0 s.level s = some s1 := hrun1
  -- the tail of the method, for a state `s2` with the links of `s1`
  have hfinish : ∀ s2 : skiplist, s2.next = s.next → s2.header = s.header →
      s2.level = s.level → s2.length = s.length →
      s2.tail = (if B.isEmpty then lastPtr none A else s.tail) →
      (∀ q, elementAt s2 q = elementAt s q) →
      (∀ q, backwardAt s2 q =
        if B.head?.map Cell.ptr = some q then some (lastPtr none A) else backwardAt s q) →
      (∀ q j, lvl s2 q j = lvl s1 q j) →
      ∃ k, shrinkLevel s2 s2.level = some k ∧
        Repr { s2 with level := k, length := s2.length - 1 } (A ++ B) ∧ k ≤ s.level := by
    intro s2 h2next h2hdr h2lev h2len h2tail h2ele h2bwd h2lvl
    have hL2 : ∀ i, Links s2 i none (hdrCell s :: (A ++ B)) := fun i =>
      Links_congr s1 s2 i none _ (fun d _ => h2lvl d.ptr i) (hL1 i)
    obtain ⟨k, hk, hk1, hk2, hk3, hk4⟩ := shrinkLevel_spec s2 (A ++ B)
      (fun i hi => by
        have := (hL2 i).1 hi
        rw [h2hdr]; exact this)
      s2.level (by omega) (by omega) (by rw [h2lev]; exact hheights)
    refine ⟨k, hk, ?_, by omega⟩
    exact Repr_remove s _ A B c hR h2next h2hdr hk1 (by show k ≤ _; omega) hk3 hk4
      (by show s2.length - 1 = _; rw [h2len]) h2tail h2ele h2bwd
      (fun i => Links_congr s2 _ i none _ (fun _ _ => rfl) (hL2 i))
  cases B with
  | nil =>
    have hfw : l0.forward = none := by simpa [fa] using hlk0.1
    obtain ⟨k, hk, hRk, hkle⟩ := hfinish { s1 with tail := n.backward } hF1.next hF1.header
      hF1.level hF1.length (by simp [hnb]) hF1.ele
      (fun q => by
        have h1 : backwardAt { s1 with tail := n.backward } q = backwardAt s1 q := rfl
        rw [h1, hF1.bwd q]; simp)
      (fun _ _ => rfl)
    refine ⟨_, ?_, hRk, hkle, hF1.next, hF1.header⟩
    simp only [skiplist.removeNode, hrun1', hn, hl0', hfw]
    simp only [hk]
  | cons b B' =>
    have hb1 : 0 < b.height := (hR.heights b (by simp)).1
    have hfw : l0.forward = some b.ptr := by simpa [fa, hb1] using hlk0.1
    have hbele : elementAt s1 b.ptr = some b.ele := by
      rw [hF1.ele]; exact hR.eles b (by simp)
    obtain ⟨s2, hset2, h2next, h2hdr, h2tail, h2len, h2lev, h2ele, h2bwd, h2lvl⟩ :=
      setBackward_spec n.backward hbele
    obtain ⟨k, hk, hRk, hkle⟩ := hfinish s2 (by rw [h2next, hF1.next])
      (by rw [h2hdr, hF1.header]) (by rw [h2lev, hF1.level]) (by rw [h2len, hF1.length])
      (by rw [h2tail, hF1.tail]; simp) (fun q => by rw [h2ele, hF1.ele])
      (fun q => by
        rw [h2bwd, hF1.bwd, hnb]
        by_cases hq : q = b.ptr
        · simp [hq]
        · have hq' : ¬ b.ptr = q := fun h => hq h.symm
          simp [hq, hq'])
      h2lvl
    refine ⟨_, ?_, hRk, hkle, by rw [h2next, hF1.next], by rw [h2hdr, hF1.header]⟩
    simp only [skiplist.removeNode, hrun1', hn, hl0', hfw, hset2]
    simp only [hk]

/-! ## The search of `RemoveRangeByRank` -/

theorem mem_of_decomp {α : Type} {c0 : α} {A pre A2 : List α} {x d : α}
    (hdec : c0 :: A = pre ++ x :: A2) (hd : d ∈ A2) : d ∈ A := by
  cases pre with
  | nil =>
    simp only [List.nil_append, List.cons.injEq] at hdec
    rw [hdec.2]; exact hd
  | cons p pre' =>
    simp only [List.cons_append, List.cons.injEq] at hdec
    rw [hdec.2]; simp [hd]

theorem removeSearch_spec (s : skiplist) (start : Int) (A B : List Cell)
    (hR : Repr s (A ++ B)) (hAc : A ≠ [] → (A.length : Int) < start)
    (hBc : B ≠ [] → start ≤ (A.length : Int) + 1) :
    ∀ (k : Nat) (update : Nat → Option Nat) (rank : Nat → Int) (pre : List Cell) (x : Cell)
      (A2 : List Cell),
      hdrCell s :: A = pre ++ x :: A2 → k ≤ x.height → k ≤ s.level →
      (k < s.level → update k = some x.ptr ∧ rank k = pre.length) →
      (∀ i, k ≤ i → i < s.level → StopsAt (hdrCell s :: A) i (update i) (rank i)) →
      ∃ (node : Nat) (r : Int) (update' : Nat → Option Nat) (rank' : Nat → Int),
        removeSearch s start k x.ptr pre.length update = some (node, r, update') ∧
        (0 < s.level → update' 0 = some node ∧ rank' 0 = r) ∧
        ∀ i, i < s.level → StopsAt (hdrCell s :: A) i (update' i) (rank' i) := by
  intro k
  induction k with
  | zero =>
    intro update rank pre x A2 _ _ _ h0 hS
    exact ⟨x.ptr, pre.length, update, rank, rfl, h0, fun i hi => hS i (Nat.zero_le _) hi⟩
  | succ k ih =>
    intro update rank pre x A2 hdec hx hk _ hS
    have hmax : k < maxLevel := by have := hR.levelBounds.2; omega
    have hlenA : A.length = pre.length + A2.length := by
      have h1 : (hdrCell s :: A).length = (pre ++ x :: A2).length := by rw [hdec]
      simp at h1; omega
    have hAlen : A2.length < s.next := by
      have h2 := hR.count
      simp at h2
      omega
    have hL : Links s k none (x :: (A2 ++ B)) := by
      have h1 := hR.links k
      have h2 : hdrCell s :: (A ++ B) = pre ++ (x :: (A2 ++ B)) := by
        rw [← List.cons_append, hdec]; simp
      rw [h2] at h1
      exact Links_suffix h1
    obtain ⟨A21, u, post, hdec', hu, hpost, hadv⟩ :=
      advance_spec s k (fun _ r' => some (decide (r' < start)))
        s.next x (pre.length : Int) A2 B hAlen (by omega) hL
        (fun A21 c A22 hc _ => by
          have hne : A ≠ [] := by
            intro h0
            have : c ∈ A := mem_of_decomp hdec (by simp [hc])
            simp [h0] at this
          have h1 := hAc hne
          have h2 : A2.length = A21.length + A22.length + 1 := by simp [hc]; omega
          simp only [Option.some.injEq, decide_eq_true_eq]
          rw [hlenA, h2] at h1
          push_cast at h1
          omega)
        (fun B1 c B2 hc _ => by
          have hne : B ≠ [] := by simp [hc]
          have h1 := hBc hne
          simp only [Option.some.injEq, decide_eq_false_iff_not, not_lt]
          rw [hlenA] at h1
          push_cast at h1
          omega)
    have hdec2 : hdrCell s :: A = (pre ++ A21) ++ u :: post := by
      rw [hdec, List.append_assoc, ← hdec']
    have hklt : k < s.level := by omega
    have hlen2 : ((pre ++ A21).length : Int) = (pre.length : Int) + A21.length := by simp
    obtain ⟨node, r, update', rank', hrec, h0, hres⟩ :=
      ih (Function.update update k (some u.ptr))
        (Function.update rank k ((pre.length : Int) + A21.length)) (pre ++ A21) u post hdec2
        (by omega) (by omega)
        (fun _ => by simp)
        (fun i hi hil => by
          by_cases hik : i = k
          · subst hik
            simp only [Function.update_same]
            exact ⟨pre ++ A21, u, post, hdec2, hu, hpost, rfl, by simp⟩
          · simp only [Function.update_noteq hik]
            exact hS i (by omega) hil)
    refine ⟨node, r, update', rank', ?_, h0, hres⟩
    simp only [removeSearch, removeWalk_eq, hadv, hmax, if_true]
    rw [hlen2] at hrec
    exact hrec

theorem fa_zero (X : List Cell) (hX : ∀ c ∈ X, 1 ≤ c.height) :
    (fa 0 none X).map Prod.fst = X.head?.map Cell.ptr := by
  cases X with
  | nil => rfl
  | cons c X' =>
    have := hX c (List.mem_cons_self _ _)
    have h0 : 0 < c.height := by omega
    simp [fa, h0]

/-! ## The removal loop -/

theorem removeLoop_spec (update : Nat → Option Nat) (rank : Nat → Int) (stop : Int)
    (A : List Cell) (s0 : skiplist)
    (hS : ∀ j, j < s0.level → StopsAt (hdrCell s0 :: A) j (update j) (rank j)) :
    ∀ (B : List Cell) (fuel : Nat) (s : skiplist) (i : Int) (removed : List Element),
      Repr s (A ++ B) → s.header = s0.header → s.level ≤ s0.level → B.length < fuel →
      ∃ s', removeLoop update stop fuel s (B.head?.map Cell.ptr) i removed =
          some (s', removed ++ (B.take (stop - i).toNat).map Cell.ele) ∧
        Repr s' (A ++ B.drop (stop - i).toNat) ∧ s'.level ≤ s.level ∧ s'.next = s.next ∧
        s'.header = s.header ∧ (B.take (stop - i).toNat = [] → s' = s) := by
  intro B
  induction B with
  | nil =>
    intro fuel s i removed hR _ _ hfuel
    cases fuel with
    | zero => simp at hfuel
    | succ fuel =>
      exact ⟨s, by simp [removeLoop], by simpa using hR, le_refl _, rfl, rfl, fun _ => rfl⟩
  | cons c B' ih =>
    intro fuel s i removed hR hhdr hlev hfuel
    cases fuel with
    | zero => simp at hfuel
    | succ fuel =>
      by_cases hi : i < stop
      · have hm : (stop - i).toNat = (stop - (i + 1)).toNat + 1 := by omega
        have hLc : Links s 0 none (c :: B') := by
          have h1 := hR.links 0
          rw [← List.cons_append] at h1
          exact Links_suffix h1
        obtain ⟨l0, hl0, hlk0⟩ := hLc.1 (hR.heights c (by simp)).1
        have hfw : l0.forward = B'.head?.map Cell.ptr := by
          rw [hlk0.1]
          exact fa_zero B' (fun d hd => (hR.heights d (by simp [hd])).1)
        obtain ⟨n, hn, hne⟩ := heap_of_elementAt (hR.eles c (by simp))
        have hhc : hdrCell s = hdrCell s0 := by simp [hdrCell, hhdr]
        obtain ⟨s1, hrm, hR1, hlev1, hnext1, hhdr1⟩ := removeNode_spec s A B' c update rank hR
          (fun j hj => by rw [hhc]; exact hS j (by omega))
        obtain ⟨s', hrun, hR', hlev', hnext', hhdr', -⟩ := ih fuel s1 (i + 1)
          (removed ++ [c.ele]) hR1 (by rw [hhdr1, hhdr]) (by omega)
          (by simp at hfuel; omega)
        refine ⟨s', ?_, ?_, by omega, by rw [hnext', hnext1], by rw [hhdr', hhdr1], ?_⟩
        · simp only [List.head?_cons, Option.map_some', removeLoop, hi, if_true, hl0, hn, hrm,
            hfw, hne, hrun, hm, List.take_succ_cons, List.map_cons]
          simp
        · rw [hm]; simpa using hR'
        · intro h0
          rw [hm] at h0
          simp at h0
      · have hm : (stop - i).toNat = 0 := by omega
        refine ⟨s, ?_, ?_, le_refl _, rfl, rfl, fun _ => rfl⟩
        · simp [removeLoop, hi, hm]
        · rw [hm]; simpa using hR

/-! ## `RemoveRangeByRank` as an operation on the abstract sequence -/

theorem RemoveRangeByRank_spec (s : skiplist) (L : List Cell) (start stop : Int)
    (hR : Repr s L) :
    ∃ s', s.RemoveRangeByRank start stop =
        some (s', ((L.drop (start - 1).toNat).take
          (stop - ((L.take (start - 1).toNat).length + 1)).toNat).map Cell.ele) ∧
      Repr s' (L.take (start - 1).toNat ++ (L.drop (start - 1).toNat).drop
          (stop - ((L.take (start - 1).toNat).length + 1)).toNat) ∧
      s'.level ≤ s.level ∧ s'.next = s.next ∧ s'.header = s.header ∧
      (((L.drop (start - 1).toNat).take
          (stop - ((L.take (start - 1).toNat).length + 1)).toNat) = [] → s' = s) := by
  generalize hk : (start - 1).toNat = k
  have hRsplit : Repr s (L.take k ++ L.drop k) := by rw [List.take_append_drop]; exact hR
  have hAc : L.take k ≠ [] → ((L.take k).length : Int) < start := by
    intro hne
    have h1 : 0 < (L.take k).length := List.length_pos.2 hne
    have h2 : (L.take k).length ≤ k := by simp
    omega
  have hBc : L.drop k ≠ [] → start ≤ ((L.take k).length : Int) + 1 := by
    intro hne
    have h1 : 0 < (L.drop k).length := List.length_pos.2 hne
    have h2 : (L.take k).length = k := by
      simp at h1 ⊢; omega
    omega
  obtain ⟨node, r, update, rank, hsearch, h0, hS⟩ := removeSearch_spec s start (L.take k)
    (L.drop k) hRsplit hAc hBc s.level (fun _ => none) (fun _ => 0) [] (hdrCell s) (L.take k)
    rfl hR.levelBounds.2 (le_refl _) (fun h => by omega) (fun i h1 h2 => by omega)
  have hsearch' : removeSearch s start s.level s.header 0 (fun _ => none) =
      some (node, r, update) := hsearch
  have hpos : 0 < s.level := hR.levelBounds.1
  obtain ⟨hu0, hr0⟩ := h0 hpos
  have hlast : ∃ d, (hdrCell s :: L.take k).getLast? = some d := by
    cases hz : (hdrCell s :: L.take k).getLast? with
    | none => simp at hz
    | some z => exact ⟨z, rfl⟩
  obtain ⟨d, hd⟩ := hlast
  obtain ⟨hrA, hnode⟩ := StopsAt.rank_zero (hS 0 hpos)
    (fun c hc => (hRsplit.heights c (List.mem_append_left _ hc)).1)
  have hnode' : node = d.ptr := by
    have := hnode d hd
    rw [hu0] at this
    exact Option.some.inj this
  obtain ⟨ys, hys⟩ := List.getLast?_eq_some_iff.1 hd
  have hdpos : 0 < d.height := by
    have hmem : d ∈ hdrCell s :: L.take k := List.mem_of_getLast?_eq_some hd
    rcases List.mem_cons.1 hmem with rfl | hmem
    · simp [hdrCell, maxLevel]
    · exact (hRsplit.heights d (List.mem_append_left _ hmem)).1
  have hLd : Links s 0 none (d :: L.drop k) := by
    have h1 := hRsplit.links 0
    have h2 : hdrCell s :: (L.take k ++ L.drop k) = ys ++ (d :: L.drop k) := by
      rw [← List.cons_append, hys]; simp
    rw [h2] at h1
    exact Links_suffix h1
  obtain ⟨l0, hl0, hlk0⟩ := hLd.1 hdpos
  have hfw : l0.forward = (L.drop k).head?.map Cell.ptr := by
    rw [hlk0.1]
    exact fa_zero _ (fun c hc => (hRsplit.heights c (List.mem_append_right _ hc)).1)
  obtain ⟨s', hrun, hR', hlev', hnext', hhdr', hsame⟩ := removeLoop_spec update rank stop
    (L.take k) s hS (L.drop k) s.next s (r + 1) [] hRsplit rfl (le_refl _) (by
      have := hR.count
      simp
      omega)
  have hr1 : r + 1 = ((L.take k).length : Int) + 1 := by rw [← hr0, hrA]
  rw [hr1] at hR' hsame hrun
  refine ⟨s', ?_, hR', hlev', hnext', hhdr', hsame⟩
  simp only [skiplist.RemoveRangeByRank, hsearch']
  rw [hnode', hl0]
  simp only [hfw, ← hr1]
  rw [hr1]
  simpa using hrun

/-! ## The empty list -/

theorem Repr_empty : Repr empty [] := by
  refine ⟨?_, by simp [empty], by simp, by simp, by simp, by simp [empty, maxLevel], ?_,
    by simp, trivial, rfl, rfl, by simp [empty]⟩
  · intro p hp
    have : p ≠ 0 := by
      simp [empty] at hp; omega
    simp [empty, this]
  · intro i
    refine ⟨?_, trivial⟩
    intro hi
    have hi' : i < maxLevel := hi
    refine ⟨⟨none, 0⟩, ?_, rfl, fun q hq => by simp [fa] at hq⟩
    simp [lvl, hdrCell, empty, List.getElem?_replicate, hi']

/-! ## The level-0 traversal -/

theorem walk0_spec (s : skiplist) :
    ∀ (X : List Cell) (fuel : Nat), Links s 0 none X → (∀ c ∈ X, 1 ≤ c.height) →
      X.length ≤ fuel → walk0 s fuel (X.head?.map Cell.ptr) = some (X.map Cell.ptr) := by
  intro X
  induction X with
  | nil =>
    intro fuel _ _ _
    cases fuel <;> rfl
  | cons c X ih =>
    intro fuel hL hX hfuel
    cases fuel with
    | zero => simp at hfuel
    | succ fuel =>
      obtain ⟨l, hl, hlk⟩ := hL.1 (hX c (List.mem_cons_self _ _))
      have hfw : l.forward = X.head?.map Cell.ptr := by
        rw [hlk.1]
        exact fa_zero X (fun d hd => hX d (List.mem_cons_of_mem _ hd))
      have := ih fuel hL.2 (fun d hd => hX d (List.mem_cons_of_mem _ hd))
        (by simp at hfuel; omega)
      simp [walk0, hl, hfw, this]

theorem nodes_spec {s : skiplist} {L : List Cell} (hR : Repr s L) :
    nodes s = some (L.map Cell.ptr) := by
  obtain ⟨l, hl, hlk⟩ := hR.header_lvl 0 (by decide)
  have hfw : l.forward = L.head?.map Cell.ptr := by
    rw [hlk.1]
    exact fa_zero L (fun d hd => (hR.heights d hd).1)
  have hL : Links s 0 none L := (hR.links 0).2
  have := walk0_spec s L s.next hL (fun d hd => (hR.heights d hd).1) (le_of_lt hR.count)
  simp [nodes, hl, hfw, this]

theorem mapM_elementAt (s : skiplist) :
    ∀ (X : List Cell), (∀ c ∈ X, elementAt s c.ptr = some c.ele) →
      (X.map Cell.ptr).mapM (elementAt s) = some (X.map Cell.ele) := by
  intro X
  induction X with
  | nil => intro _; rfl
  | cons c X ih =>
    intro h
    have h1 := h c (List.mem_cons_self _ _)
    have h2 := ih (fun d hd => h d (List.mem_cons_of_mem _ hd))
    rw [List.map_cons, List.mapM_cons, h1, h2]
    rfl

theorem traverse_spec {s : skiplist} {L : List Cell} (hR : Repr s L) :
    traverse s = some (L.map Cell.ele) := by
  simp only [traverse, nodes_spec hR]
  exact mapM_elementAt s L hR.eles

/-! ## Where a new element goes -/

theorem split_at (e : Element) :
    ∀ (L : List Cell), (L.map Cell.ele).Sorted (· < ·) → e ∉ L.map Cell.ele →
      ∃ A B, L = A ++ B ∧ (∀ c ∈ A, c.ele < e) ∧ (∀ c ∈ B, e < c.ele) := by
  intro L
  induction L with
  | nil => intro _ _; exact ⟨[], [], rfl, by simp, by simp⟩
  | cons c L ih =>
    intro hs hne
    simp only [List.map_cons, List.sorted_cons, List.mem_cons, not_or] at hs hne
    by_cases hc : c.ele < e
    · obtain ⟨A, B, hL, hA, hB⟩ := ih hs.2 hne.2
      refine ⟨c :: A, B, by simp [hL], ?_, hB⟩
      intro d hd
      rcases List.mem_cons.1 hd with rfl | hd
      · exact hc
      · exact hA d hd
    · have hce : e < c.ele := lt_of_le_of_ne (not_lt.1 hc) hne.1
      refine ⟨[], c :: L, rfl, by simp, ?_⟩
      intro d hd
      rcases List.mem_cons.1 hd with rfl | hd
      · exact hce
      · exact lt_trans hce (hs.1 d.ele (List.mem_map_of_mem _ hd))

theorem insert_total (s : skiplist) (L : List Cell) (e : Element) (h : Nat)
    (hR : Repr s L) (hne : e ∉ L.map Cell.ele) (hh : 1 ≤ h) (hh' : h ≤ maxLevel) :
    ∃ s' A B, L = A ++ B ∧ (∀ c ∈ A, c.ele < e) ∧ (∀ c ∈ B, e < c.ele) ∧
      s.insert e h = some (s', s.next) ∧ Repr s' (A ++ ⟨s.next, h, e⟩ :: B) ∧
      s'.level = max s.level h := by
  obtain ⟨A, B, hL, hA, hB⟩ := split_at e L hR.sorted hne
  subst hL
  obtain ⟨s', hins, hR', hlev⟩ := insert_spec s A B e h hR hA hB hh hh'
  exact ⟨s', A, B, rfl, hA, hB, hins, hR', hlev⟩

theorem insertAll_spec :
    ∀ (xs : List (Element × Nat)) (s : skiplist) (L : List Cell), Repr s L →
      (L.map Cell.ele ++ xs.map Prod.fst).Nodup → (∀ x ∈ xs, 1 ≤ x.2 ∧ x.2 ≤ maxLevel) →
      ∃ s' L', insertAll s xs = some s' ∧ Repr s' L' ∧
        (L'.map (fun c => (c.ele, c.height))).Perm (L.map (fun c => (c.ele, c.height)) ++ xs) := by
  intro xs
  induction xs with
  | nil =>
    intro s L hR _ _
    exact ⟨s, L, rfl, hR, by simp⟩
  | cons x xs ih =>
    intro s L hR hnd hh
    have hne : x.1 ∉ L.map Cell.ele := by
      intro hmem
      rw [List.nodup_append] at hnd
      exact hnd.2.2 hmem (by simp)
    obtain ⟨s1, A, B, hL, -, -, hins, hR1, -⟩ := insert_total s L x.1 x.2 hR hne
      (hh x (by simp)).1 (hh x (by simp)).2
    have hnd1 : ((A ++ ⟨s.next, x.2, x.1⟩ :: B).map Cell.ele ++ xs.map Prod.fst).Nodup := by
      have hp : ((A ++ ⟨s.next, x.2, x.1⟩ :: B).map Cell.ele ++ xs.map Prod.fst).Perm
          (L.map Cell.ele ++ (x :: xs).map Prod.fst) := by
        rw [hL]
        simp only [List.map_append, List.map_cons, List.append_assoc, List.cons_append]
        refine List.Perm.append_left _ ?_
        exact (@List.perm_middle _ x.1 (B.map Cell.ele) (xs.map Prod.fst)).symm
      exact hp.nodup_iff.2 hnd
    obtain ⟨s', L', hrun, hR', hperm⟩ := ih s1 _ hR1 hnd1
      (fun y hy => hh y (List.mem_cons_of_mem _ hy))
    refine ⟨s', L', by simp [insertAll, hins, hrun], hR', hperm.trans ?_⟩
    rw [hL]
    simp only [List.map_append, List.map_cons, List.append_assoc, List.cons_append]
    refine List.Perm.append_left _ ?_
    exact (@List.perm_middle _ x (B.map (fun c => (c.ele, c.height))) xs).symm

theorem insertAll_empty (xs : List (Element × Nat)) (h : Admissible xs) :
    ∃ s L, insertAll empty xs = some s ∧ Repr s L ∧
      (L.map (fun c => (c.ele, c.height))).Perm xs := by
  obtain ⟨s, L, h1, h2, h3⟩ := insertAll_spec xs empty [] Repr_empty (by simpa using h.1) h.2
  exact ⟨s, L, h1, h2, by simpa using h3⟩

/-! ## Every reachable state is well formed -/

theorem Reachable_repr {s : skiplist} (h : Reachable s) : ∃ L, Repr s L := by
  induction h with
  | empty => exact ⟨[], Repr_empty⟩
  | insert s e h s' n _ hne h1 h2 hins ih =>
    obtain ⟨L, hR⟩ := ih
    rw [traverse_spec hR] at hne
    obtain ⟨s'', A, B, -, -, -, hins', hR', -⟩ := insert_total s L e h hR hne h1 h2
    rw [hins] at hins'
    cases hins'
    exact ⟨_, hR'⟩
  | remove s start stop s' removed _ hrm ih =>
    obtain ⟨L, hR⟩ := ih
    obtain ⟨s'', hrm', hR', -⟩ := RemoveRangeByRank_spec s L start stop hR
    rw [hrm] at hrm'
    cases hrm'
    exact ⟨_, hR'⟩

/-! ## Rank lookup -/

theorem rankSearch_spec (s : skiplist) (rank : Int) (A B : List Cell)
    (hR : Repr s (A ++ B)) (hAc : A ≠ [] → (A.length : Int) ≤ rank)
    (hBc : B ≠ [] → rank < (A.length : Int) + 1) :
    ∀ (k : Nat) (pre : List Cell) (x : Cell) (A2 : List Cell),
      hdrCell s :: A = pre ++ x :: A2 → k < x.height →
      ∃ res, rankSearch s rank k x.ptr pre.length = some res ∧
        (∀ p, res = some p → ∃ pre' u post', hdrCell s :: A = pre' ++ u :: post' ∧
          p = u.ptr ∧ (pre'.length : Int) = rank) ∧
        (∀ pre'' c, hdrCell s :: A = pre'' ++ [c] → (pre''.length : Int) = rank →
          2 ≤ c.height → 1 ≤ k → res = some c.ptr) := by
  intro k
  induction k with
  | zero =>
    intro pre x A2 _ _
    exact ⟨none, rfl, fun p hp => (by cases hp), fun _ _ _ _ _ h => (by omega)⟩
  | succ k ih =>
    intro pre x A2 hdec hx
    have hlenA : A.length = pre.length + A2.length := by
      have h1 : (hdrCell s :: A).length = (pre ++ x :: A2).length := by rw [hdec]
      simp at h1; omega
    have hAlen : A2.length < s.next := by
      have h2 := hR.count
      simp at h2
      omega
    have hL : Links s (k + 1) none (x :: (A2 ++ B)) := by
      have h1 := hR.links (k + 1)
      have h2 : hdrCell s :: (A ++ B) = pre ++ (x :: (A2 ++ B)) := by
        rw [← List.cons_append, hdec]; simp
      rw [h2] at h1
      exact Links_suffix h1
    obtain ⟨A21, u, post, hdec', hu, hpost, hadv⟩ :=
      advance_spec s (k + 1) (fun _ r' => some (decide (r' ≤ rank)))
        s.next x (pre.length : Int) A2 B hAlen hx hL
        (fun A21 c A22 hc _ => by
          have hne : A ≠ [] := by
            intro h0
            have : c ∈ A := mem_of_decomp hdec (by simp [hc])
            simp [h0] at this
          have h1 := hAc hne
          have h2 : A2.length = A21.length + A22.length + 1 := by simp [hc]; omega
          simp only [Option.some.injEq, decide_eq_true_eq]
          rw [hlenA, h2] at h1
          push_cast at h1
          omega)
        (fun B1 c B2 hc _ => by
          have hne : B ≠ [] := by simp [hc]
          have h1 := hBc hne
          simp only [Option.some.injEq, decide_eq_false_iff_not, not_le]
          rw [hlenA] at h1
          push_cast at h1
          omega)
    have hdec2 : hdrCell s :: A = (pre ++ A21) ++ u :: post := by
      rw [hdec, List.append_assoc, ← hdec']
    have hlen2 : ((pre ++ A21).length : Int) = (pre.length : Int) + A21.length := by simp
    by_cases hrk : rank = (pre.length : Int) + A21.length
    · refine ⟨some u.ptr, ?_, ?_, ?_⟩
      · simp only [rankSearch, rankWalk_eq, hadv]
        simp [hrk]
      · intro p hp
        cases hp
        exact ⟨pre ++ A21, u, post, hdec2, rfl, by rw [hlen2, hrk]⟩
      · intro pre'' c hc hlen _ _
        have h1 : pre ++ A21 ++ u :: post = pre'' ++ [c] := by rw [← hdec2, hc]
        have h2 : (pre ++ A21).length = pre''.length := by
          have : ((pre ++ A21).length : Int) = pre''.length := by rw [hlen2, ← hrk, hlen]
          exact_mod_cast this
        have h3 := (List.append_inj h1 h2).2
        simp only [List.cons.injEq] at h3
        rw [h3.1]
    · obtain ⟨res, hres, hsound, hcomp⟩ := ih (pre ++ A21) u post hdec2 (by omega)
      rw [hlen2] at hres
      refine ⟨res, ?_, hsound, ?_⟩
      · simp only [rankSearch, rankWalk_eq, hadv]
        simp [hrk, hres]
      · intro pre'' c hc hlen hch _
        by_cases hk1 : 1 ≤ k
        · exact hcomp pre'' c hc hlen hch hk1
        · exfalso
          have hk0 : k = 0 := by omega
          subst hk0
          have h1 : pre ++ A21 ++ u :: post = pre'' ++ [c] := by rw [← hdec2, hc]
          cases hpe : post.getLast? with
          | none =>
            have hp0 : post = [] := List.getLast?_eq_none_iff.1 hpe
            subst hp0
            have h2 := List.append_inj' h1 rfl
            have h3 : ((pre ++ A21).length : Int) = pre''.length := by rw [h2.1]
            rw [hlen2, hlen] at h3
            exact hrk h3.symm
          | some z =>
            obtain ⟨ys, hys⟩ := List.getLast?_eq_some_iff.1 hpe
            have h2 : (pre ++ A21 ++ u :: ys) ++ [z] = pre'' ++ [c] := by
              rw [← h1, hys]; simp
            have h3 := (List.append_inj' h2 rfl).2
            simp only [List.cons.injEq, and_true] at h3
            have h4 : z ∈ post := by rw [hys]; simp
            have h5 := (fa_none_iff _ _).1 hpost z h4
            rw [h3] at h5
            omega

theorem getByRank_sound {s : skiplist} {L : List Cell} (hR : Repr s L) (rank : Int) :
    ∃ res, s.getByRank rank = some res ∧
      ∀ p, res = some p → 0 ≤ rank ∧ rank ≤ L.length ∧
        ∃ u, (hdrCell s :: L).get? rank.toNat = some u ∧ p = u.ptr := by
  have hRsplit : Repr s (L.take rank.toNat ++ L.drop rank.toNat) := by
    rw [List.take_append_drop]; exact hR
  have hAc : L.take rank.toNat ≠ [] → ((L.take rank.toNat).length : Int) ≤ rank := by
    intro hne
    have h1 : 0 < (L.take rank.toNat).length := List.length_pos.2 hne
    have h2 : (L.take rank.toNat).length ≤ rank.toNat := by simp
    omega
  have hBc : L.drop rank.toNat ≠ [] → rank < ((L.take rank.toNat).length : Int) + 1 := by
    intro hne
    have h1 : 0 < (L.drop rank.toNat).length := List.length_pos.2 hne
    have h2 : (L.take rank.toNat).length = rank.toNat := by
      simp at h1 ⊢; omega
    omega
  obtain ⟨res, hres, hsound, -⟩ := rankSearch_spec s rank _ _ hRsplit hAc hBc (s.level - 1) []
    (hdrCell s) (L.take rank.toNat) rfl (by
      have := hR.levelBounds
      simp only [hdrCell]; omega)
  refine ⟨res, hres, ?_⟩
  intro p hp
  obtain ⟨pre', u, post', hdec, hpu, hlen⟩ := hsound p hp
  have hlenA : (L.take rank.toNat).length = pre'.length + post'.length := by
    have h1 : (hdrCell s :: L.take rank.toNat).length = (pre' ++ u :: post').length := by
      rw [hdec]
    simp only [List.length_cons, List.length_append] at h1; omega
  have hle : (L.take rank.toNat).length ≤ L.length := by simp
  refine ⟨by omega, by omega, u, ?_, hpu⟩
  have h1 : hdrCell s :: L = pre' ++ u :: (post' ++ L.drop rank.toNat) := by
    have : hdrCell s :: L = (hdrCell s :: L.take rank.toNat) ++ L.drop rank.toNat := by
      simp
    rw [this, hdec]; simp
  have h2 : rank.toNat = pre'.length := by omega
  rw [h1, h2, List.get?_eq_getElem?, List.getElem?_append_right (le_refl _)]
  simp

theorem getByRank_complete {s : skiplist} {A B : List Cell} {c : Cell}
    (hR : Repr s (A ++ c :: B)) (hc : 2 ≤ c.height) :
    s.getByRank ((A.length : Int) + 1) = some (some c.ptr) := by
  have hRsplit : Repr s ((A ++ [c]) ++ B) := by simpa using hR
  obtain ⟨res, hres, -, hcomp⟩ := rankSearch_spec s ((A.length : Int) + 1) (A ++ [c]) B hRsplit
    (fun _ => by simp) (fun _ => by simp) (s.level - 1) [] (hdrCell s) (A ++ [c]) rfl (by
      have := hR.levelBounds
      simp only [hdrCell]; omega)
  have hlev : c.height ≤ s.level := (hR.heights c (by simp)).2
  have := hcomp (hdrCell s :: A) c (by simp) (by simp) hc (by omega)
  rw [this] at hres
  exact hres

/-! ## Builds are reachable -/

theorem Reachable_insertAll :
    ∀ (xs : List (Element × Nat)) (s s' : skiplist) (L : List Cell), Reachable s → Repr s L →
      (L.map Cell.ele ++ xs.map Prod.fst).Nodup → (∀ x ∈ xs, 1 ≤ x.2 ∧ x.2 ≤ maxLevel) →
      insertAll s xs = some s' → Reachable s' := by
  intro xs
  induction xs with
  | nil =>
    intro s s' L hreach _ _ _ hrun
    simp only [insertAll, Option.some.injEq] at hrun
    rw [← hrun]; exact hreach
  | cons x xs ih =>
    intro s s' L hreach hR hnd hh hrun
    have hne : x.1 ∉ L.map Cell.ele := by
      intro hmem
      rw [List.nodup_append] at hnd
      exact hnd.2.2 hmem (by simp)
    obtain ⟨s1, A, B, hL, -, -, hins, hR1, -⟩ := insert_total s L x.1 x.2 hR hne
      (hh x (by simp)).1 (hh x (by simp)).2
    have hnd1 : ((A ++ ⟨s.next, x.2, x.1⟩ :: B).map Cell.ele ++ xs.map Prod.fst).Nodup := by
      have hp : ((A ++ ⟨s.next, x.2, x.1⟩ :: B).map Cell.ele ++ xs.map Prod.fst).Perm
          (L.map Cell.ele ++ (x :: xs).map Prod.fst) := by
        rw [hL]
        simp only [List.map_append, List.map_cons, List.append_assoc, List.cons_append]
        refine List.Perm.append_left _ ?_
        exact (@List.perm_middle _ x.1 (B.map Cell.ele) (xs.map Prod.fst)).symm
      exact hp.nodup_iff.2 hnd
    have hreach1 : Reachable s1 :=
      Reachable.insert s x.1 x.2 s1 s.next hreach (by rw [traverse_spec hR]; exact hne)
        (hh x (by simp)).1 (hh x (by simp)).2 hins
    simp only [insertAll, hins] at hrun
    exact ih s1 s' _ hreach1 hR1 hnd1 (fun y hy => hh y (List.mem_cons_of_mem _ hy)) hrun

theorem Reachable_build {xs : List (Element × Nat)} {s : skiplist} (h : Admissible xs)
    (hrun : insertAll empty xs = some s) : Reachable s :=
  Reachable_insertAll xs empty s [] Reachable.empty Repr_empty (by simpa using h.1) h.2 hrun

/-! ## The order on elements, spelled out -/

theorem Element.lt_iff (a b : Element) :
    a < b ↔ a.Score < b.Score ∨ (a.Score = b.Score ∧ a.Member < b.Member) := by
  rw [← keyLess_iff]
  simp [keyLess, String.lt_iff_toList_lt]

theorem Element.le_iff (a b : Element) :
    a ≤ b ↔ a.Score < b.Score ∨ (a.Score = b.Score ∧ a.Member ≤ b.Member) := by
  rw [le_iff_lt_or_eq, Element.lt_iff, le_iff_lt_or_eq]
  constructor
  · rintro (h | h)
    · rcases h with h | ⟨h1, h2⟩
      · exact Or.inl h
      · exact Or.inr ⟨h1, Or.inl h2⟩
    · subst h; exact Or.inr ⟨rfl, Or.inr rfl⟩
  · rintro (h | ⟨h1, h2 | h2⟩)
    · exact Or.inl (Or.inl h)
    · exact Or.inl (Or.inr ⟨h1, h2⟩)
    · right
      cases a; cases b
      simp only at h1 h2
      simp [h1, h2]

/-! ## Builds and their sorted sequence -/

theorem build_repr (xs : List (Element × Nat)) (h : Admissible xs) :
    ∃ s L, insertAll empty xs = some s ∧ Repr s L ∧ L.map Cell.ele = sortedElements xs ∧
      (L.map (fun c => (c.ele, c.height))).Perm xs := by
  obtain ⟨s, L, hrun, hR, hperm⟩ := insertAll_empty xs h
  refine ⟨s, L, hrun, hR, ?_, hperm⟩
  have hp : (L.map Cell.ele).Perm (xs.map Prod.fst) := by
    have := hperm.map Prod.fst
    simpa [List.map_map, Function.comp] using this
  have hs1 : (L.map Cell.ele).Sorted (· ≤ ·) := hR.sorted.imp (fun h => le_of_lt h)
  have hs2 : (sortedElements xs).Sorted (· ≤ ·) := List.sorted_insertionSort _ _
  have hp2 : (sortedElements xs).Perm (xs.map Prod.fst) := List.perm_insertionSort _ _
  exact List.eq_of_perm_of_sorted (hp.trans hp2.symm) hs1 hs2

theorem get?_split {α : Type} :
    ∀ (L : List α) (r : Nat) (c : α), L.get? r = some c →
      ∃ A B, L = A ++ c :: B ∧ A.length = r := by
  intro L
  induction L with
  | nil => intro r c h; simp at h
  | cons a L ih =>
    intro r c h
    cases r with
    | zero =>
      simp only [List.get?_cons_zero, Option.some.injEq] at h
      subst h
      exact ⟨[], L, rfl, rfl⟩
    | succ r =>
      simp only [List.get?_cons_succ] at h
      obtain ⟨A, B, hL, hA⟩ := ih r c h
      exact ⟨a :: A, B, by simp [hL], by simp [hA]⟩

theorem nodup_fst_inj {α β : Type} :
    ∀ (xs : List (α × β)) (a : α) (b b' : β), (xs.map Prod.fst).Nodup →
      (a, b) ∈ xs → (a, b') ∈ xs → b = b' := by
  intro xs
  induction xs with
  | nil => intro a b b' _ h; simp at h
  | cons x xs ih =>
    intro a b b' hnd h1 h2
    simp only [List.map_cons, List.nodup_cons, List.mem_map, not_exists, not_and] at hnd
    rcases List.mem_cons.1 h1 with e1 | m1
    · rcases List.mem_cons.1 h2 with e2 | m2
      · rw [← e1] at e2
        exact (Prod.mk.inj e2).2.symm
      · exfalso
        exact hnd.1 (a, b') m2 (by rw [← e1])
    · rcases List.mem_cons.1 h2 with e2 | m2
      · exfalso
        exact hnd.1 (a, b) m1 (by rw [← e2])
      · exact ih a b b' hnd.2 m1 m2

/-! ## Ranged removal, for ranks that start at 1 -/

theorem remove_norm {s : skiplist} {L : List Cell} (hR : Repr s L) (start stop : Int)
    (hs : 1 ≤ start) :
    ∃ s', s.RemoveRangeByRank start stop =
        some (s', ((L.drop (start - 1).toNat).take (stop - start).toNat).map Cell.ele) ∧
      Repr s' (L.take (start - 1).toNat ++ L.drop ((start - 1).toNat + (stop - start).toNat)) ∧
      s'.level ≤ s.level := by
  obtain ⟨s', hrun, hR', hlev, -, -, -⟩ := RemoveRangeByRank_spec s L start stop hR
  generalize hk : (start - 1).toNat = k at hrun hR' ⊢
  generalize hm : (stop - (((L.take k).length : Int) + 1)).toNat = m at hrun hR'
  have hkey : (L.drop k).take m = (L.drop k).take (stop - start).toNat ∧
      (L.drop k).drop m = L.drop (k + (stop - start).toNat) := by
    by_cases hkl : k ≤ L.length
    · have h1 : (L.take k).length = k := by simp [hkl]
      have h2 : m = (stop - start).toNat := by
        rw [← hm, h1]
        congr 1
        omega
      rw [h2, List.drop_drop, Nat.add_comm]
      exact ⟨rfl, rfl⟩
    · have h1 : L.drop k = [] := List.drop_eq_nil_of_le (by omega)
      have h2 : L.drop (k + (stop - start).toNat) = [] := List.drop_eq_nil_of_le (by omega)
      rw [h1, h2]
      simp
  rw [hkey.1] at hrun
  rw [hkey.2] at hR'
  exact ⟨s', hrun, hR', hlev⟩

/-! ## Claims on insertion and rank lookup -/

/-- C1: for every admissible build (pairwise distinct `(score, member)` keys,
heights within `[1, 16]`) applied to the empty list, all inserts succeed and the
level-0 traversal from the header is strictly ascending for the comparison of
`insert` (score first, member on ties) and equals the inserted elements sorted
by `(score, member)`. -/
theorem insert_traversal_sorted (xs : List (Element × Nat)) (h : Admissible xs) :
    ∃ s es, insertAll empty xs = some s ∧ traverse s = some es ∧
      es.Sorted (fun a b => keyLess a b = true) ∧ es = sortedElements xs := by
  obtain ⟨s, L, hrun, hR, hsort, -⟩ := build_repr xs h
  refine ⟨s, L.map Cell.ele, hrun, traverse_spec hR, ?_, hsort⟩
  exact hR.sorted.imp (fun h => (keyLess_iff _ _).2 h)

/-- Witness of C1 on scenario 2 of the specification: `("b", 5)` then
`("a", 5)`. -/
theorem insert_traversal_sorted_witness :
    Admissible [(⟨"b", 5⟩, 1), (⟨"a", 5⟩, 2)] ∧
      ∃ s es, insertAll empty [(⟨"b", 5⟩, 1), (⟨"a", 5⟩, 2)] = some s ∧ traverse s = some es ∧
        es.Sorted (fun a b => keyLess a b = true) ∧
        es = sortedElements [(⟨"b", 5⟩, 1), (⟨"a", 5⟩, 2)] :=
  ⟨⟨by decide, by decide⟩, insert_traversal_sorted _ ⟨by decide, by decide⟩⟩

/-- The outer loop of `getByRank` stops above level 0: in a state whose level
is 1 no level is searched and every rank is answered with nil. -/
theorem getByRank_level_one (s : skiplist) (r : Int) (h : s.level = 1) :
    s.getByRank r = some none := by
  simp [skiplist.getByRank, h, rankSearch]

/-- C2, as the code behaves: on the list of scenario 1 built with the heights
1, 1, 2, whose traversal is `m1, m2, m3`, `getByRank(0)` returns the header
sentinel, `getByRank(1)` and `getByRank(2)` return nil, and `getByRank(3)`
returns `m3`.  The loop `level > 0` never searches level 0, so the nodes of
height 1, `m1` and `m2`, are found at no rank, counted from 0 or from 1. -/
theorem getByRank_skips_level_zero :
    insertAll empty threeBuild = some threeList ∧
      traverse threeList = some [⟨"m1", 1⟩, ⟨"m2", 2⟩, ⟨"m3", 3⟩] ∧
      threeList.getByRank 0 = some (some threeList.header) ∧
      threeList.getByRank 1 = some none ∧
      threeList.getByRank 2 = some none ∧
      (threeList.getByRank 3).map (fun r => r.bind (elementAt threeList)) =
        some (some ⟨"m3", 3⟩) :=
  ⟨rfl, by decide⟩

/-- Ranks count from 1 where the search succeeds: with all heights 1 the rank-0
lookup on the list of scenario 1 finds nothing; with heights 2 it returns the
header sentinel (address 0) for rank 0 and the smallest element for rank 1. -/
theorem getByRank_zero_based_counterexample :
    (insertAll empty [(⟨"m1", 1⟩, 1), (⟨"m2", 2⟩, 1), (⟨"m3", 3⟩, 1)]).bind
        (fun s => s.getByRank 0) = some none ∧
      (insertAll empty [(⟨"m1", 1⟩, 2), (⟨"m2", 2⟩, 2), (⟨"m3", 3⟩, 2)]).bind
        (fun s => (s.getByRank 0).map (fun r => (r, r.bind (elementAt s)))) =
          some (some 0, some ⟨"", 0⟩) ∧
      (insertAll empty [(⟨"m1", 1⟩, 2), (⟨"m2", 2⟩, 2), (⟨"m3", 3⟩, 2)]).bind
        (fun s => (s.getByRank 1).map (fun r => r.bind (elementAt s))) =
          some (some ⟨"m1", 1⟩) := by
  decide

/-- Nodes of height at least 2 are found at their 1-based rank.  For every
admissible build and every element of it that was inserted with a height of at
least 2, `getByRank` at the 1-based rank of the element (`r + 1` for the
0-based position `r` in the sorted sequence) returns the node holding that
element. -/
theorem getByRank_one_based (xs : List (Element × Nat)) (h : Admissible xs) (r : Nat)
    (e : Element) (ht : Nat) (hmem : (e, ht) ∈ xs) (hht : 2 ≤ ht)
    (hr : (sortedElements xs).get? r = some e) :
    ∃ s p, insertAll empty xs = some s ∧ s.getByRank ((r : Int) + 1) = some (some p) ∧
      elementAt s p = some e := by
  obtain ⟨s, L, hrun, hR, hsort, hperm⟩ := build_repr xs h
  rw [← hsort, List.get?_eq_getElem?, List.getElem?_map] at hr
  obtain ⟨c, hc, hce⟩ := Option.map_eq_some'.1 hr
  rw [← List.get?_eq_getElem?] at hc
  obtain ⟨A, B, hL, hA⟩ := get?_split L r c hc
  have hcmem : (c.ele, c.height) ∈ xs := by
    apply hperm.subset
    exact List.mem_map.2 ⟨c, by simp [hL], rfl⟩
  have hch : c.height = ht := by
    rw [hce] at hcmem
    exact nodup_fst_inj xs e c.height ht h.1 hcmem hmem
  subst hL
  have := getByRank_complete hR (by omega)
  rw [hA] at this
  exact ⟨s, c.ptr, hrun, this, by rw [← hce]; exact hR.eles c (by simp)⟩

/-- The lookup at rank 2 on scenario 1 of the specification with heights
2, 3, 2 returns `m2`. -/
theorem getByRank_one_based_witness :
    Admissible [(⟨"m1", 1⟩, 2), (⟨"m2", 2⟩, 3), (⟨"m3", 3⟩, 2)] ∧
      ∃ s p, insertAll empty [(⟨"m1", 1⟩, 2), (⟨"m2", 2⟩, 3), (⟨"m3", 3⟩, 2)] = some s ∧
        s.getByRank ((1 : Nat) + 1) = some (some p) ∧ elementAt s p = some ⟨"m2", 2⟩ :=
  ⟨⟨by decide, by decide⟩,
    getByRank_one_based _ ⟨by decide, by decide⟩ 1 ⟨"m2", 2⟩ 3 (by decide) (by decide)
      (by decide)⟩

/-- C3, as stated, fails at `r = length`: on the three-element list whose last
node has height 2, `getByRank(3)` returns the node of `m3`. -/
theorem getByRank_length_counterexample :
    threeList.length = 3 ∧
      (threeList.getByRank 3).map (fun r => r.bind (elementAt threeList)) =
        some (some ⟨"m3", 3⟩) := by
  decide

/-- C3, amended: in every state reachable by inserts of absent keys and ranged
removals, `getByRank(r)` returns not-found (nil) for every `r < 0` and every
`r > length`. -/
theorem getByRank_out_of_range (s : skiplist) (h : Reachable s) (r : Int)
    (hr : r < 0 ∨ s.length < r) : s.getByRank r = some none := by
  obtain ⟨L, hR⟩ := Reachable_repr h
  obtain ⟨res, hres, hsound⟩ := getByRank_sound hR r
  cases res with
  | none => exact hres
  | some p =>
    exfalso
    obtain ⟨h1, h2, -⟩ := hsound p rfl
    rw [hR.lengthOK] at hr
    omega

/-- Witness of the amended C3: `getByRank(100)` on the three-element list. -/
theorem getByRank_out_of_range_witness :
    Reachable threeList ∧ ((100 : Int) < 0 ∨ threeList.length < 100) ∧
      threeList.getByRank 100 = some none :=
  ⟨@Reachable_build threeBuild threeList ⟨by decide, by decide⟩ rfl, Or.inr (by decide),
    getByRank_out_of_range threeList
      (@Reachable_build threeBuild threeList ⟨by decide, by decide⟩ rfl) 100
      (Or.inr (by decide))⟩

/-! ## Claims on score-range lookup -/

/-- C4: on the one-element list `{("a", -10)}` the range with lower border
`-infinity` (whose `Value` field is the zero value) and upper border `<= -5`
contains the element, as both border tests accept its score, yet
`getFirstInScoreRange` returns nil: `hasInRange` compares the `Value` fields
without looking at the infinity markers. -/
theorem getFirstInScoreRange_ignores_infinity :
    (insertAll empty [(⟨"a", -10⟩, 1)]).bind
        (fun s => s.getFirstInScoreRange ⟨negativeInf, 0, false⟩ ⟨0, -5, false⟩) = some none ∧
      (insertAll empty [(⟨"a", -10⟩, 1)]).bind traverse = some [⟨"a", -10⟩] ∧
      ScoreBorder.less ⟨negativeInf, 0, false⟩ (-10) = true ∧
      ScoreBorder.greater ⟨0, -5, false⟩ (-10) = true := by
  decide

/-! ## Claims on ranged removal -/

/-- C5: for every admissible build with sorted element sequence `S` and all
integers `start >= 1` and `stop`, `RemoveRangeByRank(start, stop)` succeeds and
returns exactly the elements of `S` at the 0-based positions `p` with
`start - 1 <= p < stop - 1` and `p < length`, in ascending order. -/
theorem remove_returns_slice (xs : List (Element × Nat)) (h : Admissible xs)
    (start stop : Int) (hs : 1 ≤ start) :
    ∃ s s' removed, insertAll empty xs = some s ∧
      s.RemoveRangeByRank start stop = some (s', removed) ∧
      removed = ((sortedElements xs).drop (start - 1).toNat).take (stop - start).toNat ∧
      removed.Sorted (fun a b => keyLess a b = true) := by
  obtain ⟨s, L, hrun, hR, hsort, -⟩ := build_repr xs h
  obtain ⟨s', hrm, -, -⟩ := remove_norm hR start stop hs
  refine ⟨s, s', _, hrun, hrm, ?_, ?_⟩
  · rw [← hsort, List.map_take, List.map_drop]
  · rw [List.map_take, List.map_drop]
    have h1 : (L.map Cell.ele).Sorted (fun a b => keyLess a b = true) :=
      hR.sorted.imp (fun h => (keyLess_iff _ _).2 h)
    exact (h1.sublist (List.drop_sublist _ _)).sublist (List.take_sublist _ _)

/-- Witness of C5 on a five-element list: `RemoveRangeByRank(2, 4)`. -/
theorem remove_returns_slice_witness :
    Admissible [(⟨"c", 3⟩, 2), (⟨"a", 1⟩, 1), (⟨"e", 5⟩, 3), (⟨"b", 2⟩, 1), (⟨"d", 4⟩, 1)] ∧
      (1 : Int) ≤ 2 ∧
      ∃ s s' removed,
        insertAll empty
          [(⟨"c", 3⟩, 2), (⟨"a", 1⟩, 1), (⟨"e", 5⟩, 3), (⟨"b", 2⟩, 1), (⟨"d", 4⟩, 1)] = some s ∧
        s.RemoveRangeByRank 2 4 = some (s', removed) ∧
        removed = ((sortedElements
          [(⟨"c", 3⟩, 2), (⟨"a", 1⟩, 1), (⟨"e", 5⟩, 3), (⟨"b", 2⟩, 1), (⟨"d", 4⟩, 1)]).drop
            ((2 : Int) - 1).toNat).take ((4 : Int) - 2).toNat ∧
        removed.Sorted (fun a b => keyLess a b = true) :=
  ⟨⟨by decide, by decide⟩, by decide,
    remove_returns_slice _ ⟨by decide, by decide⟩ 2 4 (by decide)⟩

/-- C6: for every admissible build with sorted element sequence `S` and all
integers `start >= 1` and `stop`, after `RemoveRangeByRank(start, stop)` the
level-0 traversal is `S` with the 0-based slice `[start - 1, stop - 1)` deleted,
the other elements in their original order. -/
theorem remove_leaves_rest (xs : List (Element × Nat)) (h : Admissible xs)
    (start stop : Int) (hs : 1 ≤ start) :
    ∃ s s' removed, insertAll empty xs = some s ∧
      s.RemoveRangeByRank start stop = some (s', removed) ∧
      traverse s' = some ((sortedElements xs).take (start - 1).toNat ++
        (sortedElements xs).drop ((start - 1).toNat + (stop - start).toNat)) := by
  obtain ⟨s, L, hrun, hR, hsort, -⟩ := build_repr xs h
  obtain ⟨s', hrm, hR', -⟩ := remove_norm hR start stop hs
  refine ⟨s, s', _, hrun, hrm, ?_⟩
  rw [traverse_spec hR', ← hsort, List.map_append, List.map_take, List.map_drop]

/-- Witness of C6 on scenario 4 of the specification: a five-element list and
`RemoveRangeByRank(1, 3)`. -/
theorem remove_leaves_rest_witness :
    Admissible [(⟨"c", 3⟩, 2), (⟨"a", 1⟩, 1), (⟨"e", 5⟩, 3), (⟨"b", 2⟩, 1), (⟨"d", 4⟩, 1)] ∧
      (1 : Int) ≤ 1 ∧
      ∃ s s' removed,
        insertAll empty
          [(⟨"c", 3⟩, 2), (⟨"a", 1⟩, 1), (⟨"e", 5⟩, 3), (⟨"b", 2⟩, 1), (⟨"d", 4⟩, 1)] = some s ∧
        s.RemoveRangeByRank 1 3 = some (s', removed) ∧
        traverse s' = some ((sortedElements
          [(⟨"c", 3⟩, 2), (⟨"a", 1⟩, 1), (⟨"e", 5⟩, 3), (⟨"b", 2⟩, 1), (⟨"d", 4⟩, 1)]).take
            ((1 : Int) - 1).toNat ++
          (sortedElements
            [(⟨"c", 3⟩, 2), (⟨"a", 1⟩, 1), (⟨"e", 5⟩, 3), (⟨"b", 2⟩, 1), (⟨"d", 4⟩, 1)]).drop
            (((1 : Int) - 1).toNat + ((3 : Int) - 1).toNat)) :=
  ⟨⟨by decide, by decide⟩, by decide,
    remove_leaves_rest _ ⟨by decide, by decide⟩ 1 3 (by decide)⟩

/-- C7: for every non-empty admissible build, `RemoveRangeByRank(1, length + 1)`
succeeds and leaves the empty-list state: length 0, no tail, level 1, and a
header whose forward reference is nil on every one of its `maxLevel` levels. -/
theorem remove_all_restores_empty (xs : List (Element × Nat)) (h : Admissible xs)
    (_hne : xs ≠ []) :
    ∃ s s' removed, insertAll empty xs = some s ∧
      s.RemoveRangeByRank 1 (s.length + 1) = some (s', removed) ∧
      s'.length = 0 ∧ s'.tail = none ∧ s'.level = 1 ∧
      ∀ i, i < maxLevel → ∃ l, lvl s' s'.header i = some l ∧ l.forward = none := by
  obtain ⟨s, L, hrun, hR, -, -⟩ := build_repr xs h
  obtain ⟨s', hrm, hR', -⟩ := remove_norm hR 1 (s.length + 1) (le_refl _)
  have hL' : L.take ((1 : Int) - 1).toNat ++
      L.drop (((1 : Int) - 1).toNat + (s.length + 1 - 1).toNat) = [] := by
    rw [hR.lengthOK]
    simp
  rw [hL'] at hR'
  refine ⟨s, s', _, hrun, hrm, ?_, ?_, ?_, ?_⟩
  · simpa using hR'.lengthOK
  · simpa using hR'.tailOK
  · have h1 := hR'.levelBounds.1
    have h2 := hR'.top
    by_contra hne
    obtain ⟨c, hc, -⟩ := h2 (by omega)
    simp at hc
  · intro i hi
    obtain ⟨l, hl, hlk⟩ := hR'.header_lvl i hi
    exact ⟨l, hl, by simpa [fa] using hlk.1⟩

/-- Witness of C7 on the three-element list of scenario 1. -/
theorem remove_all_restores_empty_witness :
    Admissible threeBuild ∧ threeBuild ≠ [] ∧
      ∃ s s' removed, insertAll empty threeBuild = some s ∧
        s.RemoveRangeByRank 1 (s.length + 1) = some (s', removed) ∧
        s'.length = 0 ∧ s'.tail = none ∧ s'.level = 1 ∧
        ∀ i, i < maxLevel → ∃ l, lvl s' s'.header i = some l ∧ l.forward = none :=
  ⟨⟨by decide, by decide⟩, by decide,
    remove_all_restores_empty threeBuild ⟨by decide, by decide⟩ (by decide)⟩

/-- C8: for every admissible build and all integers `start`, `stop` with
`start >= stop` or `start > length`, `RemoveRangeByRank(start, stop)` returns the
empty list and the very same state: no link, span, back-reference, tail, length
or level changes. -/
theorem remove_empty_range_noop (xs : List (Element × Nat)) (h : Admissible xs)
    (start stop : Int) (hc : stop ≤ start ∨ (xs.length : Int) < start) :
    ∃ s, insertAll empty xs = some s ∧ s.length = xs.length ∧
      s.RemoveRangeByRank start stop = some (s, []) := by
  obtain ⟨s, L, hrun, hR, -, hperm⟩ := build_repr xs h
  have hlen : L.length = xs.length := by simpa using hperm.length_eq
  obtain ⟨s', hrm, -, -, -, -, hsame⟩ := RemoveRangeByRank_spec s L start stop hR
  have hnil : (L.drop (start - 1).toNat).take
      (stop - (((L.take (start - 1).toNat).length : Int) + 1)).toNat = [] := by
    by_cases hkl : (start - 1).toNat < L.length
    · have h1 : (L.take (start - 1).toNat).length = (start - 1).toNat := by
        simp; omega
      have h2 : (stop - (((L.take (start - 1).toNat).length : Int) + 1)).toNat = 0 := by
        rw [h1]; omega
      rw [h2]; simp
    · rw [List.drop_eq_nil_of_le (by omega)]; simp
  rw [hnil] at hrm hsame
  rw [hsame rfl] at hrm
  exact ⟨s, hrun, by rw [hR.lengthOK, hlen], hrm⟩

/-- Witness of C8 on scenario 6 of the specification: `RemoveRangeByRank(4, 2)`
on the three-element list. -/
theorem remove_empty_range_noop_witness :
    Admissible threeBuild ∧ ((2 : Int) ≤ 4 ∨ (threeBuild.length : Int) < 4) ∧
      ∃ s, insertAll empty threeBuild = some s ∧ s.length = threeBuild.length ∧
        s.RemoveRangeByRank 4 2 = some (s, []) :=
  ⟨⟨by decide, by decide⟩, Or.inl (by decide),
    remove_empty_range_noop threeBuild ⟨by decide, by decide⟩ 4 2 (Or.inl (by decide))⟩

/-- C9: for every admissible build and all integers `start`, `stop`,
`RemoveRangeByRank(start, stop)` succeeds, the length field afterwards is the
length before minus the number of returned elements, and the level field is at
most its value before. -/
theorem remove_length_level (xs : List (Element × Nat)) (h : Admissible xs)
    (start stop : Int) :
    ∃ s s' removed, insertAll empty xs = some s ∧
      s.RemoveRangeByRank start stop = some (s', removed) ∧
      s'.length = s.length - removed.length ∧ s'.level ≤ s.level := by
  obtain ⟨s, L, hrun, hR, -, -⟩ := build_repr xs h
  obtain ⟨s', hrm, hR', hlev, -, -, -⟩ := RemoveRangeByRank_spec s L start stop hR
  refine ⟨s, s', _, hrun, hrm, ?_, hlev⟩
  rw [hR'.lengthOK, hR.lengthOK]
  simp only [List.length_append, List.length_take, List.length_drop, List.length_map]
  omega

/-- Witness of C9: `RemoveRangeByRank(-3, 3)` on the three-element list. -/
theorem remove_length_level_witness :
    Admissible threeBuild ∧
      ∃ s s' removed, insertAll empty threeBuild = some s ∧
        s.RemoveRangeByRank (-3) 3 = some (s', removed) ∧
        s'.length = s.length - removed.length ∧ s'.level ≤ s.level :=
  ⟨⟨by decide, by decide⟩, remove_length_level threeBuild ⟨by decide, by decide⟩ (-3) 3⟩

/-! ## Claims on the invariants -/

/-- C10: in every state reachable from the empty list by inserts of absent keys
(heights within `[1, 16]`) and `RemoveRangeByRank` calls, following the level-0
forward links from the header terminates and the length field equals the number
of nodes reached. -/
theorem length_counts_nodes (s : skiplist) (h : Reachable s) :
    ∃ ps, nodes s = some ps ∧ s.length = ps.length := by
  obtain ⟨L, hR⟩ := Reachable_repr h
  exact ⟨L.map Cell.ptr, nodes_spec hR, by rw [hR.lengthOK]; simp⟩

/-- Witness of C10 on the three-element list after `RemoveRangeByRank(1, 2)`. -/
theorem length_counts_nodes_witness :
    Reachable twoList ∧ ∃ ps, nodes twoList = some ps ∧ twoList.length = ps.length :=
  ⟨Reachable.remove threeList 1 2 twoList [⟨"m1", 1⟩]
      (@Reachable_build threeBuild threeList ⟨by decide, by decide⟩ rfl) rfl,
    length_counts_nodes twoList
      (Reachable.remove threeList 1 2 twoList [⟨"m1", 1⟩]
        (@Reachable_build threeBuild threeList ⟨by decide, by decide⟩ rfl) rfl)⟩

/-! ## Removal keeps the level slots -/

theorem slots_removeNode {s s' : skiplist} {node : Nat} {update : Nat → Option Nat}
    (h : s.removeNode node update = some s') : slots s' = slots s := by
  unfold skiplist.removeNode at h
  cases h1 : forUp (removeUnlinkStep node update) 0 s.level s with
  | none => simp [h1] at h
  | some s1 =>
    simp only [h1] at h
    have hs1 := forUp_preserves _ slots (slots_removeUnlinkStep node update) _ _ _ _ h1
    cases hn : s1.heap node with
    | none => simp [hn] at h
    | some n =>
      cases hl : lvl s1 node 0 with
      | none => simp [hn, hl] at h
      | some l0 =>
        simp only [hn, hl] at h
        cases hf : l0.forward with
        | none =>
          simp only [hf] at h
          cases hk : shrinkLevel { s1 with tail := n.backward }
              ({ s1 with tail := n.backward } : skiplist).level with
          | none => simp [hk] at h
          | some k =>
            simp only [hk, Option.some.injEq] at h
            rw [← h, ← hs1]
            rfl
        | some f =>
          simp only [hf] at h
          cases h2 : setBackward s1 f n.backward with
          | none => simp [h2] at h
          | some s2 =>
            simp only [h2] at h
            cases hk : shrinkLevel s2 s2.level with
            | none => simp [hk] at h
            | some k =>
              simp only [hk, Option.some.injEq] at h
              rw [← h, ← hs1, ← slots_setBackward h2]
              rfl

theorem slots_removeLoop (update : Nat → Option Nat) (stop : Int) :
    ∀ (fuel : Nat) (s : skiplist) (node : Option Nat) (i : Int) (removed : List Element)
      (s' : skiplist) (r : List Element),
      removeLoop update stop fuel s node i removed = some (s', r) → slots s' = slots s := by
  intro fuel
  induction fuel with
  | zero => intro s node i removed s' r h; simp [removeLoop] at h
  | succ fuel ih =>
    intro s node i removed s' r h
    cases node with
    | none =>
      simp only [removeLoop, Option.some.injEq, Prod.mk.injEq] at h
      rw [h.1]
    | some p =>
      simp only [removeLoop] at h
      split at h
      · cases hl : lvl s p 0 with
        | none => simp [hl] at h
        | some l0 =>
          cases hn : s.heap p with
          | none => simp [hl, hn] at h
          | some n =>
            simp only [hl, hn] at h
            cases hr : s.removeNode p update with
            | none => simp [hr] at h
            | some s1 =>
              simp only [hr] at h
              rw [ih s1 _ _ _ s' r h, slots_removeNode hr]
      · simp only [Option.some.injEq, Prod.mk.injEq] at h
        rw [h.1]

theorem slots_RemoveRangeByRank {s s' : skiplist} {start stop : Int} {r : List Element}
    (h : s.RemoveRangeByRank start stop = some (s', r)) : slots s' = slots s := by
  unfold skiplist.RemoveRangeByRank at h
  cases h1 : removeSearch s start s.level s.header 0 (fun _ => none) with
  | none => simp [h1] at h
  | some res =>
    obtain ⟨node, i, update⟩ := res
    simp only [h1] at h
    cases hl : lvl s node 0 with
    | none => simp [hl] at h
    | some l0 =>
      simp only [hl] at h
      exact slots_removeLoop update stop _ _ _ _ _ _ _ h

/-! ## Reachable states, with the exact heights -/

theorem Reachable_wf {s : skiplist} (h : Reachable s) :
    ∃ L, Repr s L ∧ ∀ c ∈ hdrCell s :: L, slots s c.ptr = c.height := by
  induction h with
  | empty =>
    refine ⟨[], Repr_empty, ?_⟩
    intro c hc
    simp only [List.mem_singleton] at hc
    subst hc
    simp [slots, hdrCell, empty]
  | insert s e h s' n _ hne h1 h2 hins ih =>
    obtain ⟨L, hR, hsl⟩ := ih
    rw [traverse_spec hR] at hne
    obtain ⟨A, B, hL, hA, hB⟩ := split_at e L hR.sorted hne
    subst hL
    obtain ⟨s'', hins', hnext, hhdr, hlev, hlen, htail, hele, hbwd, hLk, hslots⟩ :=
      insert_core s A B e h hR hA (fun c hc => not_lt_of_gt (hB c hc)) h1 h2
    rw [hins] at hins'
    cases hins'
    refine ⟨_, Repr_insert s s' A B e h hR hA hB h1 h2 hnext hhdr hlev hlen htail hele hbwd hLk,
      ?_⟩
    intro c hc
    rw [hslots]
    have hhc : hdrCell s' = hdrCell s := by simp [hdrCell, hhdr]
    rw [hhc] at hc
    rcases List.mem_cons.1 hc with rfl | hc
    · have : (hdrCell s).ptr ≠ s.next := Nat.ne_of_lt hR.header_lt
      simp only [this, if_false]
      exact hsl _ (List.mem_cons_self _ _)
    · rcases List.mem_append.1 hc with h' | h'
      · have : c.ptr ≠ s.next := Nat.ne_of_lt (hR.ptr_lt c (by simp [h']))
        simp only [this, if_false]
        exact hsl c (by simp [h'])
      · rcases List.mem_cons.1 h' with rfl | h''
        · simp
        · have : c.ptr ≠ s.next := Nat.ne_of_lt (hR.ptr_lt c (by simp [h'']))
          simp only [this, if_false]
          exact hsl c (by simp [h''])
  | remove s start stop s' removed _ hrm ih =>
    obtain ⟨L, hR, hsl⟩ := ih
    obtain ⟨s'', hrm', hR', -, -, hhdr, -⟩ := RemoveRangeByRank_spec s L start stop hR
    rw [hrm] at hrm'
    cases hrm'
    refine ⟨_, hR', ?_⟩
    intro c hc
    rw [slots_RemoveRangeByRank hrm]
    have hhc : hdrCell s' = hdrCell s := by simp [hdrCell, hhdr]
    rw [hhc] at hc
    apply hsl
    rcases List.mem_cons.1 hc with rfl | hc
    · exact List.mem_cons_self _ _
    · refine List.mem_cons_of_mem _ ?_
      rcases List.mem_append.1 hc with h' | h'
      · exact List.mem_of_mem_take h'
      · exact List.mem_of_mem_drop (List.mem_of_mem_drop h')

/-! ## Spans are rank distances -/

theorem link_target {s : skiplist} {L : List Cell} (hR : Repr s L)
    (hsl : ∀ c ∈ hdrCell s :: L, slots s c.ptr = c.height)
    (pre rest : List Cell) (c : Cell) (hdec : hdrCell s :: L = pre ++ c :: rest)
    (i : Nat) (l : Level) (y : Nat) (hl : lvl s c.ptr i = some l) (hy : l.forward = some y) :
    ∃ X1 d X2, rest = X1 ++ d :: X2 ∧ d.ptr = y ∧ l.span = (X1.length : Int) + 1 := by
  have hi : i < c.height := by
    rw [← hsl c (by rw [hdec]; simp)]
    exact lvl_lt_slots hl
  have hL := hR.links i
  rw [hdec] at hL
  obtain ⟨l', hl', hfw, hsp⟩ := (Links_suffix hL).1 hi
  rw [hl] at hl'
  cases hl'
  rw [hy] at hfw
  cases hfa : fa i none rest with
  | none => rw [hfa] at hfw; simp at hfw
  | some q =>
    rw [hfa] at hfw
    simp only [Option.map_some', Option.some.injEq] at hfw
    obtain ⟨X1, d, X2, hX, hdp, -, hq, -⟩ := fa_some_split i rest q hfa
    exact ⟨X1, d, X2, hX, by rw [hdp, hfw], by rw [hsp q hfa, hq]⟩

theorem get?_append_cons {α : Type} (pre : List α) (c : α) (rest : List α) :
    (pre ++ c :: rest).get? pre.length = some c := by
  rw [List.get?_eq_getElem?, List.getElem?_append_right (le_refl _)]
  simp

theorem link_rank {s : skiplist} {L : List Cell} (hR : Repr s L)
    (hsl : ∀ c ∈ hdrCell s :: L, slots s c.ptr = c.height)
    (k x i : Nat) (l : Level) (y : Nat)
    (hk : (s.header :: L.map Cell.ptr).get? k = some x)
    (hl : lvl s x i = some l) (hy : l.forward = some y) :
    ∃ j, (s.header :: L.map Cell.ptr).get? j = some y ∧ l.span = (j : Int) - k ∧
      1 ≤ l.span := by
  have hP : s.header :: L.map Cell.ptr = (hdrCell s :: L).map Cell.ptr := rfl
  rw [hP, List.get?_eq_getElem?, List.getElem?_map] at hk
  obtain ⟨c, hc, hcx⟩ := Option.map_eq_some'.1 hk
  rw [← List.get?_eq_getElem?] at hc
  obtain ⟨pre, rest, hdec, hpre⟩ := get?_split _ k c hc
  subst hcx
  obtain ⟨X1, d, X2, hX, hdp, hsp⟩ := link_target hR hsl pre rest c hdec i l y hl hy
  refine ⟨k + X1.length + 1, ?_, ?_, ?_⟩
  · rw [hP, hdec, hX]
    have h1 : pre ++ c :: (X1 ++ d :: X2) = (pre ++ c :: X1) ++ d :: X2 := by simp
    have h2 : k + X1.length + 1 = (pre ++ c :: X1).length := by simp [hpre]; omega
    rw [h1, h2, List.map_append, List.map_cons]
    have := get?_append_cons ((pre ++ c :: X1).map Cell.ptr) d.ptr (X2.map Cell.ptr)
    rw [List.length_map] at this
    rw [this, hdp]
  · rw [hsp]; push_cast; ring
  · rw [hsp]; omega

theorem path_rank {s : skiplist} {L : List Cell} (hR : Repr s L)
    (hsl : ∀ c ∈ hdrCell s :: L, slots s c.ptr = c.height) :
    ∀ (x y : Nat) (d : Int), SpanPath s x y d → ∀ k,
      (s.header :: L.map Cell.ptr).get? k = some x →
      ∃ j, (s.header :: L.map Cell.ptr).get? j = some y ∧ d = (j : Int) - k := by
  intro x y d hp
  induction hp with
  | stay x => intro k hk; exact ⟨k, hk, by simp⟩
  | hop x y z i l d _ hl hy _ ih =>
    intro k hk
    obtain ⟨j1, hj1, hsp, -⟩ := link_rank hR hsl k x i l y hk hl hy
    obtain ⟨j, hj, hd⟩ := ih j1 hj1
    exact ⟨j, hj, by rw [hsp, hd]; ring⟩

/-! ## Back pointers, position by position -/

theorem BackOK_get (s : skiplist) :
    ∀ (X : List Cell) (prev : Option Nat) (k : Nat) (c : Cell), BackOK s prev X →
      X.get? k = some c →
      backwardAt s c.ptr = some (if k = 0 then prev else (X.get? (k - 1)).map Cell.ptr) := by
  intro X
  induction X with
  | nil => intro prev k c _ h; simp at h
  | cons a X ih =>
    intro prev k c hB hk
    cases k with
    | zero =>
      simp only [List.get?_cons_zero, Option.some.injEq] at hk
      subst hk
      simpa using hB.1
    | succ k =>
      simp only [List.get?_cons_succ] at hk
      have := ih (some a.ptr) k c hB.2 hk
      rw [this]
      cases k with
      | zero => simp
      | succ k => simp

/-! ## The example states are reachable -/

theorem Reachable_threeList : Reachable threeList :=
  @Reachable_build threeBuild threeList ⟨by decide, by decide⟩ rfl

theorem Reachable_twoList : Reachable twoList :=
  Reachable.remove threeList 1 2 twoList [⟨"m1", 1⟩] Reachable_threeList rfl

theorem fa_isSome (i : Nat) (X : List Cell) (c : Cell) (hc : c ∈ X) (hi : i < c.height) :
    ∃ q, fa i none X = some q := by
  cases h : fa i none X with
  | none =>
    have := (fa_none_iff i X).1 h c hc
    omega
  | some q => exact ⟨q, rfl⟩

theorem get?_map_ptr (L : List Cell) (k p : Nat) (h : (L.map Cell.ptr).get? k = some p) :
    ∃ c, L.get? k = some c ∧ c.ptr = p := by
  rw [List.get?_eq_getElem?, List.getElem?_map] at h
  obtain ⟨c, hc, hp⟩ := Option.map_eq_some'.1 h
  exact ⟨c, by rw [List.get?_eq_getElem?, hc], hp⟩

/-! ## Claims on the structural invariants -/

/-- C11: in every reachable state the level-0 chain `ps` from the header is
free of repetitions, and with the header at position 0 and the real nodes at
positions 1, 2, … of `header :: ps`: whenever the node `x` at position `k` has
on a level `i` below the list level a forward target `y`, the target stands at
a position `j` with `span = j - k` and `span ≥ 1`; hence along every chain of
such links from the header to a node the spans sum to the position of that
node, its 1-based rank. -/
theorem span_is_rank_distance (s : skiplist) (h : Reachable s) :
    ∃ ps, nodes s = some ps ∧ (s.header :: ps).Nodup ∧
      (∀ (k x i : Nat) (l : Level) (y : Nat), (s.header :: ps).get? k = some x →
        i < s.level → lvl s x i = some l → l.forward = some y →
        ∃ j, (s.header :: ps).get? j = some y ∧ l.span = (j : Int) - k ∧ 1 ≤ l.span) ∧
      (∀ (y : Nat) (d : Int), SpanPath s s.header y d →
        ∃ j, (s.header :: ps).get? j = some y ∧ d = j) := by
  obtain ⟨L, hR, hsl⟩ := Reachable_wf h
  refine ⟨L.map Cell.ptr, nodes_spec hR, hR.nodup, ?_, ?_⟩
  · intro k x i l y hk _ hl hy
    exact link_rank hR hsl k x i l y hk hl hy
  · intro y d hp
    obtain ⟨j, hj, hd⟩ := path_rank hR hsl _ _ _ hp 0 (by simp)
    exact ⟨j, hj, by simpa using hd⟩

/-- Witness of C11 on the three-element list, whose last node has height 2. -/
theorem span_is_rank_distance_witness :
    Reachable threeList ∧
    ∃ ps, nodes threeList = some ps ∧ (threeList.header :: ps).Nodup ∧
      (∀ (k x i : Nat) (l : Level) (y : Nat), (threeList.header :: ps).get? k = some x →
        i < threeList.level → lvl threeList x i = some l → l.forward = some y →
        ∃ j, (threeList.header :: ps).get? j = some y ∧ l.span = (j : Int) - k ∧ 1 ≤ l.span) ∧
      (∀ (y : Nat) (d : Int), SpanPath threeList threeList.header y d →
        ∃ j, (threeList.header :: ps).get? j = some y ∧ d = j) :=
  ⟨Reachable_threeList, span_is_rank_distance threeList Reachable_threeList⟩

/-- C12: in every reachable state, with `ps` the level-0 chain of the real
nodes: the header is not among them, `tail` is none exactly when the length is
0, `tail` is the last node of the chain, and the back pointer of the node at
position `k` is none for the first node and the node at position `k - 1`
otherwise, so it is never the header. -/
theorem tail_and_back_pointers (s : skiplist) (h : Reachable s) :
    ∃ ps, nodes s = some ps ∧ s.header ∉ ps ∧ (s.tail = none ↔ s.length = 0) ∧
      s.tail = ps.getLast? ∧
      (∀ (k p : Nat), ps.get? k = some p →
        backwardAt s p = some (if k = 0 then none else ps.get? (k - 1)) ∧
        backwardAt s p ≠ some (some s.header)) := by
  obtain ⟨L, hR⟩ := Reachable_repr h
  have hnot : s.header ∉ L.map Cell.ptr := (List.nodup_cons.1 hR.nodup).1
  have hback : ∀ (k p : Nat), (L.map Cell.ptr).get? k = some p →
      backwardAt s p = some (if k = 0 then none else (L.map Cell.ptr).get? (k - 1)) := by
    intro k p hk
    obtain ⟨c, hc, hp⟩ := get?_map_ptr L k p hk
    have := BackOK_get s L none k c hR.back hc
    rw [hp] at this
    rw [this]
    congr 1
    by_cases h0 : k = 0
    · simp [h0]
    · simp only [h0, if_false]
      rw [List.get?_eq_getElem?, List.get?_eq_getElem?, List.getElem?_map]
  refine ⟨L.map Cell.ptr, nodes_spec hR, hnot, ?_, ?_, ?_⟩
  · rw [hR.tailOK, hR.lengthOK]
    cases L with
    | nil => simp
    | cons c L =>
      simp [List.getLast?_cons_cons, List.getLast?_eq_getLast]
      omega
  · rw [hR.tailOK, List.getLast?_map]
  · intro k p hk
    refine ⟨hback k p hk, ?_⟩
    rw [hback k p hk]
    by_cases h0 : k = 0
    · simp [h0]
    · simp only [h0, if_false]
      intro heq
      have heq' : (L.map Cell.ptr).get? (k - 1) = some s.header := Option.some.inj heq
      exact hnot (List.get?_mem heq')

/-- Witness of C12 on the three-element list after `RemoveRangeByRank(1, 2)`. -/
theorem tail_and_back_pointers_witness :
    Reachable twoList ∧
    ∃ ps, nodes twoList = some ps ∧ twoList.header ∉ ps ∧
      (twoList.tail = none ↔ twoList.length = 0) ∧ twoList.tail = ps.getLast? ∧
      (∀ (k p : Nat), ps.get? k = some p →
        backwardAt twoList p = some (if k = 0 then none else ps.get? (k - 1)) ∧
        backwardAt twoList p ≠ some (some twoList.header)) :=
  ⟨Reachable_twoList, tail_and_back_pointers twoList Reachable_twoList⟩

/-- C13: in every reachable state `1 ≤ level ≤ 16`, the header has a forward
node on level index `level - 1` whenever the length is positive, and on every
level index from `level` up to the last slot the forward pointer of the header
is none. -/
theorem level_bounds_header (s : skiplist) (h : Reachable s) :
    1 ≤ s.level ∧ s.level ≤ maxLevel ∧
      (0 < s.length → ∃ l y, lvl s s.header (s.level - 1) = some l ∧ l.forward = some y) ∧
      (∀ i, s.level ≤ i → i < maxLevel →
        ∃ l, lvl s s.header i = some l ∧ l.forward = none) := by
  obtain ⟨L, hR⟩ := Reachable_repr h
  refine ⟨hR.levelBounds.1, hR.levelBounds.2, ?_, ?_⟩
  · intro hlen
    have hb := hR.levelBounds
    obtain ⟨l, hl, hlk⟩ := hR.header_lvl (s.level - 1) (by omega)
    have hex : ∃ c ∈ L, s.level - 1 < c.height := by
      by_cases h1 : 1 < s.level
      · obtain ⟨c, hc, hh⟩ := hR.top h1
        exact ⟨c, hc, by omega⟩
      · rw [hR.lengthOK] at hlen
        cases L with
        | nil => simp at hlen
        | cons c L =>
          have := (hR.heights c (List.mem_cons_self _ _)).1
          exact ⟨c, List.mem_cons_self _ _, by omega⟩
    obtain ⟨c, hc, hh⟩ := hex
    obtain ⟨q, hq⟩ := fa_isSome _ L c hc hh
    exact ⟨l, q.1, hl, by rw [hlk.1, hq]; rfl⟩
  · intro i hi hi'
    obtain ⟨l, hl, hlk⟩ := hR.header_lvl i hi'
    have hn : fa i none L = none :=
      (fa_none_iff i L).2 (fun c hc => le_trans (hR.heights c hc).2 hi)
    exact ⟨l, hl, by rw [hlk.1, hn]; rfl⟩

/-- Witness of C13 on the three-element list after `RemoveRangeByRank(1, 2)`. -/
theorem level_bounds_header_witness :
    Reachable twoList ∧ 1 ≤ twoList.level ∧ twoList.level ≤ maxLevel ∧
      (0 < twoList.length →
        ∃ l y, lvl twoList twoList.header (twoList.level - 1) = some l ∧ l.forward = some y) ∧
      (∀ i, twoList.level ≤ i → i < maxLevel →
        ∃ l, lvl twoList twoList.header i = some l ∧ l.forward = none) :=
  ⟨Reachable_twoList, level_bounds_header twoList Reachable_twoList⟩

/-! ## Claims on the borders -/

/-- C14: for every border `b` and score `v`, `b.greater v` is true when `b` is
+infinity, false when `b` is -infinity, and otherwise `v < b.Value` for an
exclusive and `v ≤ b.Value` for an inclusive border; `b.less v` is true when
`b` is -infinity, false when `b` is +infinity, and otherwise `b.Value < v` for
an exclusive and `b.Value ≤ v` for an inclusive border. -/
theorem border_tests (b : ScoreBorder) (v : Rat) :
    b.greater v =
        (if b.Inf = positiveInf then true
         else if b.Inf = negativeInf then false
         else if b.Exclude then decide (v < b.Value) else decide (v ≤ b.Value)) ∧
      b.less v =
        (if b.Inf = negativeInf then true
         else if b.Inf = positiveInf then false
         else if b.Exclude then decide (b.Value < v) else decide (b.Value ≤ v)) := by
  have hne : ¬ positiveInf = negativeInf := by decide
  have hne' : ¬ negativeInf = positiveInf := by decide
  constructor
  · unfold ScoreBorder.greater
    by_cases h1 : b.Inf = positiveInf
    · simp [h1, hne]
    · by_cases h2 : b.Inf = negativeInf
      · simp [h2, hne']
      · simp [h1, h2]
  · rfl

/-! ## Random heights -/

theorem wrap16_add (a b : Int) : wrap16 (wrap16 a + b) = wrap16 (a + b) := by
  unfold wrap16
  omega

theorem wrap16_le (a : Int) : -32768 ≤ wrap16 a ∧ wrap16 a ≤ 32767 := by
  unfold wrap16
  omega

theorem randomLevelLoop_replicate (tail : List Nat) :
    ∀ (n : Nat) (level : Int), wrap16 level = level →
      randomLevelLoop (List.replicate n 0 ++ tail) level =
        randomLevelLoop tail (wrap16 (level + n)) := by
  intro n
  induction n with
  | zero => intro level h; simp [h]
  | succ n ih =>
    intro level _
    have hd : drawExtends 0 = true := by decide
    rw [List.replicate_succ, List.cons_append, randomLevelLoop, if_pos hd,
      ih (wrap16 (level + 1)) (by unfold wrap16; omega), wrap16_add]
    congr 2
    push_cast
    ring

theorem randomLevel_le (draws : List Nat) (h : Int) (hh : randomLevel draws = some h) :
    h ≤ maxLevel := by
  unfold randomLevel at hh
  cases hl : randomLevelLoop draws 1 with
  | none => simp [hl] at hh
  | some level =>
    simp only [hl] at hh
    split at hh
    · cases hh; omega
    · cases hh; exact le_refl _

theorem randomLevelLoop_ge :
    ∀ (draws : List Nat) (level h : Int), 1 ≤ level → level + draws.length ≤ 32768 →
      randomLevelLoop draws level = some h → 1 ≤ h := by
  intro draws
  induction draws with
  | nil => intro level h _ _ hh; simp [randomLevelLoop] at hh
  | cons d ds ih =>
    intro level h h1 h2 hh
    simp only [List.length_cons, Nat.cast_add, Nat.cast_one] at h2
    simp only [randomLevelLoop] at hh
    split at hh
    · have hpos : 1 ≤ ds.length := by
        cases ds with
        | nil => simp [randomLevelLoop] at hh
        | cons _ _ => simp
      have hw : wrap16 (level + 1) = level + 1 := by unfold wrap16; omega
      rw [hw] at hh
      exact ih (level + 1) h (by omega) (by omega) hh
    · cases hh; exact h1

theorem randomLevel_ge (draws : List Nat) (h : Int) (hlen : draws.length ≤ 32767)
    (hh : randomLevel draws = some h) : 1 ≤ h := by
  unfold randomLevel at hh
  cases hl : randomLevelLoop draws 1 with
  | none => simp [hl] at hh
  | some level =>
    have h1 := randomLevelLoop_ge draws 1 level (le_refl _) (by omega) hl
    simp only [hl] at hh
    split at hh
    · cases hh; exact h1
    · cases hh; decide

/-- C15, as the code behaves: after 32767 draws that extend, the `int16`
counter wraps from 32767 to -32768, and when the next draw ends the loop the
test `level < maxLevel` passes and `randomLevel` returns -32768, a height below
1. -/
theorem randomLevel_wraps_negative :
    randomLevel (List.replicate 32767 0 ++ [65535]) = some (-32768) := by
  unfold randomLevel
  rw [randomLevelLoop_replicate [65535] 32767 1 (by decide)]
  decide

/-! ## Inserting a key twice -/

theorem split_le (e : Element) :
    ∀ (L : List Cell), (L.map Cell.ele).Sorted (· < ·) →
      ∃ A B, L = A ++ B ∧ (∀ c ∈ A, c.ele < e) ∧ (∀ c ∈ B, ¬ c.ele < e) := by
  intro L
  induction L with
  | nil => intro _; exact ⟨[], [], rfl, by simp, by simp⟩
  | cons c L ih =>
    intro hs
    simp only [List.map_cons, List.sorted_cons] at hs
    by_cases hc : c.ele < e
    · obtain ⟨A, B, hL, hA, hB⟩ := ih hs.2
      refine ⟨c :: A, B, by simp [hL], ?_, hB⟩
      intro d hd
      rcases List.mem_cons.1 hd with rfl | hd
      · exact hc
      · exact hA d hd
    · refine ⟨[], c :: L, rfl, by simp, ?_⟩
      intro d hd
      rcases List.mem_cons.1 hd with rfl | hd
      · exact hc
      · exact fun hlt => hc (lt_trans (hs.1 d.ele (List.mem_map_of_mem _ hd)) hlt)

theorem nodes_of_links (s : skiplist) (X : List Cell) (hL : Links s 0 none (hdrCell s :: X))
    (hX : ∀ c ∈ X, 1 ≤ c.height) (hn : X.length ≤ s.next) :
    nodes s = some (X.map Cell.ptr) := by
  obtain ⟨l, hl, hlk⟩ := hL.1 (show 0 < maxLevel by decide)
  have hl' : lvl s s.header 0 = some l := hl
  have hfw : l.forward = X.head?.map Cell.ptr := by
    rw [hlk.1]
    exact fa_zero X hX
  have := walk0_spec s X s.next hL.2 hX hn
  simp [nodes, hl', hfw, this]

/-- C16: `insert` does not reject a key that is present.  In every reachable
state, for every element `e` of the traversal and every height within
`[1, 16]`, `insert` succeeds, the node it returns was not allocated before and
is on the level-0 chain afterwards, the length grows by exactly one, and the
traversal afterwards holds `e` twice, so it is not strictly ascending. -/
theorem insert_duplicate_accepted (s : skiplist) (h : Reachable s) (e : Element) (k : Nat)
    (hk : 1 ≤ k) (hk' : k ≤ maxLevel) (he : e ∈ (traverse s).getD []) :
    ∃ s' n ps es, s.insert e k = some (s', n) ∧ s.heap n = none ∧
      nodes s' = some ps ∧ n ∈ ps ∧ elementAt s' n = some e ∧
      s'.length = s.length + 1 ∧ traverse s' = some es ∧ es.count e = 2 ∧
      ¬ es.Sorted (· < ·) := by
  obtain ⟨L, hR⟩ := Reachable_repr h
  rw [traverse_spec hR] at he
  simp only [Option.getD_some] at he
  obtain ⟨A, B, hL, hA, hB⟩ := split_le e L hR.sorted
  subst hL
  obtain ⟨s', hins, hnext, hhdr, -, hlen, -, hele, -, hLk, -⟩ :=
    insert_core s A B e k hR hA hB hk hk'
  have hhc : hdrCell s' = hdrCell s := by simp [hdrCell, hhdr]
  have hhts : ∀ c ∈ A ++ (⟨s.next, k, e⟩ : Cell) :: B, 1 ≤ c.height := by
    intro c hc
    rcases List.mem_append.1 hc with h' | h'
    · exact (hR.heights c (by simp [h'])).1
    · rcases List.mem_cons.1 h' with rfl | h''
      · exact hk
      · exact (hR.heights c (by simp [h''])).1
  have hnodes : nodes s' = some ((A ++ (⟨s.next, k, e⟩ : Cell) :: B).map Cell.ptr) := by
    apply nodes_of_links s' _ (by rw [hhc]; exact hLk 0) hhts
    have := hR.count
    simp only [List.length_append, List.length_cons] at this ⊢
    omega
  have heles : ∀ c ∈ A ++ (⟨s.next, k, e⟩ : Cell) :: B, elementAt s' c.ptr = some c.ele := by
    intro c hc
    rw [hele]
    rcases List.mem_append.1 hc with h' | h'
    · have : c.ptr ≠ s.next := Nat.ne_of_lt (hR.ptr_lt c (by simp [h']))
      simp only [this, if_false]
      exact hR.eles c (by simp [h'])
    · rcases List.mem_cons.1 h' with rfl | h''
      · simp
      · have : c.ptr ≠ s.next := Nat.ne_of_lt (hR.ptr_lt c (by simp [h'']))
        simp only [this, if_false]
        exact hR.eles c (by simp [h''])
  have htrav : traverse s' = some ((A ++ (⟨s.next, k, e⟩ : Cell) :: B).map Cell.ele) := by
    simp only [traverse, hnodes]
    exact mapM_elementAt s' _ heles
  have hcount : ((A ++ (⟨s.next, k, e⟩ : Cell) :: B).map Cell.ele).count e = 2 := by
    have h1 : ((A ++ B).map Cell.ele).count e = 1 :=
      List.count_eq_one_of_mem hR.sorted.nodup he
    simp only [List.map_append, List.map_cons, List.count_append, List.count_cons_self] at h1 ⊢
    omega
  refine ⟨s', s.next, _, _, hins, hR.fresh _ (le_refl _), hnodes, by simp, by simp [hele],
    hlen, htrav, hcount, ?_⟩
  intro hs
  have := List.nodup_iff_count_le_one.1 hs.nodup e
  omega

/-- Witness of C16: inserting `(m2, 2)` again, with height 1, into the
three-element list. -/
theorem insert_duplicate_accepted_witness :
    Reachable threeList ∧ 1 ≤ 1 ∧ 1 ≤ maxLevel ∧
      (⟨"m2", 2⟩ : Element) ∈ (traverse threeList).getD [] ∧
      ∃ s' n ps es, threeList.insert ⟨"m2", 2⟩ 1 = some (s', n) ∧ threeList.heap n = none ∧
        nodes s' = some ps ∧ n ∈ ps ∧ elementAt s' n = some ⟨"m2", 2⟩ ∧
        s'.length = threeList.length + 1 ∧ traverse s' = some es ∧
        es.count ⟨"m2", 2⟩ = 2 ∧ ¬ es.Sorted (· < ·) :=
  ⟨Reachable_threeList, by decide, by decide, by decide,
    insert_duplicate_accepted threeList Reachable_threeList ⟨"m2", 2⟩ 1 (by decide) (by decide)
      (by decide)⟩

/-! ## Positions on the level-0 chain -/

theorem nodup_get?_inj {α : Type} :
    ∀ (l : List α) (i j : Nat) (a : α), l.Nodup → l.get? i = some a → l.get? j = some a →
      i = j := by
  intro l
  induction l with
  | nil => intro i j a _ h; simp at h
  | cons b l ih =>
    intro i j a hn hi hj
    rw [List.nodup_cons] at hn
    cases i with
    | zero =>
      cases j with
      | zero => rfl
      | succ j =>
        simp only [List.get?_cons_zero, Option.some.injEq, List.get?_cons_succ] at hi hj
        subst hi
        exact absurd (List.get?_mem hj) hn.1
    | succ i =>
      cases j with
      | zero =>
        simp only [List.get?_cons_zero, Option.some.injEq, List.get?_cons_succ] at hi hj
        subst hj
        exact absurd (List.get?_mem hi) hn.1
      | succ j =>
        simp only [List.get?_cons_succ] at hi hj
        rw [ih i j a hn.2 hi hj]

theorem level0_path (s : skiplist) (hlev : 0 < s.level) :
    ∀ (rest : List Cell) (c : Cell), Links s 0 none (c :: rest) → 0 < c.height →
      (∀ d ∈ rest, 1 ≤ d.height) → ∀ (j : Nat) (d : Cell), rest.get? j = some d →
      SpanPath s c.ptr d.ptr ((j : Int) + 1) := by
  intro rest
  induction rest with
  | nil => intro c _ _ _ j d h; simp at h
  | cons d0 rest ih =>
    intro c hL hc hX j d hj
    obtain ⟨l, hl, hlk⟩ := hL.1 hc
    have hd0 : 0 < d0.height := hX d0 (List.mem_cons_self _ _)
    have hfa : fa 0 none (d0 :: rest) = some (d0.ptr, 1) := by simp [fa, hd0]
    have hfw : l.forward = some d0.ptr := by rw [hlk.1, hfa]; rfl
    have hsp : l.span = 1 := hlk.2 _ hfa
    cases j with
    | zero =>
      simp only [List.get?_cons_zero, Option.some.injEq] at hj
      subst hj
      have := SpanPath.hop c.ptr d0.ptr d0.ptr 0 l 0 hlev hl hfw (SpanPath.stay d0.ptr)
      rw [hsp] at this
      simpa using this
    | succ j =>
      simp only [List.get?_cons_succ] at hj
      have htail := ih d0 hL.2 hd0 (fun x hx => hX x (List.mem_cons_of_mem _ hx)) j d hj
      have := SpanPath.hop c.ptr d0.ptr d.ptr 0 l _ hlev hl hfw htail
      rw [hsp] at this
      have he : ((j + 1 : Nat) : Int) + 1 = 1 + ((j : Int) + 1) := by push_cast; ring
      rw [he]
      exact this

/-! ## Claim on rank lookup -/

/-- C20: in every reachable state and for every `rank ≥ 1`, when
`getByRank(rank)` returns a node `p`, then `rank` is at most the length, `p` is
the node at position `rank` (counting from 1) of the level-0 chain, so it is
not the header, its element is the `rank`-th of the ascending traversal, and
the spans add up to `rank` along the level-0 links from the header to `p` and
along every other chain of forward links from the header to `p`. -/
theorem getByRank_returns_rank_th (s : skiplist) (h : Reachable s) (rank : Int)
    (hr : 1 ≤ rank) (p : Nat) (hp : s.getByRank rank = some (some p)) :
    ∃ ps es e, nodes s = some ps ∧ traverse s = some es ∧ es.Sorted (· < ·) ∧
      rank ≤ s.length ∧ ps.get? (rank.toNat - 1) = some p ∧ p ≠ s.header ∧
      elementAt s p = some e ∧ es.get? (rank.toNat - 1) = some e ∧
      SpanPath s s.header p rank ∧ ∀ d, SpanPath s s.header p d → d = rank := by
  obtain ⟨L, hR, hsl⟩ := Reachable_wf h
  obtain ⟨res, hres, hsound⟩ := getByRank_sound hR rank
  rw [hp] at hres
  cases hres
  obtain ⟨h0, hle, u, hu, hpu⟩ := hsound p rfl
  obtain ⟨k, hk⟩ : ∃ k : Nat, rank.toNat = k + 1 := ⟨rank.toNat - 1, by omega⟩
  have hu' : L.get? k = some u := by
    rw [hk, List.get?_cons_succ] at hu
    exact hu
  have hk' : rank.toNat - 1 = k := by omega
  have hmem : u ∈ L := List.get?_mem hu'
  have hpos : (s.header :: L.map Cell.ptr).get? rank.toNat = some p := by
    rw [hk, List.get?_cons_succ, List.get?_eq_getElem?, List.getElem?_map,
      ← List.get?_eq_getElem?, hu', hpu]
    rfl
  refine ⟨L.map Cell.ptr, L.map Cell.ele, u.ele, nodes_spec hR, traverse_spec hR, hR.sorted,
    by rw [hR.lengthOK]; exact hle, ?_, ?_, ?_, ?_, ?_, ?_⟩
  · rw [hk', List.get?_eq_getElem?, List.getElem?_map, ← List.get?_eq_getElem?, hu', hpu]
    rfl
  · rw [hpu]
    intro heq
    exact (List.nodup_cons.1 hR.nodup).1 (heq ▸ List.mem_map_of_mem _ hmem)
  · rw [hpu]
    exact hR.eles u hmem
  · rw [hk', List.get?_eq_getElem?, List.getElem?_map, ← List.get?_eq_getElem?, hu']
    rfl
  · have := level0_path s (by have := hR.levelBounds; omega) L (hdrCell s) (hR.links 0)
      (show 0 < maxLevel by decide) (fun d hd => (hR.heights d hd).1) k u hu'
    have he : (k : Int) + 1 = rank := by omega
    rw [he, ← hpu] at this
    exact this
  · intro d hd
    obtain ⟨j, hj, hdj⟩ := path_rank hR hsl _ _ _ hd 0 (by simp)
    have := nodup_get?_inj _ j rank.toNat p hR.nodup hj hpos
    rw [hdj, this]
    simp only [Nat.cast_zero, sub_zero]
    omega

/-- Witness of C20: `getByRank(3)` on the three-element list, whose last node
has height 2. -/
theorem getByRank_returns_rank_th_witness :
    Reachable threeList ∧ (1 : Int) ≤ 3 ∧ threeList.getByRank 3 = some (some 3) ∧
    ∃ ps es e, nodes threeList = some ps ∧ traverse threeList = some es ∧
      es.Sorted (· < ·) ∧ (3 : Int) ≤ threeList.length ∧
      ps.get? ((3 : Int).toNat - 1) = some 3 ∧ 3 ≠ threeList.header ∧
      elementAt threeList 3 = some e ∧ es.get? ((3 : Int).toNat - 1) = some e ∧
      SpanPath threeList threeList.header 3 3 ∧
      ∀ d, SpanPath threeList threeList.header 3 d → d = 3 :=
  ⟨Reachable_threeList, by decide, by decide,
    getByRank_returns_rank_th threeList Reachable_threeList 3 (by decide) 3 (by decide)⟩

/-! ## The border tests are monotone -/

theorem less_mono (b : ScoreBorder) {v w : Rat} (h : v ≤ w) (hv : b.less v = true) :
    b.less w = true := by
  have hne : ¬ positiveInf = negativeInf := by decide
  unfold ScoreBorder.less at hv ⊢
  by_cases h1 : b.Inf = negativeInf
  · simp [h1]
  · by_cases h2 : b.Inf = positiveInf
    · simp [h2, hne] at hv
    · cases he : b.Exclude with
      | true =>
        simp only [h1, h2, he, if_false, if_true, decide_eq_true_eq] at hv ⊢
        exact lt_of_lt_of_le hv h
      | false =>
        simp only [h1, h2, he, if_false, decide_eq_true_eq, Bool.false_eq_true] at hv ⊢
        exact le_trans hv h

theorem greater_anti (b : ScoreBorder) {v w : Rat} (h : v ≤ w) (hw : b.greater w = true) :
    b.greater v = true := by
  have hne : ¬ positiveInf = negativeInf := by decide
  unfold ScoreBorder.greater at hw ⊢
  by_cases h1 : b.Inf = negativeInf
  · simp [h1] at hw
  · by_cases h2 : b.Inf = positiveInf
    · simp [h2, hne]
    · cases he : b.Exclude with
      | true =>
        simp only [h1, h2, he, if_false, if_true, decide_eq_true_eq, gt_iff_lt] at hw ⊢
        exact lt_of_le_of_lt h hw
      | false =>
        simp only [h1, h2, he, if_false, decide_eq_true_eq, Bool.false_eq_true, ge_iff_le]
          at hw ⊢
        exact le_trans h hw

theorem score_le_of_lt {a b : Element} (h : a < b) : a.Score ≤ b.Score := by
  rcases (Element.lt_iff a b).1 h with h1 | ⟨h1, -⟩
  · exact le_of_lt h1
  · exact le_of_eq h1

theorem cell_score {s : skiplist} {L : List Cell} (hR : Repr s L) (c : Cell) (hc : c ∈ L) :
    ∃ n, s.heap c.ptr = some n ∧ n.Score = c.ele.Score := by
  obtain ⟨n, hn, he⟩ := heap_of_elementAt (hR.eles c hc)
  exact ⟨n, hn, by rw [← he]⟩

theorem split_less (min : ScoreBorder) :
    ∀ (L : List Cell), (L.map Cell.ele).Sorted (· < ·) →
      ∃ A B, L = A ++ B ∧ (∀ c ∈ A, min.less c.ele.Score = false) ∧
        (∀ c ∈ B, min.less c.ele.Score = true) := by
  intro L
  induction L with
  | nil => intro _; exact ⟨[], [], rfl, by simp, by simp⟩
  | cons c L ih =>
    intro hs
    simp only [List.map_cons, List.sorted_cons] at hs
    cases hc : min.less c.ele.Score with
    | false =>
      obtain ⟨A, B, hL, hA, hB⟩ := ih hs.2
      refine ⟨c :: A, B, by simp [hL], ?_, hB⟩
      intro d hd
      rcases List.mem_cons.1 hd with rfl | hd
      · exact hc
      · exact hA d hd
    | true =>
      refine ⟨[], c :: L, rfl, by simp, ?_⟩
      intro d hd
      rcases List.mem_cons.1 hd with rfl | hd
      · exact hc
      · exact less_mono min (score_le_of_lt (hs.1 d.ele (List.mem_map_of_mem _ hd))) hc

theorem sorted_head_le :
    ∀ (L : List Cell) (a : Cell), (L.map Cell.ele).Sorted (· < ·) → L.head? = some a →
      ∀ c ∈ L, a.ele.Score ≤ c.ele.Score := by
  intro L a hs ha c hc
  cases L with
  | nil => simp at ha
  | cons a' L =>
    simp only [List.head?_cons, Option.some.injEq] at ha
    subst ha
    simp only [List.map_cons, List.sorted_cons] at hs
    rcases List.mem_cons.1 hc with rfl | hc
    · exact le_refl _
    · exact score_le_of_lt (hs.1 c.ele (List.mem_map_of_mem _ hc))

theorem sorted_le_last :
    ∀ (L : List Cell) (z : Cell), (L.map Cell.ele).Sorted (· < ·) → L.getLast? = some z →
      ∀ c ∈ L, c.ele.Score ≤ z.ele.Score := by
  intro L z hs hz c hc
  obtain ⟨ys, hys⟩ := List.getLast?_eq_some_iff.1 hz
  subst hys
  rcases List.mem_append.1 hc with h | h
  · simp only [List.map_append, List.map_cons, List.map_nil] at hs
    have := (List.pairwise_append.1 hs).2.2 c.ele (List.mem_map_of_mem _ h) z.ele (by simp)
    exact score_le_of_lt this
  · simp only [List.mem_singleton] at h
    subst h
    exact le_refl _

/-! ## The search of `getFirstInScoreRange` -/

theorem rangeWalk_eq (s : skiplist) (min : ScoreBorder) (i : Nat) :
    ∀ fuel x (r : Int), rangeWalk s min i fuel x =
      (advance s i (fun f _ => (s.heap f).map (fun fn => !min.less fn.Score)) fuel x r).map
        Prod.fst := by
  intro fuel
  induction fuel with
  | zero => intro x r; rfl
  | succ fuel ih =>
    intro x r
    simp only [rangeWalk, advance]
    cases lvl s x i with
    | none => rfl
    | some l =>
      obtain ⟨fw, sp⟩ := l
      cases fw with
      | none => rfl
      | some f =>
        cases hf : s.heap f with
        | none => simp [hf]
        | some fn =>
          cases hb : min.less fn.Score with
          | true => simp [hf, hb]
          | false => simp [hf, hb, ih f (r + sp)]

theorem rangeSearch_spec (s : skiplist) (min : ScoreBorder) (A B : List Cell)
    (hR : Repr s (A ++ B)) (hA : ∀ c ∈ A, min.less c.ele.Score = false)
    (hB : ∀ c ∈ B, min.less c.ele.Score = true) :
    ∀ (k : Nat) (pre : List Cell) (x : Cell) (A2 : List Cell),
      hdrCell s :: A = pre ++ x :: A2 → k ≤ x.height → fa k none A2 = none →
      ∃ pre' u, hdrCell s :: A = pre' ++ [u] ∧ rangeSearch s min k x.ptr = some u.ptr := by
  intro k
  induction k with
  | zero =>
    intro pre x A2 hdec _ hfa
    cases A2 with
    | nil => exact ⟨pre, x, hdec, rfl⟩
    | cons c A2 =>
      exfalso
      have h1 := (fa_none_iff 0 _).1 hfa c (List.mem_cons_self _ _)
      have hc : c ∈ A := mem_of_decomp hdec (List.mem_cons_self _ _)
      have h2 := (hR.heights c (List.mem_append_left _ hc)).1
      omega
  | succ k ih =>
    intro pre x A2 hdec hx _
    have hlenA : A.length = pre.length + A2.length := by
      have h1 : (hdrCell s :: A).length = (pre ++ x :: A2).length := by rw [hdec]
      simp at h1; omega
    have hAlen : A2.length < s.next := by
      have h2 := hR.count
      simp at h2
      omega
    have hL : Links s k none (x :: (A2 ++ B)) := by
      have h1 := hR.links k
      have h2 : hdrCell s :: (A ++ B) = pre ++ (x :: (A2 ++ B)) := by
        rw [← List.cons_append, hdec]; simp
      rw [h2] at h1
      exact Links_suffix h1
    obtain ⟨A21, u, post, hdec', hu, hpost, hadv⟩ :=
      advance_spec s k (fun f _ => (s.heap f).map (fun fn => !min.less fn.Score))
        s.next x 0 A2 B hAlen (by omega) hL
        (fun A21 c A22 hc _ => by
          have hcA : c ∈ A := mem_of_decomp hdec (by simp [hc])
          obtain ⟨n, hn, hsc⟩ := cell_score hR c (List.mem_append_left _ hcA)
          simp [hn, hsc, hA c hcA])
        (fun B1 c B2 hc _ => by
          have hcB : c ∈ B := by simp [hc]
          obtain ⟨n, hn, hsc⟩ := cell_score hR c (List.mem_append_right _ hcB)
          simp [hn, hsc, hB c hcB])
    have hdec2 : hdrCell s :: A = (pre ++ A21) ++ u :: post := by
      rw [hdec, List.append_assoc, ← hdec']
    obtain ⟨pre', u', hlast, hres⟩ := ih (pre ++ A21) u post hdec2 (by omega) hpost
    refine ⟨pre', u', hlast, ?_⟩
    simp only [rangeSearch, rangeWalk_eq s min k s.next x.ptr 0, hadv, Option.map_some']
    exact hres

/-! ## The intersection test `hasInRange` -/

theorem hasInRange_eq {s : skiplist} {L : List Cell} (hR : Repr s L) (min max : ScoreBorder) :
    s.hasInRange min max = some
      (if min.Value > max.Value ∨ (min.Value = max.Value ∧ (min.Exclude ∨ max.Exclude)) then
        false
       else
        match L.getLast?, L.head? with
        | some z, some a => min.less z.ele.Score && max.greater a.ele.Score
        | _, _ => false) := by
  unfold skiplist.hasInRange
  split
  · rfl
  · rw [hR.tailOK]
    cases L with
    | nil => rfl
    | cons a L' =>
      obtain ⟨z, hz⟩ : ∃ z, (a :: L').getLast? = some z :=
        ⟨_, List.getLast?_eq_getLast _ (by simp)⟩
      have hzm : z ∈ a :: L' := List.mem_of_getLast?_eq_some hz
      obtain ⟨zn, hzn, hzs⟩ := cell_score hR z hzm
      obtain ⟨an, han, has⟩ := cell_score hR a (List.mem_cons_self _ _)
      obtain ⟨l, hl, hlk⟩ := hR.header_lvl 0 (by decide)
      have hfw : l.forward = some a.ptr := by
        rw [hlk.1, fa_zero _ (fun d hd => (hR.heights d hd).1)]
        rfl
      rw [hz]
      simp only [Option.map_some', hzn, hl, hfw, han, hzs, has, List.head?_cons]
      cases min.less z.ele.Score <;> cases max.greater a.ele.Score <;> rfl

theorem getFirstInScoreRange_spec {s : skiplist} (min max : ScoreBorder) (A B : List Cell)
    (hR : Repr s (A ++ B)) (hA : ∀ c ∈ A, min.less c.ele.Score = false)
    (hB : ∀ c ∈ B, min.less c.ele.Score = true) :
    ∃ b, s.hasInRange min max = some b ∧
      (b = false → s.getFirstInScoreRange min max = some none) ∧
      (b = true → ∃ pre u b0 B1 l n, hdrCell s :: A = pre ++ [u] ∧ B = b0 :: B1 ∧
        rangeSearch s min s.level s.header = some u.ptr ∧ lvl s u.ptr 0 = some l ∧
        l.forward = some b0.ptr ∧ s.heap b0.ptr = some n ∧ n.Score = b0.ele.Score ∧
        s.getFirstInScoreRange min max =
          some (if max.greater b0.ele.Score then some b0.ptr else none)) := by
  refine ⟨_, hasInRange_eq hR min max, ?_, ?_⟩
  · intro hb
    simp only [skiplist.getFirstInScoreRange, hasInRange_eq hR min max, hb]
  · intro hb
    have hBne : B ≠ [] := by
      intro hB0
      subst hB0
      split at hb
      · cases hb
      · rw [List.append_nil] at hb hR
        cases hz : A.getLast? with
        | none => simp [hz] at hb
        | some z =>
          cases ha : A.head? with
          | none => simp [hz, ha] at hb
          | some a =>
            simp only [hz, ha, Bool.and_eq_true] at hb
            have := hA z (List.mem_of_getLast?_eq_some hz)
            rw [this] at hb
            exact absurd hb.1 (by decide)
    obtain ⟨b0, B1, hBs⟩ : ∃ b0 B1, B = b0 :: B1 := by
      cases B with
      | nil => exact absurd rfl hBne
      | cons b0 B1 => exact ⟨b0, B1, rfl⟩
    obtain ⟨pre, u, hlast, hres⟩ := rangeSearch_spec s min A B hR hA hB s.level [] (hdrCell s) A
      rfl hR.levelBounds.2
      ((fa_none_iff _ _).2 (fun c hc => (hR.heights c (List.mem_append_left _ hc)).2))
    have hres' : rangeSearch s min s.level s.header = some u.ptr := hres
    have hL : Links s 0 none (u :: B) := by
      have h1 := hR.links 0
      have h2 : hdrCell s :: (A ++ B) = pre ++ (u :: B) := by
        rw [← List.cons_append, hlast]; simp
      rw [h2] at h1
      exact Links_suffix h1
    have hu : 0 < u.height := by
      cases pre with
      | nil =>
        simp only [List.nil_append, List.cons.injEq] at hlast
        rw [← hlast.1]
        show 0 < maxLevel
        decide
      | cons p pre' =>
        simp only [List.cons_append, List.cons.injEq] at hlast
        have : u ∈ A := by rw [hlast.2]; simp
        exact (hR.heights u (List.mem_append_left _ this)).1
    obtain ⟨l, hl, hlk⟩ := hL.1 hu
    have hfw : l.forward = some b0.ptr := by
      rw [hlk.1, fa_zero _ (fun d hd => (hR.heights d (List.mem_append_right _ hd)).1), hBs]
      rfl
    obtain ⟨n, hn, hsc⟩ := cell_score hR b0 (by simp [hBs])
    refine ⟨pre, u, b0, B1, l, n, hlast, hBs, hres', hl, hfw, hn, hsc, ?_⟩
    simp only [skiplist.getFirstInScoreRange, hasInRange_eq hR min max, hb, hres', hl, hfw, hn,
      hsc]
    cases max.greater b0.ele.Score <;> rfl

/-! ## The linear scan -/

theorem scan_cells {s : skiplist} {L : List Cell} (hR : Repr s L) (min max : ScoreBorder) :
    ∀ (X : List Cell), (∀ c ∈ X, c ∈ L) →
      scanFirstInRange s min max (X.map Cell.ptr) =
        (X.find? (fun c => min.less c.ele.Score && max.greater c.ele.Score)).map Cell.ptr := by
  intro X
  induction X with
  | nil => intro _; rfl
  | cons c X ih =>
    intro hX
    obtain ⟨n, hn, hsc⟩ := cell_score hR c (hX c (List.mem_cons_self _ _))
    have hrest := ih (fun d hd => hX d (List.mem_cons_of_mem _ hd))
    unfold scanFirstInRange at hrest ⊢
    simp only [List.map_cons, List.find?_cons, hn, hsc]
    cases min.less c.ele.Score && max.greater c.ele.Score with
    | true => rfl
    | false => exact hrest

theorem finite_empty (min max : ScoreBorder) (hmin : min.Inf = 0) (hmax : max.Inf = 0)
    (hE : min.Value > max.Value ∨ (min.Value = max.Value ∧ (min.Exclude ∨ max.Exclude)))
    (v : Rat) : (min.less v && max.greater v) = false := by
  have h1 : ¬ (0 : Int) = negativeInf := by decide
  have h2 : ¬ (0 : Int) = positiveInf := by decide
  by_contra hne
  simp only [Bool.not_eq_false, Bool.and_eq_true] at hne
  obtain ⟨hl, hg⟩ := hne
  unfold ScoreBorder.less at hl
  unfold ScoreBorder.greater at hg
  simp only [hmin, hmax, h1, h2, if_false] at hl hg
  cases he1 : min.Exclude <;> cases he2 : max.Exclude <;>
    simp only [he1, he2, if_true, if_false, decide_eq_true_eq, Bool.false_eq_true, gt_iff_lt,
      ge_iff_le, or_self, or_true, true_or, and_true, and_false, or_false] at hl hg hE
  · exact absurd (le_trans hl hg) (not_le.2 hE)
  · rcases hE with hE | hE
    · exact absurd (lt_of_le_of_lt hl hg) (not_lt.2 (le_of_lt hE))
    · rw [hE] at hl
      exact absurd (lt_of_le_of_lt hl hg) (lt_irrefl _)
  · rcases hE with hE | hE
    · exact absurd (lt_of_lt_of_le hl hg) (not_lt.2 (le_of_lt hE))
    · rw [hE] at hl
      exact absurd (lt_of_lt_of_le hl hg) (lt_irrefl _)
  · rcases hE with hE | hE
    · exact absurd (lt_trans hl hg) (not_lt.2 (le_of_lt hE))
    · rw [hE] at hl
      exact absurd (lt_trans hl hg) (lt_irrefl _)

theorem scan_none_of_hasInRange_false {s : skiplist} {L : List Cell} (hR : Repr s L)
    (min max : ScoreBorder) (hmin : min.Inf = 0) (hmax : max.Inf = 0)
    (hb : s.hasInRange min max = some false) :
    ∀ c ∈ L, (min.less c.ele.Score && max.greater c.ele.Score) = false := by
  intro c hc
  rw [hasInRange_eq hR min max] at hb
  simp only [Option.some.injEq] at hb
  split at hb
  · rename_i hE
    exact finite_empty min max hmin hmax hE _
  · cases hz : L.getLast? with
    | none =>
      rw [List.getLast?_eq_none_iff.1 hz] at hc
      simp at hc
    | some z =>
      cases ha : L.head? with
      | none =>
        rw [List.head?_eq_none_iff.1 ha] at hc
        simp at hc
      | some a =>
        simp only [hz, ha, Bool.and_eq_false_iff] at hb
        rcases hb with hb | hb
        · have : min.less c.ele.Score = false := by
            cases hl : min.less c.ele.Score with
            | false => rfl
            | true =>
              have := less_mono min (sorted_le_last L z hR.sorted hz c hc) hl
              rw [hb] at this
              exact absurd this (by decide)
          simp [this]
        · have : max.greater c.ele.Score = false := by
            cases hg : max.greater c.ele.Score with
            | false => rfl
            | true =>
              have := greater_anti max (sorted_head_le L a hR.sorted ha c hc) hg
              rw [hb] at this
              exact absurd this (by decide)
          simp [this]

theorem getFirstInScoreRange_scan {s : skiplist} {L : List Cell} (hR : Repr s L)
    (min max : ScoreBorder) (hmin : min.Inf = 0) (hmax : max.Inf = 0) :
    s.getFirstInScoreRange min max = some (scanFirstInRange s min max (L.map Cell.ptr)) := by
  obtain ⟨A, B, hL, hA, hB⟩ := split_less min L hR.sorted
  subst hL
  obtain ⟨b, hb, hfalse, htrue⟩ := getFirstInScoreRange_spec min max A B hR hA hB
  rw [scan_cells hR min max (A ++ B) (fun c hc => hc)]
  cases b with
  | false =>
    rw [hfalse rfl]
    have hnone := scan_none_of_hasInRange_false hR min max hmin hmax hb
    have : (A ++ B).find? (fun c => min.less c.ele.Score && max.greater c.ele.Score) = none :=
      List.find?_eq_none.2 (fun c hc => by simp [hnone c hc])
    rw [this]
    rfl
  | true =>
    obtain ⟨pre, u, b0, B1, l, n, -, hBs, -, -, -, -, -, hres⟩ := htrue rfl
    rw [hres]
    have hAn : A.find? (fun c => min.less c.ele.Score && max.greater c.ele.Score) = none :=
      List.find?_eq_none.2 (fun c hc => by simp [hA c hc])
    rw [List.find?_append, hAn, hBs]
    simp only [Option.none_or, List.find?_cons, hB b0 (by simp [hBs]), Bool.true_and]
    cases hg : max.greater b0.ele.Score with
    | true => rfl
    | false =>
      have hB1 : B1.find? (fun c => min.less c.ele.Score && max.greater c.ele.Score) = none := by
        apply List.find?_eq_none.2
        intro c hc
        have hs : ((b0 :: B1).map Cell.ele).Sorted (· < ·) := by
          have := hR.sorted
          rw [hBs, List.map_append] at this
          exact (List.pairwise_append.1 this).2.1
        have hle := sorted_head_le (b0 :: B1) b0 hs rfl c (List.mem_cons_of_mem _ hc)
        have : max.greater c.ele.Score = false := by
          cases hg' : max.greater c.ele.Score with
          | false => rfl
          | true =>
            have := greater_anti max hle hg'
            rw [hg] at this
            exact absurd this (by decide)
        simp [this]
      simp [hB1]

/-! ## Claims on the score-range lookup -/

/-- The example of C18: on the set `(x, 1), (y, 2), (z, 3)` with the borders
`min = 2` inclusive and `max = 3` exclusive, `getFirstInScoreRange` returns the
node of `y`. -/
theorem getFirstInScoreRange_xyz :
    (insertAll empty xyzBuild).bind (fun s =>
        (s.getFirstInScoreRange ⟨0, 2, false⟩ ⟨0, 3, true⟩).map
          (fun r => r.bind (elementAt s))) =
      some (some ⟨"y", 2⟩) := by
  decide

/-- C18: for every admissible build and all borders `min` and `max` that are
both finite (`Inf = 0`), `getFirstInScoreRange(min, max)` returns what the
linear scan of the level-0 chain returns: the first node whose score passes
`min.less` and `max.greater`, or none when there is no such node. -/
theorem getFirstInScoreRange_refines_scan (xs : List (Element × Nat)) (h : Admissible xs)
    (min max : ScoreBorder) (hmin : min.Inf = 0) (hmax : max.Inf = 0) :
    ∃ s ps, insertAll empty xs = some s ∧ nodes s = some ps ∧
      s.getFirstInScoreRange min max = some (scanFirstInRange s min max ps) := by
  obtain ⟨s, L, hrun, hR, -, -⟩ := build_repr xs h
  exact ⟨s, L.map Cell.ptr, hrun, nodes_spec hR, getFirstInScoreRange_scan hR min max hmin hmax⟩

/-- Witness of C18 on scenario 3 of the specification: the set
`(x, 1), (y, 2), (z, 3)` with `min = 2` inclusive and `max = 3` exclusive. -/
theorem getFirstInScoreRange_refines_scan_witness :
    Admissible xyzBuild ∧ (⟨0, 2, false⟩ : ScoreBorder).Inf = 0 ∧
      (⟨0, 3, true⟩ : ScoreBorder).Inf = 0 ∧
      ∃ s ps, insertAll empty xyzBuild = some s ∧ nodes s = some ps ∧
        s.getFirstInScoreRange ⟨0, 2, false⟩ ⟨0, 3, true⟩ =
          some (scanFirstInRange s ⟨0, 2, false⟩ ⟨0, 3, true⟩ ps) :=
  ⟨⟨by decide, by decide⟩, rfl, rfl,
    getFirstInScoreRange_refines_scan xyzBuild ⟨by decide, by decide⟩ ⟨0, 2, false⟩
      ⟨0, 3, true⟩ rfl rfl⟩

/-- C19: in every reachable state and for all borders `min` and `max`,
`hasInRange` and `getFirstInScoreRange` return (no read of a missing node, no
level index beyond the height of a visited node), and whenever `hasInRange` is
true the node `n` where the top-down descent stops has a level-0 successor
`f`, which is a node of the heap, so the read of its score succeeds. -/
theorem getFirstInScoreRange_total (s : skiplist) (h : Reachable s) (min max : ScoreBorder) :
    ∃ b res, s.hasInRange min max = some b ∧ s.getFirstInScoreRange min max = some res ∧
      (b = true → ∃ n l f fn, rangeSearch s min s.level s.header = some n ∧
        lvl s n 0 = some l ∧ l.forward = some f ∧ s.heap f = some fn) := by
  obtain ⟨L, hR⟩ := Reachable_repr h
  obtain ⟨A, B, hL, hA, hB⟩ := split_less min L hR.sorted
  subst hL
  obtain ⟨b, hb, hfalse, htrue⟩ := getFirstInScoreRange_spec min max A B hR hA hB
  cases b with
  | false => exact ⟨false, none, hb, hfalse rfl, fun hc => by cases hc⟩
  | true =>
    obtain ⟨pre, u, b0, B1, l, n, -, -, hres, hl, hfw, hn, -, hget⟩ := htrue rfl
    exact ⟨true, _, hb, hget, fun _ => ⟨u.ptr, l, b0.ptr, n, hres, hl, hfw, hn⟩⟩

/-- Witness of C19 on the three-element list after `RemoveRangeByRank(1, 2)`,
with the borders `-infinity` and `+infinity`. -/
theorem getFirstInScoreRange_total_witness :
    Reachable twoList ∧
    ∃ b res, twoList.hasInRange ⟨negativeInf, 0, false⟩ ⟨positiveInf, 0, false⟩ = some b ∧
      twoList.getFirstInScoreRange ⟨negativeInf, 0, false⟩ ⟨positiveInf, 0, false⟩ =
        some res ∧
      (b = true → ∃ n l f fn,
        rangeSearch twoList ⟨negativeInf, 0, false⟩ twoList.level twoList.header = some n ∧
        lvl twoList n 0 = some l ∧ l.forward = some f ∧ twoList.heap f = some fn) :=
  ⟨Reachable_twoList,
    getFirstInScoreRange_total twoList Reachable_twoList ⟨negativeInf, 0, false⟩
      ⟨positiveInf, 0, false⟩⟩

end sortedset

namespace tcp

/-! ## The echo round trip -/

theorem readString_line (rest : List Nat) :
    ∀ (v : List Nat), newline ∉ v →
      readString newline (v ++ newline :: rest) = some (v ++ [newline], rest) := by
  intro v
  induction v with
  | nil => intro _; simp [readString]
  | cons b v ih =>
    intro h
    simp only [List.mem_cons, not_or] at h
    have hb : ¬ b = newline := fun hb => h.1 hb.symm
    simp [readString, hb, ih h.2]

theorem lines_length_le :
    ∀ (vals : List (List Nat)),
      vals.length ≤ ((vals.map (fun v => v ++ [newline])).flatten).length := by
  intro vals
  induction vals with
  | nil => simp
  | cons v vals ih =>
    simp only [List.map_cons, List.flatten_cons, List.length_append, List.length_cons,
      List.length_nil]
    omega

theorem echoLoop_lines :
    ∀ (vals : List (List Nat)) (fuel : Nat), (∀ v ∈ vals, newline ∉ v) → vals.length < fuel →
      echoLoop fuel ((vals.map (fun v => v ++ [newline])).flatten) =
        some (vals.map (fun v => v ++ [newline])) := by
  intro vals
  induction vals with
  | nil =>
    intro fuel _ hf
    cases fuel with
    | zero => simp at hf
    | succ fuel => simp [echoLoop, readString]
  | cons v vals ih =>
    intro fuel h hf
    cases fuel with
    | zero => simp at hf
    | succ fuel =>
      have hv := h v (List.mem_cons_self _ _)
      have hrest := ih fuel (fun w hw => h w (List.mem_cons_of_mem _ hw))
        (by simp at hf; omega)
      have hin : ((v :: vals).map (fun v => v ++ [newline])).flatten =
          v ++ newline :: ((vals.map (fun v => v ++ [newline])).flatten) := by
        simp
      rw [hin, echoLoop, readString_line _ v hv]
      simp only [hrest, List.map_cons]

theorem readLine_line (v : List Nat) (h1 : newline ∉ v) (h3 : v.length < defaultBufSize) :
    readLine defaultBufSize (v ++ [newline]) =
      some (if v.getLast? = some carriageReturn then v.dropLast else v, false) := by
  have ht : (v ++ [newline]).take defaultBufSize = v ++ [newline] :=
    List.take_of_length_le (by simp; omega)
  unfold readLine
  rw [ht, readString_line [] v h1]
  simp only [List.dropLast_concat]
  split <;> rfl

/-- C17, as the test reads the answer, fails for a line that ends in a carriage
return: the handler answers `"a\r\n"` with the same bytes, and `ReadLine` hands
the client `"a"`, not `"a\r"`. -/
theorem echo_carriage_return_counterexample :
    newline ∉ [97, carriageReturn] ∧
      EchoHandler.Handle false ([97, carriageReturn] ++ [newline]) =
        some [[97, carriageReturn] ++ [newline]] ∧
      clientReads [[97, carriageReturn] ++ [newline]] = [some ([97], false)] := by
  decide

/-- C17, amended: for every sequence of lines without a newline sent on one
connection to a handler that is not closing, the handler writes back exactly
the bytes of each line followed by `'\n'`, in the order sent; and when every
line is shorter than the buffer of the reader of the client (4096 bytes), the
client reads back each line unchanged, except that a line ending in a carriage
return is read back without that carriage return. -/
theorem echo_roundtrip (vals : List (List Nat)) (h : ∀ v ∈ vals, newline ∉ v) :
    ∃ writes, EchoHandler.Handle false ((vals.map (fun v => v ++ [newline])).flatten) =
        some writes ∧
      writes = vals.map (fun v => v ++ [newline]) ∧
      ((∀ v ∈ vals, v.length < defaultBufSize) →
        clientReads writes = vals.map (fun v =>
          some (if v.getLast? = some carriageReturn then v.dropLast else v, false))) := by
  refine ⟨_, ?_, rfl, ?_⟩
  · simp only [EchoHandler.Handle, Bool.false_eq_true, if_false]
    exact echoLoop_lines vals _ h (Nat.lt_succ_of_le (lines_length_le vals))
  · intro hlen
    simp only [clientReads, List.map_map]
    apply List.map_congr_left
    intro v hv
    exact readLine_line v (h v hv) (hlen v hv)

/-- Witness of the amended C17: the lines `"12"`, `"a\r"` and `"7"`, all
shorter than the buffer. -/
theorem echo_roundtrip_witness :
    (∀ v ∈ [[49, 50], [97, carriageReturn], [55]], newline ∉ v) ∧
    (∀ v ∈ [[49, 50], [97, carriageReturn], [55]], v.length < defaultBufSize) ∧
    ∃ writes, EchoHandler.Handle false
        (([[49, 50], [97, carriageReturn], [55]].map (fun v => v ++ [newline])).flatten) =
          some writes ∧
      writes = [[49, 50], [97, carriageReturn], [55]].map (fun v => v ++ [newline]) ∧
      ((∀ v ∈ [[49, 50], [97, carriageReturn], [55]], v.length < defaultBufSize) →
        clientReads writes = [[49, 50], [97, carriageReturn], [55]].map (fun v =>
          some (if v.getLast? = some carriageReturn then v.dropLast else v, false))) :=
  ⟨by decide, by decide, echo_roundtrip [[49, 50], [97, carriageReturn], [55]] (by decide)⟩

end tcp
